import Mathlib

/-!
# Rayonix: directive resolution and document assembly

A shallow embedding of `rayonix.go` (the `build` operation): the string
primitives of Go's `strings` package that the program calls, the three-tier
file lookup of `pFile`, the dispatcher `process`, the remote fetcher `pMeta`
and the assembler `buildProject`.

A Go string is a sequence of bytes; it is modelled as a list whose elements
stand for the bytes (the examples use ASCII only, where a byte is a character).
Reading files, HTTP requests and the output file are modelled by an explicit
`World` and by the trace of input/output events that a run performs.
-/

namespace Rayonix

/-- Go strings: a sequence of bytes, each element standing for one byte. -/
abbrev Str := List Char

/-! ## The `strings` package -/

/-- Go `strings.HasPrefix(s, pre)`. -/
def HasPrefix (s pre : Str) : Bool := pre.isPrefixOf s

/-- Go `strings.TrimPrefix(s, pre)`: `s` without the leading `pre`, or `s` itself. -/
def TrimPrefix (s pre : Str) : Str := if HasPrefix s pre then s.drop pre.length else s

/-- Go `strings.Index(s, sep)`: the first position at which `sep` occurs in `s`
(`none` for Go's `-1`). -/
def Index : Str → Str → Option Nat
  | [], sep => if sep = [] then some 0 else none
  | c :: cs, sep => if HasPrefix (c :: cs) sep then some 0 else (Index cs sep).map (· + 1)

/-- Go `strings.Contains(s, sep)`. -/
def Contains (s sep : Str) : Bool := (Index s sep).isSome

/-- The loop of Go `strings.Count` for a non-empty `sep`: cut after each first
occurrence and count. The first argument bounds the number of iterations. -/
def countLoop (sep : Str) : Nat → Str → Nat
  | 0, _ => 0
  | k + 1, s =>
    match Index s sep with
    | none => 0
    | some i => countLoop sep k (s.drop (i + sep.length)) + 1

/-- Go `strings.Count(s, sep)`: the number of non-overlapping occurrences. Every
iteration of the loop removes at least one byte, so `s.length` iterations suffice. -/
def Count (s sep : Str) : Nat :=
  if sep = [] then s.length + 1 else countLoop sep s.length s

/-- The loop of Go `genSplit` (with `sepSave = 0`): `n` cuts at most. -/
def genSplit (sep : Str) : Nat → Str → List Str
  | 0, s => [s]
  | n + 1, s =>
    match Index s sep with
    | none => [s]
    | some m => s.take m :: genSplit sep n (s.drop (m + sep.length))

/-- Go `strings.Split(s, sep)`: `explode` for the empty separator, otherwise
`genSplit` with `Count(s, sep)` cuts. -/
def Split (s sep : Str) : List Str :=
  if sep = [] then s.map (fun c => [c]) else genSplit sep (Count s sep) s

/-- The loop of Go `strings.Replace` for a non-empty `old`: `n` replacements. -/
def replaceLoop (old new : Str) : Nat → Str → Str
  | 0, s => s
  | n + 1, s =>
    match Index s old with
    | none => s
    | some j => s.take j ++ new ++ replaceLoop old new n (s.drop (j + old.length))

/-- Go `strings.Replace(s, old, new, -1)`: every non-overlapping occurrence. -/
def Replace (s old new : Str) : Str :=
  if old = new then s
  else if old = [] then new ++ (s.map (fun c => c :: new)).flatten
  else replaceLoop old new (Count s old) s

/-! ## Outcomes, events and the environment -/

/-- How a run can end without a value: `log.Fatal` (exit status 1), a slice
expression out of range (a Go run-time panic), or a recursion that has not come
back within the given depth. -/
inductive Err
  | fatal
  | outOfRange
  | depthExceeded
  deriving DecidableEq, Repr

/-- The input/output operations of a run, in the order performed. -/
inductive Event
  | readFile (path : Str)
  | httpGet (url : Str)
  | create (path : Str)
  | write (text : Str)
  | close
  deriving DecidableEq, Repr

/-- A run: the events performed and the outcome. -/
structure Run (α : Type) where
  trace : List Event
  result : Except Err α

deriving instance DecidableEq for Except
deriving instance DecidableEq for Run

/-- The answer to an HTTP GET that did not fail at the transport level: a
status code and the body (`none` when reading the body fails). -/
structure HttpResponse where
  status : Nat
  body : Option Str
  deriving DecidableEq

/-- The environment of a run. `readFile p` is what `ioutil.ReadFile(p)` gives
(`none` for an error); `httpGet u` is what `http.Get(u)` gives (`none` for an
error, which Go reports for transport failures only, not for a response with a
non-2xx status); `createOk`/`closeOk` tell whether `os.Create` and `Close`
succeed on the output path. -/
structure World where
  readFile : Str → Option Str
  httpGet : Str → Option HttpResponse
  createOk : Str → Bool
  closeOk : Str → Bool

namespace Run

/-- A run that performs nothing and returns `a`. -/
def ret {α : Type} (a : α) : Run α := ⟨[], .ok a⟩

/-- A run that stops with `e`. -/
def fail {α : Type} (e : Err) : Run α := ⟨[], .error e⟩

/-- A run that performs one event. -/
def emit (ev : Event) : Run Unit := ⟨[ev], .ok ()⟩

/-- Sequencing: the second run happens only when the first returns. -/
def andThen {α β : Type} (x : Run α) (f : α → Run β) : Run β :=
  match x.result with
  | .ok a => ⟨x.trace ++ (f a).trace, (f a).result⟩
  | .error e => ⟨x.trace, .error e⟩

instance : Monad Run where
  pure := ret
  bind := andThen

/-- The value of a run passed through `f`; events and failures stay. -/
def mapResult {α β : Type} (f : α → β) (x : Run α) : Run β :=
  match x.result with
  | .ok a => ⟨x.trace, .ok (f a)⟩
  | .error e => ⟨x.trace, .error e⟩

/-- The run `x` after the events `pre`. -/
def after {α : Type} (pre : List Event) (x : Run α) : Run α := ⟨pre ++ x.trace, x.result⟩

end Run

/-- `ioutil.ReadFile(path)`: one read event, answered by the environment. -/
def ioReadFile (w : World) (path : Str) : Run (Option Str) :=
  ⟨[Event.readFile path], .ok (w.readFile path)⟩

/-! ## The program -/

/-- The trigger token `'!rayonix`. -/
def trigger : Str := "'!rayonix".toList

/-- The newline detection of `buildProject` (172-177), `pFile` (274-279) and
`pMeta` (330-335): split on CR LF when it occurs anywhere, else on LF. -/
def splitLines (bytes : Str) : List Str :=
  if Contains bytes "\r\n".toList then Split bytes "\r\n".toList else Split bytes "\n".toList

/-- The loop `for strings.HasPrefix(line, " ") { line = strings.TrimPrefix(line, " ") }`:
one leading space is removed per iteration. -/
def trimLeadingSpaces : Str → Str
  | [] => []
  | c :: cs => if c = ' ' then trimLeadingSpaces cs else c :: cs

/-- The scanner's normalisation (182-187, 284-288): tabs become spaces, then the
leading spaces go. -/
def normalize (oline : Str) : Str :=
  trimLeadingSpaces (Replace oline "\t".toList " ".toList)

/-- The scanner's test (189, 290). -/
def isDirective (oline : Str) : Bool := HasPrefix (normalize oline) trigger

/-- The loops `for ... { dst = append(dst, src[lnIndex]) }` (199-202, 300-303, 337-340). -/
def appendAll (dst src : List Str) : List Str :=
  src.foldl (fun acc line => acc ++ [line]) dst

/-- The folder of a path as `pFile` computes it (238-243, 257-262): the pieces of
`strings.Split(path, "/")` but the last, each followed by `/`. -/
def folderOf (path : Str) : Str :=
  let fps := Split path "/".toList
  (fps.take (fps.length - 1)).foldl (fun newfps piece => newfps ++ piece ++ "/".toList) []

/-- Lines 233-272 of `pFile`: read `filePath`; if that fails read it below the
folder of `mainFile`; if that fails read it below the folder of `context`; if
that fails too the run is fatal. -/
def readTiers (w : World) (mainFile filePath context : Str) : Run Str := do
  match ← ioReadFile w filePath with
  | some bytes => pure bytes
  | none =>
    let newfps := folderOf mainFile ++ filePath
    match ← ioReadFile w newfps with
    | some bytes => pure bytes
    | none =>
      let newfps2 := folderOf context ++ filePath
      match ← ioReadFile w newfps2 with
      | some bytes => pure bytes
      | none => Run.fail Err.fatal

/-- `pMeta` (308-343): one GET; a transport error or a failing read of the body
is fatal; the status code is not looked at; the body's lines are appended. -/
def pMeta (w : World) (httpPath : Str) (toAppend : List Str) : Run (List Str) := do
  Run.emit (Event.httpGet httpPath)
  match w.httpGet httpPath with
  | none => Run.fail Err.fatal
  | some resp =>
    match resp.body with
    | none => Run.fail Err.fatal
    | some bytes => pure (appendAll toAppend (splitLines bytes))

/-- `process` (345-399), with the call of `pFile` as a parameter. The slice
`line[17:len(line)]` panics when the line is shorter than 17 bytes. -/
def processWith (pFileRec : Str → List Str → Str → Run (List Str)) (w : World)
    (line : Str) (toAppend : List Str) (filePath : Str) : Run (List Str) :=
  let cmds := Split line " ".toList
  if cmds.length < 2 then pure toAppend
  else if cmds.get? 1 = some "import".toList then
    if cmds.length < 3 then pure toAppend
    else if line.length < 17 then Run.fail Err.outOfRange
    else
      let fp := Replace (line.drop 17) "\\".toList "/".toList
      pFileRec (Replace (Replace fp "\r\n".toList []) "\n".toList []) toAppend filePath
  else if cmds.get? 1 = some "meta".toList then
    if cmds.length < 3 then pure toAppend
    else if line.length < 15 then Run.fail Err.outOfRange
    else
      let fp := line.drop 15
      pMeta w (Replace (Replace fp "\r\n".toList []) "\n".toList []) toAppend
  else pure toAppend

/-- The scan loop of `pFile` (282-297) over the lines still to be read; the
state is `(toAppend, subAppend)`. A directive is dispatched with the normalised
line and with `filePath`, the argument of `pFile`, as its context. -/
def scanImported (proc : Str → List Str → Str → Run (List Str)) (filePath : Str) :
    List Str → List Str × List Str → Run (List Str × List Str)
  | [], st => pure st
  | oline :: rest, (toAppend, subAppend) =>
    if HasPrefix (normalize oline) trigger then do
      let subAppend ← proc (normalize oline) subAppend filePath
      scanImported proc filePath rest (toAppend, subAppend)
    else
      scanImported proc filePath rest (toAppend ++ [oline], subAppend)

/-- Lines 274-305 of `pFile`, on the bytes that were read: split, scan with an
empty `subAppend`, then put `subAppend` behind `toAppend`. -/
def scanAndAppend (proc : Str → List Str → Str → Run (List Str)) (filePath : Str)
    (toAppend : List Str) (bytes : Str) : Run (List Str) := do
  let data := splitLines bytes
  let (toAppend, subAppend) ← scanImported proc filePath data (toAppend, [])
  pure (appendAll toAppend subAppend)

/-- `pFile` (222-306). The first argument bounds the depth of the recursion
`pFile → process → pFile`; `mainFile` is the global variable of that name. -/
def pFile (w : World) (mainFile : Str) : Nat → Str → List Str → Str → Run (List Str)
  | 0, _, _, _ => Run.fail Err.depthExceeded
  | depth + 1, filePath, toAppend, context => do
    let bytes ← readTiers w mainFile filePath context
    scanAndAppend (processWith (pFile w mainFile depth) w) filePath toAppend bytes

/-- `process` (345-399) calling `pFile`. -/
def process (w : World) (mainFile : Str) (depth : Nat)
    (line : Str) (toAppend : List Str) (filePath : Str) : Run (List Str) :=
  processWith (pFile w mainFile depth) w line toAppend filePath

/-- The scan loop of `buildProject` (180-196); the state is `(finished, toAppend)`.
A directive is dispatched with CR LF added to the normalised line; any other line
goes to `finished` with CR LF added. -/
def scanEntry (proc : Str → List Str → Str → Run (List Str)) (filePath : Str) :
    List Str → List Str × List Str → Run (List Str × List Str)
  | [], st => pure st
  | oline :: rest, (finished, toAppend) =>
    if HasPrefix (normalize oline) trigger then do
      let toAppend ← proc (normalize oline ++ "\r\n".toList) toAppend filePath
      scanEntry proc filePath rest (finished, toAppend)
    else
      scanEntry proc filePath rest (finished ++ [oline ++ "\r\n".toList], toAppend)

/-- Lines 166-202 of `buildProject`: read the entry file, scan it, and put the
append buffer behind the finished lines. -/
def assemble (w : World) (mainFile : Str) (depth : Nat) (filePath : Str) : Run (List Str) := do
  match ← ioReadFile w filePath with
  | none => Run.fail Err.fatal
  | some bytes =>
    let data := splitLines bytes
    let (finished, toAppend) ←
      scanEntry (process w mainFile depth) filePath data ([], [])
    pure (appendAll finished toAppend)

/-- The write loop (212-215): `fmt.Fprintln(f, line)` writes the line and one LF. -/
def writeLines : List Str → Run Unit
  | [] => pure ()
  | line :: rest => do
    Run.emit (Event.write (line ++ "\n".toList))
    writeLines rest

/-- Lines 204-219 of `buildProject`: create the output file, write, close. -/
def writeOutput (w : World) (outPath : Str) (finished : List Str) : Run Unit := do
  Run.emit (Event.create outPath)
  if w.createOk outPath then do
    writeLines finished
    Run.emit Event.close
    if w.closeOk outPath then pure () else Run.fail Err.fatal
  else Run.fail Err.fatal

/-- `buildProject` (153-220). -/
def buildProject (w : World) (mainFile : Str) (depth : Nat) (filePath outPath : Str) :
    Run Unit := do
  let finished ← assemble w mainFile depth filePath
  writeOutput w outPath finished

/-- The `build` case of `main` (100-102): `mainFile` is the entry path. -/
def mainBuild (w : World) (depth : Nat) (filePath outPath : Str) : Run Unit :=
  buildProject w filePath depth filePath outPath

/-- The text that a run has written to the output file. -/
def outputText : List Event → Str
  | [] => []
  | Event.write text :: rest => text ++ outputText rest
  | _ :: rest => outputText rest

/-- Whether a run has created the output file. -/
def createsOutput (tr : List Event) : Bool :=
  tr.any (fun ev => match ev with | Event.create _ => true | _ => false)

/-! ## Specification vocabulary -/

/-- The lines of a document that the scanner does not take for directives. -/
def plainLines (data : List Str) : List Str := data.filter (fun oline => !isDirective oline)

/-- The lines of a document that the scanner takes for directives. -/
def directiveLines (data : List Str) : List Str := data.filter isDirective

/-- Dispatching directive lines one after the other, threading the buffer. -/
def dispatchAll (proc : Str → List Str → Str → Run (List Str)) (context : Str) :
    List Str → List Str → Run (List Str)
  | [], buf => pure buf
  | d :: ds, buf => do
    let buf ← proc d buf context
    dispatchAll proc context ds buf

/-- The blocks of directive lines, each resolved from an empty buffer, glued
together in the order of the lines. -/
def blocksOf (proc : Str → List Str → Str → Run (List Str)) (context : Str) :
    List Str → Run (List Str)
  | [] => pure []
  | d :: ds => do
    let block ← proc d [] context
    let rest ← blocksOf proc context ds
    pure (block ++ rest)

/-! ## Example environments -/

/-- An environment without files, in which `http://h/x` answers with status 404
and the body `Not Found`, and in which `main.bas` holds one `meta` directive. -/
def wNotFound : World where
  readFile := fun p =>
    if p = "main.bas".toList then some "'!rayonix meta http://h/x".toList else none
  httpGet := fun u =>
    if u = "http://h/x".toList then some ⟨404, some "Not Found".toList⟩ else none
  createOk := fun _ => true
  closeOk := fun _ => true

/-- An environment in which nothing can be read or fetched. -/
def wEmpty : World where
  readFile := fun _ => none
  httpGet := fun _ => none
  createOk := fun _ => true
  closeOk := fun _ => true

/-- An environment in which `http://h/lib.bas` answers with status 200 and a body
of three lines, the second of which has the form of an import directive. -/
def wRemote : World where
  readFile := fun _ => none
  httpGet := fun u =>
    if u = "http://h/lib.bas".toList then
      some ⟨200, some "sub a\n'!rayonix import secret.bas\nend sub".toList⟩
    else none
  createOk := fun _ => true
  closeOk := fun _ => true

/-- An environment in which `b.bas` exists only next to the including file
`lib/util/a.bas`. -/
def wTier3 : World where
  readFile := fun p => if p = "lib/util/b.bas".toList then some "x\ny".toList else none
  httpGet := fun _ => none
  createOk := fun _ => true
  closeOk := fun _ => true

/-- An environment with an entry file `main.bas` that imports `a.bas` and `b.bas`,
where `a.bas` imports `c.bas` in its middle. -/
def wSiblings : World where
  readFile := fun p =>
    if p = "main.bas".toList then
      some "'!rayonix import a.bas\nx\n'!rayonix import b.bas".toList
    else if p = "a.bas".toList then some "a1\n'!rayonix import c.bas\na2".toList
    else if p = "b.bas".toList then some "b1".toList
    else if p = "c.bas".toList then some "c1".toList
    else none
  httpGet := fun _ => none
  createOk := fun _ => true
  closeOk := fun _ => true

/-- The events that only take something in: reading a file, an HTTP GET. -/
def isInput : Event → Bool
  | Event.readFile _ => true
  | Event.httpGet _ => true
  | _ => false

/-- An environment with an entry file `main.bas` that imports `a.bas`, which in
turn imports `gone.bas`, a file that exists nowhere. -/
def wBroken : World where
  readFile := fun p =>
    if p = "main.bas".toList then some "x\n'!rayonix import a.bas\ny".toList
    else if p = "a.bas".toList then some "a1\n'!rayonix import gone.bas".toList
    else none
  httpGet := fun _ => none
  createOk := fun _ => true
  closeOk := fun _ => true

/-- The texts of the write events of a run, in order: one per `fmt.Fprintln`. -/
def writes : List Event → List Str
  | [] => []
  | Event.write text :: rest => text :: writes rest
  | _ :: rest => writes rest

/-- An environment in which the project lives in the folder `proj`, not in the
working directory: `proj/main.bas` imports `folder/file.bas`, which imports
`f2.bas`, the file next to it. -/
def wProject : World where
  readFile := fun p =>
    if p = "proj/main.bas".toList then some "'!rayonix import folder/file.bas".toList
    else if p = "proj/folder/file.bas".toList then some "'!rayonix import f2.bas".toList
    else if p = "proj/folder/f2.bas".toList then some "x".toList
    else none
  httpGet := fun _ => none
  createOk := fun _ => true
  closeOk := fun _ => true

/-- An environment with an entry file `main.bas` of two lines and no directive. -/
def wPlain : World where
  readFile := fun p => if p = "main.bas".toList then some "a\nb".toList else none
  httpGet := fun _ => none
  createOk := fun _ => true
  closeOk := fun _ => true

/-- An environment with an entry file `main.bas` holding a plain line and a `meta`
directive, whose URL answers with one line that has the form of a directive. -/
def wMetaEcho : World where
  readFile := fun p =>
    if p = "main.bas".toList then some "a\n'!rayonix meta http://h/x".toList else none
  httpGet := fun u =>
    if u = "http://h/x".toList then some ⟨200, some "'!rayonix import b.bas".toList⟩ else none
  createOk := fun _ => true
  closeOk := fun _ => true

/-- An environment with an entry file `main.bas` that imports `lib.bas`, a file of
two lines without directive, in its first line. -/
def wOneImport : World where
  readFile := fun p =>
    if p = "main.bas".toList then some "'!rayonix import lib.bas\nx".toList
    else if p = "lib.bas".toList then some "l1\nl2".toList
    else none
  httpGet := fun _ => none
  createOk := fun _ => true
  closeOk := fun _ => true

/-! ## Vocabulary for the later results -/

/-- Go `strings.Join(pieces, sep)`. -/
def Join : List Str → Str → Str
  | [], _ => []
  | [x], _ => x
  | x :: y :: rest, sep => x ++ sep ++ Join (y :: rest) sep

/-- The path that `process` hands to `pFile` (368-376): the line from offset 17,
backslashes turned into `/`, then every CR LF and every LF taken out. -/
def importArg (line : Str) : Str :=
  Replace (Replace (Replace (line.drop 17) "\\".toList "/".toList) "\r\n".toList [])
    "\n".toList []

/-- The URL that `process` hands to `pMeta` (385-391): the line from offset 15 with
every CR LF and every LF taken out. -/
def metaArg (line : Str) : Str :=
  Replace (Replace (line.drop 15) "\r\n".toList []) "\n".toList []

/-- The path with which `process` calls `pFile` on a line, if it does: the second
token is `import`, there are at least 3 tokens and the slice is in range. -/
def importTarget (line : Str) : Option Str :=
  if (Split line " ".toList).get? 1 = some "import".toList ∧
      3 ≤ (Split line " ".toList).length ∧ 17 ≤ line.length
  then some (importArg line) else none

/-- A list of pieces with `suffix` put behind the last one. -/
def appendToLast : List Str → Str → List Str
  | [], _ => []
  | [x], suffix => [x ++ suffix]
  | x :: y :: rest, suffix => x :: appendToLast (y :: rest) suffix

/-- A byte that the scanner's normalisation drops at the front of a line. -/
def isBlank (c : Char) : Bool := c = ' ' || c = '\t'

/-- The BASIC line `print "'!rayonix import x.bas"`: the trigger stands inside a
string literal (byte 34 is the double quote). -/
def quotedLine : Str :=
  "print ".toList ++ Char.ofNat 34 :: ("'!rayonix import x.bas".toList ++ [Char.ofNat 34])

/-- An environment whose entry file `main.bas` is the one line `quotedLine`. -/
def wQuoted : World where
  readFile := fun p => if p = "main.bas".toList then some quotedLine else none
  httpGet := fun _ => none
  createOk := fun _ => true
  closeOk := fun _ => true

/-- A string without the CR and LF bytes at its end. -/
def stripTrailingNewlines (s : Str) : Str :=
  (s.reverse.dropWhile (fun c => c = '\r' || c = '\n')).reverse

/-- The import path in the words of the specification: the line from offset 17,
every backslash turned into `/`, trailing CR and LF bytes stripped. -/
def statedImportArg (line : Str) : Str :=
  stripTrailingNewlines ((line.drop 17).map (fun c => if c = '\\' then '/' else c))

/-- The URL in the words of the specification: the line from offset 15, trailing
CR and LF bytes stripped. -/
def statedMetaArg (line : Str) : Str :=
  stripTrailingNewlines (line.drop 15)

/-- An environment with a cycle: `main.bas` imports `a.bas`, `a.bas` imports
`b.bas`, and `b.bas` imports `a.bas`. -/
def wCycle : World where
  readFile := fun p =>
    if p = "main.bas".toList then some "'!rayonix import a.bas".toList
    else if p = "a.bas".toList then some "a1\n'!rayonix import b.bas".toList
    else if p = "b.bas".toList then some "'!rayonix import a.bas\nb2".toList
    else none
  httpGet := fun _ => none
  createOk := fun _ => true
  closeOk := fun _ => true

/-- Whether every chain of imports that starts in the file found for `a` in the
context `c` has at most `k` imports: the imports of that file lead to files whose
chains have at most `k - 1`. A file that cannot be found ends the chain. -/
def chainBound (w : World) (m : Str) : Nat → Str → Str → Bool
  | 0, a, c =>
    match (readTiers w m a c).result with
    | .error _ => true
    | .ok bytes =>
      ((directiveLines (splitLines bytes)).map normalize).all
        (fun d => (importTarget d).isNone)
  | k + 1, a, c =>
    match (readTiers w m a c).result with
    | .error _ => true
    | .ok bytes =>
      ((directiveLines (splitLines bytes)).map normalize).all
        (fun d =>
          match importTarget d with
          | none => true
          | some b => chainBound w m k b a)

/-- Whether every chain of imports that starts in the entry document has at most
`bound` imports. -/
def entryChainBound (w : World) (m : Str) (bound : Nat) (filePath : Str) : Bool :=
  match w.readFile filePath with
  | none => true
  | some bytes =>
    ((directiveLines (splitLines bytes)).map
        (fun oline => normalize oline ++ "\r\n".toList)).all
      (fun d =>
        match importTarget d with
        | none => true
        | some b =>
          match bound with
          | 0 => false
          | k + 1 => chainBound w m k b filePath)

/-- An environment with the cycle of `wCycle`, where `a.bas` first imports a file
that exists nowhere. -/
def wCycleBroken : World where
  readFile := fun p =>
    if p = "a.bas".toList then
      some "'!rayonix import gone.bas\n'!rayonix import b.bas".toList
    else if p = "b.bas".toList then some "'!rayonix import a.bas".toList
    else none
  httpGet := fun _ => none
  createOk := fun _ => true
  closeOk := fun _ => true

/-! ## The import relation -/

/-- The path at which `pFile` finds the file for the argument `a` in the context
`c`: the first of `a`, `folderOf m ++ a`, `folderOf c ++ a` that can be read. -/
def openedPath (w : World) (m a c : Str) : Option Str :=
  if (w.readFile a).isSome then some a
  else if (w.readFile (folderOf m ++ a)).isSome then some (folderOf m ++ a)
  else if (w.readFile (folderOf c ++ a)).isSome then some (folderOf c ++ a)
  else none

/-- The arguments of the import directives in the file found for `a` in the
context `c`, in the order of the lines: each is imported with `a` as context. -/
def importsOf (w : World) (m a c : Str) : List Str :=
  match (readTiers w m a c).result with
  | .ok bytes => ((directiveLines (splitLines bytes)).map normalize).filterMap importTarget
  | .error _ => []

/-- The arguments of the import directives in the entry document: each is imported
with the entry path as context. -/
def entryImportsOf (w : World) (filePath : Str) : List Str :=
  match w.readFile filePath with
  | some bytes =>
    ((directiveLines (splitLines bytes)).map
      (fun oline => normalize oline ++ "\r\n".toList)).filterMap importTarget
  | none => []

/-- Whether `bs` is a chain of imports below the file found for `a` in the context
`c`: that file imports the first argument, the file found for it imports the
second, and so on. -/
def isChainFrom (w : World) (m : Str) : Str → Str → List Str → Bool
  | _, _, [] => true
  | a, c, b :: rest => (importsOf w m a c).contains b && isChainFrom w m b a rest

/-- Whether `bs` is a chain of imports that starts in the entry document. -/
def isEntryChain (w : World) (m filePath : Str) : List Str → Bool
  | [] => true
  | b :: rest => (entryImportsOf w filePath).contains b && isChainFrom w m b filePath rest

/-- The files opened along a chain below the import of `a` in the context `c`:
the path found for `a`, then the paths found for the arguments of the chain. -/
def chainFilesFrom (w : World) (m : Str) : Str → Str → List Str → List Str
  | a, c, [] => (openedPath w m a c).toList
  | a, c, b :: rest => (openedPath w m a c).toList ++ chainFilesFrom w m b a rest

/-- The files opened along a chain of imports that starts in the entry document. -/
def entryChainFiles (w : World) (m filePath : Str) : List Str → List Str
  | [] => []
  | b :: rest => chainFilesFrom w m b filePath rest

/-! ## Runs: algebra -/

namespace Run

theorem bind_def {α β : Type} (x : Run α) (f : α → Run β) : (x >>= f) = andThen x f := rfl

theorem pure_def {α : Type} (a : α) : (pure a : Run α) = ret a := rfl

@[simp] theorem andThen_ret {α β : Type} (a : α) (f : α → Run β) : andThen (ret a) f = f a := by
  simp [andThen, ret]

@[simp] theorem andThen_fail {α β : Type} (e : Err) (f : α → Run β) :
    andThen (fail e) f = fail e := by
  simp [andThen, fail]

@[simp] theorem andThen_ret_right {α : Type} (x : Run α) : andThen x ret = x := by
  rcases x with ⟨t, r⟩
  cases r <;> simp [andThen, ret]

theorem andThen_assoc {α β γ : Type} (x : Run α) (f : α → Run β) (g : β → Run γ) :
    andThen (andThen x f) g = andThen x (fun a => andThen (f a) g) := by
  rcases x with ⟨t, r⟩
  cases r with
  | error e => simp [andThen]
  | ok a =>
    rcases h : f a with ⟨t2, r2⟩
    cases r2 <;> simp [andThen, h]

theorem mapResult_eq_andThen {α β : Type} (f : α → β) (x : Run α) :
    mapResult f x = andThen x (fun a => ret (f a)) := by
  rcases x with ⟨t, r⟩
  cases r <;> simp [andThen, mapResult, ret]

@[simp] theorem after_nil {α : Type} (x : Run α) : after [] x = x := by
  simp [after]

theorem andThen_mk_ok {α β : Type} (t : List Event) (a : α) (f : α → Run β) :
    andThen ⟨t, .ok a⟩ f = after t (f a) := by
  simp [andThen, after]

theorem andThen_after {α β : Type} (t : List Event) (x : Run α) (f : α → Run β) :
    andThen (after t x) f = after t (andThen x f) := by
  rcases x with ⟨t1, r⟩
  cases r <;> simp [andThen, after]

theorem mapResult_after {α β : Type} (t : List Event) (x : Run α) (f : α → β) :
    mapResult f (after t x) = after t (mapResult f x) := by
  rcases x with ⟨t1, r⟩
  cases r <;> simp [mapResult, after]

theorem mapResult_mapResult {α β γ : Type} (f : α → β) (g : β → γ) (x : Run α) :
    mapResult g (mapResult f x) = mapResult (fun a => g (f a)) x := by
  rcases x with ⟨t1, r⟩
  cases r <;> simp [mapResult]

theorem mapResult_id {α : Type} (x : Run α) : mapResult (fun a => a) x = x := by
  rcases x with ⟨t1, r⟩
  cases r <;> simp [mapResult]

theorem andThen_mapResult {α β γ : Type} (f : α → β) (x : Run α) (g : β → Run γ) :
    andThen (mapResult f x) g = andThen x (fun a => g (f a)) := by
  rcases x with ⟨t1, r⟩
  cases r <;> simp [mapResult, andThen]

theorem mapResult_andThen {α β γ : Type} (x : Run α) (f : α → Run β) (g : β → γ) :
    mapResult g (andThen x f) = andThen x (fun a => mapResult g (f a)) := by
  rcases x with ⟨t, r⟩
  cases r with
  | error e => simp [andThen, mapResult]
  | ok a =>
    rcases h : f a with ⟨t2, r2⟩
    cases r2 <;> simp [andThen, mapResult, h]

end Run

theorem appendAll_eq (dst src : List Str) : appendAll dst src = dst ++ src := by
  unfold appendAll
  induction src generalizing dst with
  | nil => simp
  | cons x xs ih => simp [List.foldl, ih]

/-! ## Facts about the string primitives -/

theorem HasPrefix_iff (s pre : Str) : HasPrefix s pre = true ↔ ∃ rest, s = pre ++ rest := by
  unfold HasPrefix
  rw [List.isPrefixOf_iff_prefix]
  constructor
  · rintro ⟨t, rfl⟩
    exact ⟨t, rfl⟩
  · rintro ⟨t, rfl⟩
    exact ⟨t, rfl⟩

theorem Index_cons (c : Char) (cs sep : Str) :
    Index (c :: cs) sep =
      if HasPrefix (c :: cs) sep then some 0 else (Index cs sep).map (· + 1) := rfl

/-- Where `Index` finds `sep`, the string is cut into the part before, `sep`, and the rest. -/
theorem Index_some_split (sep : Str) (s : Str) (m : Nat) (h : Index s sep = some m) :
    s = s.take m ++ sep ++ s.drop (m + sep.length) := by
  induction s generalizing m with
  | nil =>
    by_cases hs : sep = []
    · subst hs
      simp [Index] at h
      subst h
      simp
    · simp [Index, hs] at h
  | cons c cs ih =>
    unfold Index at h
    by_cases hp : HasPrefix (c :: cs) sep = true
    · simp only [hp, if_true, Option.some.injEq] at h
      subst h
      obtain ⟨rest, hrest⟩ := (HasPrefix_iff _ _).1 hp
      rw [hrest]
      simp
    · simp only [hp] at h
      cases hi : Index cs sep with
      | none => simp [hi] at h
      | some i =>
        simp only [hi, Option.map_some', Option.some.injEq, Bool.false_eq_true, if_false] at h
        subst h
        have := ih i hi
        simp only [List.take_succ_cons, List.cons_append]
        rw [show i + 1 + sep.length = (i + sep.length) + 1 by omega, List.drop_succ_cons]
        simpa using this

theorem Index_some_le (sep : Str) (s : Str) (m : Nat) (h : Index s sep = some m) :
    m + sep.length ≤ s.length := by
  induction s generalizing m with
  | nil =>
    by_cases hs : sep = []
    · subst hs
      simp [Index] at h
      subst h
      simp
    · simp [Index, hs] at h
  | cons c cs ih =>
    unfold Index at h
    by_cases hp : HasPrefix (c :: cs) sep = true
    · simp only [hp, if_true, Option.some.injEq] at h
      subst h
      obtain ⟨rest, hrest⟩ := (HasPrefix_iff _ _).1 hp
      rw [hrest]
      simp
    · simp only [hp] at h
      cases hi : Index cs sep with
      | none => simp [hi] at h
      | some i =>
        simp only [hi, Option.map_some', Option.some.injEq, Bool.false_eq_true, if_false] at h
        subst h
        have := ih i hi
        simp only [List.length_cons]
        omega

/-- No occurrence is found in a string that lacks one of the bytes of `sep`. -/
theorem Index_none_of_not_mem (sep : Str) (c : Char) (hc : c ∈ sep) (s : Str) (hs : c ∉ s) :
    Index s sep = none := by
  induction s with
  | nil =>
    have : sep ≠ [] := List.ne_nil_of_mem hc
    simp [Index, this]
  | cons x xs ih =>
    have hx : c ∉ xs := fun h => hs (List.mem_cons_of_mem _ h)
    unfold Index
    have hp : ¬ HasPrefix (x :: xs) sep = true := by
      intro hp
      obtain ⟨rest, hrest⟩ := (HasPrefix_iff _ _).1 hp
      apply hs
      rw [hrest]
      exact List.mem_append_left _ hc
    simp [hp, ih hx]

/-- With a one-byte separator `Index` fails exactly on the strings without that byte. -/
theorem Index_single_none_iff (c : Char) (s : Str) : Index s [c] = none ↔ c ∉ s := by
  constructor
  · intro h hmem
    induction s with
    | nil => simp at hmem
    | cons x xs ih =>
      unfold Index at h
      by_cases hp : HasPrefix (x :: xs) [c] = true
      · simp [hp] at h
      · simp only [hp] at h
        have hx : x ≠ c := by
          intro hxc
          apply hp
          rw [HasPrefix_iff]
          exact ⟨xs, by simp [hxc]⟩
        rcases List.mem_cons.1 hmem with h1 | h1
        · exact hx h1.symm
        · apply ih _ h1
          cases hi : Index xs [c] with
          | none => rfl
          | some i => simp [hi] at h
  · intro h
    exact Index_none_of_not_mem [c] c (by simp) s h

theorem countLoop_stable (sep : Str) (hsep : sep ≠ []) (k : Nat) (s : Str) (hk : s.length ≤ k) :
    countLoop sep k s = countLoop sep s.length s := by
  induction k using Nat.strong_induction_on generalizing s with
  | _ k ih =>
    cases k with
    | zero =>
      have : s.length = 0 := by omega
      rw [this]
    | succ k =>
      cases hlen : s.length with
      | zero =>
        have hs : s = [] := List.length_eq_zero.1 hlen
        subst hs
        simp [countLoop, Index, hsep]
      | succ n =>
        simp only [countLoop]
        cases hi : Index s sep with
        | none => rfl
        | some i =>
          simp only
          have hle := Index_some_le sep s i hi
          have hpos : 0 < sep.length := List.length_pos.2 hsep
          have hd : (s.drop (i + sep.length)).length ≤ n := by
            rw [List.length_drop]; omega
          rw [ih k (by omega) _ (by omega), ih n (by omega) _ hd]

/-- The recursion that Go's `Split` performs: cut at the first occurrence and go
on with the rest. -/
theorem Split_unfold (s sep : Str) (hsep : sep ≠ []) :
    Split s sep =
      match Index s sep with
      | none => [s]
      | some m => s.take m :: Split (s.drop (m + sep.length)) sep := by
  unfold Split Count
  simp only [hsep, if_false]
  cases hlen : s.length with
  | zero =>
    have hs : s = [] := List.length_eq_zero.1 hlen
    subst hs
    simp [countLoop, genSplit, Index, hsep]
  | succ n =>
    simp only [countLoop]
    cases hi : Index s sep with
    | none => simp [genSplit]
    | some i =>
      simp only [genSplit, hi]
      have hle := Index_some_le sep s i hi
      have hpos : 0 < sep.length := List.length_pos.2 hsep
      have hd : (s.drop (i + sep.length)).length ≤ n := by
        rw [List.length_drop]; omega
      rw [countLoop_stable sep hsep n _ hd]

theorem Split_ne_nil (s sep : Str) (hsep : sep ≠ []) : Split s sep ≠ [] := by
  rw [Split_unfold s sep hsep]
  cases Index s sep <;> simp

theorem Split_of_Index_none (s sep : Str) (hsep : sep ≠ []) (h : Index s sep = none) :
    Split s sep = [s] := by
  rw [Split_unfold s sep hsep, h]

theorem Replace_of_Index_none (s old new : Str) (hold : old ≠ []) (h : Index s old = none) :
    Replace s old new = s := by
  unfold Replace
  by_cases hon : old = new
  · simp [hon]
  · simp only [hon, hold, if_false]
    unfold Count
    simp only [hold, if_false]
    cases hlen : s.length with
    | zero => simp [countLoop, replaceLoop]
    | succ n => simp [countLoop, h, replaceLoop]

/-! ## Directive lines and their tokens -/

theorem Index_append_single (c : Char) (pre rest : Str) (hpre : c ∉ pre) :
    Index (pre ++ c :: rest) [c] = some pre.length := by
  induction pre with
  | nil =>
    have : HasPrefix (c :: rest) [c] = true := (HasPrefix_iff _ _).2 ⟨rest, rfl⟩
    simp [Index, this]
  | cons x xs ih =>
    have hx : x ≠ c := fun h => hpre (by simp [h])
    have hxs : c ∉ xs := fun h => hpre (List.mem_cons_of_mem _ h)
    have hp : ¬ HasPrefix (x :: (xs ++ c :: rest)) [c] = true := by
      intro hp
      obtain ⟨t, ht⟩ := (HasPrefix_iff _ _).1 hp
      simp only [List.singleton_append, List.cons.injEq] at ht
      exact hx ht.1
    rw [List.cons_append, Index_cons, if_neg hp, ih hxs]
    simp

/-- A one-byte separator cuts off the piece before its first occurrence. -/
theorem Split_single_cons (c : Char) (pre rest : Str) (hpre : c ∉ pre) :
    Split (pre ++ c :: rest) [c] = pre :: Split rest [c] := by
  rw [Split_unfold _ _ (by simp), Index_append_single c pre rest hpre]
  simp

/-- The line `'!rayonix meta ` followed by `u`. -/
theorem metaLine_tokens (u : Str) :
    Split ("'!rayonix meta ".toList ++ u) " ".toList =
      "'!rayonix".toList :: "meta".toList :: Split u " ".toList := by
  have e : "'!rayonix meta ".toList ++ u =
      "'!rayonix".toList ++ ' ' :: ("meta".toList ++ ' ' :: u) := rfl
  have e1 : " ".toList = [' '] := rfl
  rw [e, e1, Split_single_cons _ _ _ (by decide), Split_single_cons _ _ _ (by decide)]

/-- The line `'!rayonix import ` followed by `p`. -/
theorem importLine_tokens (p : Str) :
    Split ("'!rayonix import ".toList ++ p) " ".toList =
      "'!rayonix".toList :: "import".toList :: Split p " ".toList := by
  have e : "'!rayonix import ".toList ++ p =
      "'!rayonix".toList ++ ' ' :: ("import".toList ++ ' ' :: p) := rfl
  have e1 : " ".toList = [' '] := rfl
  rw [e, e1, Split_single_cons _ _ _ (by decide), Split_single_cons _ _ _ (by decide)]

theorem Index_crlf_append (u : Str) (hu : '\n' ∉ u) :
    Index (u ++ "\r\n".toList) "\r\n".toList = some u.length := by
  have e : "\r\n".toList = ['\r', '\n'] := rfl
  rw [e]
  induction u with
  | nil =>
    have : HasPrefix ['\r', '\n'] ['\r', '\n'] = true := by decide
    simp [Index, this]
  | cons x xs ih =>
    have hxs : '\n' ∉ xs := fun h => hu (List.mem_cons_of_mem _ h)
    have hp : ¬ HasPrefix (x :: (xs ++ ['\r', '\n'])) ['\r', '\n'] = true := by
      intro hp
      obtain ⟨t, ht⟩ := (HasPrefix_iff _ _).1 hp
      simp only [List.cons_append, List.nil_append, List.cons.injEq] at ht
      cases xs with
      | nil =>
        simp only [List.nil_append, List.cons.injEq] at ht
        exact absurd ht.2.1 (by decide)
      | cons y ys =>
        simp only [List.cons_append, List.cons.injEq] at ht
        apply hxs
        rw [ht.2.1]
        simp
    rw [List.cons_append, Index_cons, if_neg hp, ih hxs]
    simp

/-- The removal of line ends in `process` (374-376, 389-391) on a string without
LF: nothing changes, and an appended CR LF goes away. -/
theorem strip_newlines (u : Str) (hu : '\n' ∉ u) :
    Replace (Replace u "\r\n".toList []) "\n".toList [] = u ∧
    Replace (Replace (u ++ "\r\n".toList) "\r\n".toList []) "\n".toList [] = u := by
  have hcr : "\r\n".toList ≠ [] := by decide
  have hlf : "\n".toList ≠ [] := by decide
  have h1 : Index u "\r\n".toList = none :=
    Index_none_of_not_mem _ '\n' (by decide) u hu
  have h2 : Index u "\n".toList = none :=
    Index_none_of_not_mem _ '\n' (by decide) u hu
  have h3 : Replace (u ++ "\r\n".toList) "\r\n".toList [] = u := by
    unfold Replace
    rw [if_neg hcr, if_neg hcr]
    unfold Count
    rw [if_neg hcr]
    have hlen : (u ++ "\r\n".toList).length = (u.length + 1) + 1 := by
      rw [List.length_append]; rfl
    have hdrop : List.drop (u.length + "\r\n".toList.length) (u ++ "\r\n".toList) = [] := by
      apply List.drop_eq_nil_of_le
      rw [List.length_append]
    have hnil : Index [] "\r\n".toList = none := by decide
    rw [hlen]
    simp only [countLoop, Index_crlf_append u hu, hdrop, hnil, replaceLoop]
    simp
  refine ⟨?_, ?_⟩
  · rw [Replace_of_Index_none u _ _ hcr h1, Replace_of_Index_none u _ _ hlf h2]
  · rw [h3, Replace_of_Index_none u _ _ hlf h2]

/-! ## The two scan loops -/

theorem scanImported_eq (proc : Str → List Str → Str → Run (List Str)) (filePath : Str)
    (data : List Str) (toAppend subAppend : List Str) :
    scanImported proc filePath data (toAppend, subAppend) =
      Run.mapResult (fun sub => (toAppend ++ plainLines data, sub))
        (dispatchAll proc filePath ((directiveLines data).map normalize) subAppend) := by
  induction data generalizing toAppend subAppend with
  | nil => simp [scanImported, plainLines, directiveLines, dispatchAll, Run.pure_def,
      Run.mapResult, Run.ret]
  | cons oline rest ih =>
    by_cases h : isDirective oline = true
    · have h' : HasPrefix (normalize oline) trigger = true := h
      simp only [scanImported, h', if_true, Run.bind_def, directiveLines, plainLines,
        List.filter_cons, h, List.map_cons, dispatchAll, Bool.not_true]
      simp only [Run.mapResult_andThen]
      congr 1
      funext sub
      have := ih toAppend sub
      simpa [plainLines, directiveLines] using this
    · have h' : ¬ HasPrefix (normalize oline) trigger = true := h
      simp only [scanImported, h', if_false, directiveLines, plainLines,
        List.filter_cons, h]
      have := ih (toAppend ++ [oline]) subAppend
      simpa [plainLines, directiveLines] using this

theorem scanEntry_eq (proc : Str → List Str → Str → Run (List Str)) (filePath : Str)
    (data : List Str) (finished toAppend : List Str) :
    scanEntry proc filePath data (finished, toAppend) =
      Run.mapResult
        (fun buf => (finished ++ (plainLines data).map (fun oline => oline ++ "\r\n".toList), buf))
        (dispatchAll proc filePath
          ((directiveLines data).map (fun oline => normalize oline ++ "\r\n".toList)) toAppend) := by
  induction data generalizing finished toAppend with
  | nil => simp [scanEntry, plainLines, directiveLines, dispatchAll, Run.pure_def,
      Run.mapResult, Run.ret]
  | cons oline rest ih =>
    by_cases h : isDirective oline = true
    · have h' : HasPrefix (normalize oline) trigger = true := h
      simp only [scanEntry, h', if_true, Run.bind_def, directiveLines, plainLines,
        List.filter_cons, h, List.map_cons, dispatchAll, Bool.not_true]
      simp only [Run.mapResult_andThen]
      congr 1
      funext buf
      have := ih finished buf
      simpa [plainLines, directiveLines] using this
    · have h' : ¬ HasPrefix (normalize oline) trigger = true := h
      simp only [scanEntry, h', if_false, directiveLines, plainLines,
        List.filter_cons, h]
      have := ih (finished ++ [oline ++ "\r\n".toList]) toAppend
      simpa [plainLines, directiveLines] using this

/-! ## The buffer is only ever extended -/

theorem scanAndAppend_eq (proc : Str → List Str → Str → Run (List Str)) (filePath : Str)
    (toAppend : List Str) (bytes : Str) :
    scanAndAppend proc filePath toAppend bytes =
      Run.mapResult (fun sub => toAppend ++ (plainLines (splitLines bytes) ++ sub))
        (dispatchAll proc filePath ((directiveLines (splitLines bytes)).map normalize) []) := by
  simp only [scanAndAppend, Run.bind_def, scanImported_eq, Run.andThen_mapResult, Run.pure_def,
    appendAll_eq, List.append_assoc, Run.mapResult_eq_andThen, Run.andThen_assoc,
    Run.andThen_ret]

theorem scanAndAppend_frame (proc : Str → List Str → Str → Run (List Str)) (filePath : Str)
    (toAppend : List Str) (bytes : Str) :
    scanAndAppend proc filePath toAppend bytes =
      Run.mapResult (fun block => toAppend ++ block) (scanAndAppend proc filePath [] bytes) := by
  rw [scanAndAppend_eq, scanAndAppend_eq proc filePath [], Run.mapResult_mapResult]
  simp

theorem pFile_frame (w : World) (mainFile : Str) (depth : Nat) (filePath : Str)
    (toAppend : List Str) (context : Str) :
    pFile w mainFile depth filePath toAppend context =
      Run.mapResult (fun block => toAppend ++ block)
        (pFile w mainFile depth filePath [] context) := by
  cases depth with
  | zero => simp [pFile, Run.mapResult, Run.fail]
  | succ n =>
    simp only [pFile, Run.bind_def, Run.mapResult_andThen]
    congr 1
    funext bytes
    exact scanAndAppend_frame _ _ _ _

theorem pMeta_frame (w : World) (httpPath : Str) (toAppend : List Str) :
    pMeta w httpPath toAppend =
      Run.mapResult (fun block => toAppend ++ block) (pMeta w httpPath []) := by
  simp only [pMeta, Run.bind_def, Run.mapResult_andThen]
  congr 1
  funext u
  cases w.httpGet httpPath with
  | none => simp [Run.mapResult, Run.fail]
  | some resp =>
    rcases resp with ⟨status, body⟩
    cases body with
    | none => simp [Run.mapResult, Run.fail]
    | some bytes => simp [Run.mapResult, Run.pure_def, Run.ret, appendAll_eq]

theorem process_frame (w : World) (mainFile : Str) (depth : Nat) (line : Str)
    (toAppend : List Str) (filePath : Str) :
    process w mainFile depth line toAppend filePath =
      Run.mapResult (fun block => toAppend ++ block)
        (process w mainFile depth line [] filePath) := by
  unfold process processWith
  simp only []
  split_ifs
  all_goals first
    | exact pFile_frame _ _ _ _ _ _
    | exact pMeta_frame _ _ _
    | simp [Run.mapResult, Run.pure_def, Run.ret, Run.fail]

theorem dispatchAll_eq_blocksOf (proc : Str → List Str → Str → Run (List Str))
    (hproc : ∀ d b c, proc d b c = Run.mapResult (fun block => b ++ block) (proc d [] c))
    (context : Str) (ds : List Str) (buf : List Str) :
    dispatchAll proc context ds buf =
      Run.mapResult (fun blocks => buf ++ blocks) (blocksOf proc context ds) := by
  induction ds generalizing buf with
  | nil => simp [dispatchAll, blocksOf, Run.pure_def, Run.mapResult, Run.ret]
  | cons d ds ih =>
    simp only [dispatchAll, blocksOf, Run.bind_def, Run.pure_def]
    rw [hproc d buf context, Run.andThen_mapResult, Run.mapResult_andThen]
    congr 1
    funext block
    rw [ih, Run.mapResult_andThen, Run.mapResult_eq_andThen]
    congr 1
    funext rest
    simp [Run.mapResult, Run.ret]

/-! ## The dispatcher -/

theorem pMeta_ok (w : World) (url : Str) (buf : List Str) (status : Nat) (body : Str)
    (h : w.httpGet url = some ⟨status, some body⟩) :
    pMeta w url buf = ⟨[Event.httpGet url], .ok (buf ++ splitLines body)⟩ := by
  simp [pMeta, Run.bind_def, Run.pure_def, Run.andThen, Run.emit, Run.ret, h, appendAll_eq]

theorem pMeta_failed (w : World) (url : Str) (buf : List Str)
    (h : w.httpGet url = none ∨ ∃ status, w.httpGet url = some ⟨status, none⟩) :
    pMeta w url buf = ⟨[Event.httpGet url], .error Err.fatal⟩ := by
  rcases h with h | ⟨status, h⟩ <;>
    simp [pMeta, Run.bind_def, Run.andThen, Run.emit, Run.fail, h]

theorem process_meta (w : World) (mainFile : Str) (depth : Nat) (line : Str)
    (buf : List Str) (ctx : Str)
    (htok : (Split line " ".toList).get? 1 = some "meta".toList)
    (hlen : 3 ≤ (Split line " ".toList).length) (hrange : 15 ≤ line.length) :
    process w mainFile depth line buf ctx =
      pMeta w (Replace (Replace (line.drop 15) "\r\n".toList []) "\n".toList []) buf := by
  have h2 : ¬ (Split line " ".toList).length < 2 := by omega
  have h3 : ¬ (Split line " ".toList).length < 3 := by omega
  have h15 : ¬ line.length < 15 := by omega
  have hne : ¬ (some "meta".toList = some "import".toList) := by decide
  unfold process processWith
  simp only [htok, h2, h3, h15, hne, if_false, if_true]

theorem process_import (w : World) (mainFile : Str) (depth : Nat) (line : Str)
    (buf : List Str) (ctx : Str)
    (htok : (Split line " ".toList).get? 1 = some "import".toList)
    (hlen : 3 ≤ (Split line " ".toList).length) (hrange : 17 ≤ line.length) :
    process w mainFile depth line buf ctx =
      pFile w mainFile depth
        (Replace (Replace (Replace (line.drop 17) "\\".toList "/".toList)
          "\r\n".toList []) "\n".toList []) buf ctx := by
  have h2 : ¬ (Split line " ".toList).length < 2 := by omega
  have h3 : ¬ (Split line " ".toList).length < 3 := by omega
  have h17 : ¬ line.length < 17 := by omega
  unfold process processWith
  simp only [htok, h2, h3, h17, if_false, if_true]

/-- C10: `process` hands back the buffer as it is, performs no read and no fetch
and does not fail, whenever the line has fewer than 2 tokens, or its second token
is neither `import` nor `meta`, or its second token is `import` or `meta` and the
line has fewer than 3 tokens. -/
theorem process_inert (w : World) (mainFile : Str) (depth : Nat) (line : Str)
    (buf : List Str) (ctx : Str)
    (h : (Split line " ".toList).length < 2 ∨
      ((Split line " ".toList).get? 1 ≠ some "import".toList ∧
        (Split line " ".toList).get? 1 ≠ some "meta".toList) ∨
      (((Split line " ".toList).get? 1 = some "import".toList ∨
          (Split line " ".toList).get? 1 = some "meta".toList) ∧
        (Split line " ".toList).length < 3)) :
    process w mainFile depth line buf ctx = ⟨[], .ok buf⟩ := by
  unfold process processWith
  rcases h with h | ⟨h1, h2⟩ | ⟨h1 | h1, h2⟩
  · simp only [h, if_true]; rfl
  · simp only [h1, h2, if_false]
    split_ifs <;> rfl
  · simp only [h1, h2, if_true]
    split_ifs <;> rfl
  · have hne : ¬ (some "meta".toList = some "import".toList) := by decide
    simp only [h1, h2, hne, if_true, if_false]
    split_ifs <;> rfl

/-- C10, witness: a line of one token, a line with an unknown keyword, and an
`import` without argument leave the buffer as it is. -/
theorem process_inert_witness :
    process wEmpty [] 0 "'!rayonix".toList ["kept".toList] "main.bas".toList
        = ⟨[], .ok ["kept".toList]⟩ ∧
    process wEmpty [] 0 "'!rayonix export a.bas".toList ["kept".toList] "main.bas".toList
        = ⟨[], .ok ["kept".toList]⟩ ∧
    process wEmpty [] 0 "'!rayonix import".toList ["kept".toList] "main.bas".toList
        = ⟨[], .ok ["kept".toList]⟩ :=
  ⟨process_inert wEmpty [] 0 _ _ _ (Or.inl (by decide)),
   process_inert wEmpty [] 0 _ _ _ (Or.inr (Or.inl (by decide))),
   process_inert wEmpty [] 0 _ _ _ (Or.inr (Or.inr (by decide)))⟩

theorem metaLine_facts (u : Str) :
    (Split ("'!rayonix meta ".toList ++ u) " ".toList).get? 1 = some "meta".toList ∧
    3 ≤ (Split ("'!rayonix meta ".toList ++ u) " ".toList).length ∧
    15 ≤ ("'!rayonix meta ".toList ++ u).length ∧
    ("'!rayonix meta ".toList ++ u).drop 15 = u := by
  have hne : Split u " ".toList ≠ [] := Split_ne_nil u _ (by decide)
  have hpos : 0 < (Split u " ".toList).length := List.length_pos.2 hne
  refine ⟨?_, ?_, ?_, ?_⟩
  · rw [metaLine_tokens]; rfl
  · rw [metaLine_tokens]
    simp only [List.length_cons]
    omega
  · rw [List.length_append]
    have : "'!rayonix meta ".toList.length = 15 := rfl
    omega
  · have : "'!rayonix meta ".toList.length = 15 := rfl
    exact List.drop_left' this

/-- C5: for a URL `u` (a string without line feed) whose fetch gives the body `b`,
whatever the status, dispatching the line `'!rayonix meta u`, as `pFile` hands it
over or with the CR LF that `buildProject` adds, returns the buffer followed by
the lines of `b` as `splitLines` cuts them. The only event is the one GET: no file
is read, nothing else is fetched, and the result is the same at every recursion
depth (also at depth 0, where any nested import would not come back), so lines of
`b` that look like directives are plain text. -/
theorem meta_body_appended_verbatim (w : World) (mainFile : Str) (depth : Nat) (u b : Str)
    (status : Nat) (buf : List Str) (ctx : Str)
    (hu : '\n' ∉ u) (hget : w.httpGet u = some ⟨status, some b⟩) :
    process w mainFile depth ("'!rayonix meta ".toList ++ u) buf ctx
      = ⟨[Event.httpGet u], .ok (buf ++ splitLines b)⟩ ∧
    process w mainFile depth ("'!rayonix meta ".toList ++ u ++ "\r\n".toList) buf ctx
      = ⟨[Event.httpGet u], .ok (buf ++ splitLines b)⟩ := by
  constructor
  · obtain ⟨h1, h2, h3, h4⟩ := metaLine_facts u
    rw [process_meta w mainFile depth _ buf ctx h1 h2 h3, h4, (strip_newlines u hu).1]
    exact pMeta_ok w u buf status b hget
  · rw [List.append_assoc]
    obtain ⟨h1, h2, h3, h4⟩ := metaLine_facts (u ++ "\r\n".toList)
    rw [process_meta w mainFile depth _ buf ctx h1 h2 h3, h4, (strip_newlines u hu).2]
    exact pMeta_ok w u buf status b hget

/-- C5, witness: a fetched body whose second line has the form of an import
directive is appended line by line after one GET. -/
theorem meta_body_appended_verbatim_witness :
    process wRemote [] 0 "'!rayonix meta http://h/lib.bas".toList ["kept".toList] "main.bas".toList
      = ⟨[Event.httpGet "http://h/lib.bas".toList],
          .ok ["kept".toList, "sub a".toList, "'!rayonix import secret.bas".toList,
            "end sub".toList]⟩ :=
  (meta_body_appended_verbatim wRemote [] 0 "http://h/lib.bas".toList
    "sub a\n'!rayonix import secret.bas\nend sub".toList 200 ["kept".toList] "main.bas".toList
    (by decide) (by decide)).1

/-- C9, counterexample: `http://h/x` answers with status 404 and the body
`Not Found`. Dispatching `'!rayonix meta http://h/x` is not fatal: the body is
appended to the buffer, and the build of a file holding that directive completes
and writes the body to the output file. -/
theorem meta_status_404_is_appended :
    (wNotFound.httpGet "http://h/x".toList).map HttpResponse.status = some 404 ∧
    (process wNotFound "main.bas".toList 0 "'!rayonix meta http://h/x".toList ["kept".toList]
        "main.bas".toList).result = .ok ["kept".toList, "Not Found".toList] ∧
    (mainBuild wNotFound 0 "main.bas".toList "out.bas".toList).result = .ok () ∧
    outputText (mainBuild wNotFound 0 "main.bas".toList "out.bas".toList).trace
      = "Not Found\n".toList := by
  decide

/-- C9, amended: for every line dispatched as a `meta` directive (second token
`meta`, at least 3 tokens, at least 15 bytes), with `url` the argument that
`process` extracts: when the GET fails at the transport level or the body cannot
be read, the dispatch ends fatally after that one GET and returns no buffer; when
the GET is answered, with whatever status code, the lines of the body are
appended. -/
theorem meta_fetch_failure_is_fatal (w : World) (mainFile : Str) (depth : Nat) (line : Str)
    (buf : List Str) (ctx : Str)
    (htok : (Split line " ".toList).get? 1 = some "meta".toList)
    (hlen : 3 ≤ (Split line " ".toList).length) (hrange : 15 ≤ line.length) :
    ((w.httpGet (Replace (Replace (line.drop 15) "\r\n".toList []) "\n".toList []) = none ∨
        ∃ status, w.httpGet (Replace (Replace (line.drop 15) "\r\n".toList []) "\n".toList [])
          = some ⟨status, none⟩) →
      process w mainFile depth line buf ctx =
        ⟨[Event.httpGet (Replace (Replace (line.drop 15) "\r\n".toList []) "\n".toList [])],
          .error Err.fatal⟩) ∧
    (∀ status body,
      w.httpGet (Replace (Replace (line.drop 15) "\r\n".toList []) "\n".toList [])
        = some ⟨status, some body⟩ →
      process w mainFile depth line buf ctx =
        ⟨[Event.httpGet (Replace (Replace (line.drop 15) "\r\n".toList []) "\n".toList [])],
          .ok (buf ++ splitLines body)⟩) := by
  rw [process_meta w mainFile depth line buf ctx htok hlen hrange]
  exact ⟨fun h => pMeta_failed w _ buf h, fun status body h => pMeta_ok w _ buf status body h⟩

/-- C9, witness: where nothing can be fetched a `meta` directive is fatal. -/
theorem meta_fetch_failure_is_fatal_witness :
    process wEmpty [] 0 "'!rayonix meta http://h/x".toList ["kept".toList] "main.bas".toList
      = ⟨[Event.httpGet "http://h/x".toList], .error Err.fatal⟩ :=
  (meta_fetch_failure_is_fatal wEmpty [] 0 "'!rayonix meta http://h/x".toList ["kept".toList]
    "main.bas".toList (by decide) (by decide) (by decide)).1 (Or.inl (by decide))

/-! ## The folder of a path -/

theorem take_length_pred_cons (x : Str) (xs : List Str) (hxs : xs ≠ []) :
    (x :: xs).take ((x :: xs).length - 1) = x :: xs.take (xs.length - 1) := by
  cases xs with
  | nil => exact absurd rfl hxs
  | cons y ys => simp

theorem folder_loop_spec (n : Nat) (s : Str) (hn : s.length ≤ n) (init : Str) :
    ∃ rest,
      ((Split s ['/']).take ((Split s ['/']).length - 1)).foldl
          (fun newfps piece => newfps ++ piece ++ ['/']) init ++ rest = init ++ s ∧
      '/' ∉ rest ∧
      (((Split s ['/']).take ((Split s ['/']).length - 1)).foldl
          (fun newfps piece => newfps ++ piece ++ ['/']) init = init ∨
        ∃ front, ((Split s ['/']).take ((Split s ['/']).length - 1)).foldl
          (fun newfps piece => newfps ++ piece ++ ['/']) init = front ++ ['/']) := by
  induction n generalizing s init with
  | zero =>
    have hs : s = [] := List.length_eq_zero.1 (by omega)
    subst hs
    have : Split [] ['/'] = [[]] := by decide
    rw [this]
    exact ⟨[], by simp⟩
  | succ n ih =>
    cases hi : Index s ['/'] with
    | none =>
      rw [Split_of_Index_none s _ (by simp) hi]
      exact ⟨s, by simp, (Index_single_none_iff '/' s).1 hi, Or.inl (by simp)⟩
    | some m =>
      have hle := Index_some_le _ s m hi
      have hcut := Index_some_split _ s m hi
      have hshort : (s.drop (m + ['/'].length)).length ≤ n := by
        rw [List.length_drop]
        simp only [List.length_singleton] at hle ⊢
        omega
      have hunf : Split s ['/'] = s.take m :: Split (s.drop (m + ['/'].length)) ['/'] := by
        rw [Split_unfold s _ (by simp), hi]
      rw [hunf, take_length_pred_cons _ _ (Split_ne_nil _ _ (by simp)), List.foldl_cons]
      obtain ⟨rest, h1, h2, h3⟩ := ih _ hshort (init ++ s.take m ++ ['/'])
      refine ⟨rest, ?_, h2, ?_⟩
      · rw [h1]
        conv_rhs => rw [hcut]
        simp
      · rcases h3 with h3 | ⟨front, h3⟩
        · exact Or.inr ⟨init ++ s.take m, h3⟩
        · exact Or.inr ⟨front, h3⟩

/-- The folder of a path is the path up to and including its last `/`: what
follows it in the path holds no `/`, and it is empty or ends in `/`. -/
theorem folderOf_spec (path : Str) :
    ∃ rest, folderOf path ++ rest = path ∧ '/' ∉ rest ∧
      (folderOf path = [] ∨ ∃ front, folderOf path = front ++ ['/']) := by
  have e : folderOf path = ((Split path ['/']).take ((Split path ['/']).length - 1)).foldl
      (fun newfps piece => newfps ++ piece ++ ['/']) [] := rfl
  obtain ⟨rest, h1, h2, h3⟩ := folder_loop_spec path.length path (le_refl _) []
  rw [← e] at h1 h3
  exact ⟨rest, h1, h2, h3⟩

theorem folderOf_no_slash (path : Str) (h : '/' ∉ path) : folderOf path = [] := by
  obtain ⟨rest, h1, _, h3⟩ := folderOf_spec path
  rcases h3 with h3 | ⟨front, h3⟩
  · exact h3
  · exfalso
    apply h
    rw [← h1, h3]
    simp

/-! ## The three-tier lookup -/

theorem readTiers_eq (w : World) (mainFile filePath context : Str) :
    readTiers w mainFile filePath context =
      match w.readFile filePath, w.readFile (folderOf mainFile ++ filePath),
        w.readFile (folderOf context ++ filePath) with
      | some bytes, _, _ => ⟨[Event.readFile filePath], .ok bytes⟩
      | none, some bytes, _ =>
        ⟨[Event.readFile filePath, Event.readFile (folderOf mainFile ++ filePath)], .ok bytes⟩
      | none, none, some bytes =>
        ⟨[Event.readFile filePath, Event.readFile (folderOf mainFile ++ filePath),
          Event.readFile (folderOf context ++ filePath)], .ok bytes⟩
      | none, none, none =>
        ⟨[Event.readFile filePath, Event.readFile (folderOf mainFile ++ filePath),
          Event.readFile (folderOf context ++ filePath)], .error Err.fatal⟩ := by
  unfold readTiers
  simp only [Run.bind_def, Run.pure_def, ioReadFile]
  cases h1 : w.readFile filePath with
  | some b => simp [Run.andThen, Run.ret]
  | none =>
    cases h2 : w.readFile (folderOf mainFile ++ filePath) with
    | some b => simp [Run.andThen, Run.ret]
    | none =>
      cases h3 : w.readFile (folderOf context ++ filePath) with
      | some b => simp [Run.andThen, Run.ret, h3]
      | none => simp [Run.andThen, Run.fail, h3]

theorem plainLines_of_no_directive (data : List Str) (h : directiveLines data = []) :
    plainLines data = data := by
  unfold plainLines
  unfold directiveLines at h
  rw [List.filter_eq_self]
  intro l hl
  have := (List.filter_eq_nil_iff.1 h) l hl
  simpa using this

theorem scanAndAppend_plain (proc : Str → List Str → Str → Run (List Str)) (filePath : Str)
    (toAppend : List Str) (bytes : Str) (h : directiveLines (splitLines bytes) = []) :
    scanAndAppend proc filePath toAppend bytes = ⟨[], .ok (toAppend ++ splitLines bytes)⟩ := by
  rw [scanAndAppend_eq, h, plainLines_of_no_directive _ h]
  simp [dispatchAll, Run.pure_def, Run.mapResult, Run.ret]

theorem pFile_succ (w : World) (mainFile : Str) (depth : Nat) (filePath : Str)
    (toAppend : List Str) (context : Str) :
    pFile w mainFile (depth + 1) filePath toAppend context =
      Run.andThen (readTiers w mainFile filePath context)
        (fun bytes => scanAndAppend (process w mainFile depth) filePath toAppend bytes) := rfl

/-- C3: `pFile` takes the bytes from the first readable one of `a`,
`folderOf m ++ a`, `folderOf c ++ a`, where `m` is the entry file and `c` the
context, and where the folder of a path is the path up to and including its last
`/` (empty when there is none). The reads performed are exactly the candidates up
to the first readable one; the lookup is fatal if and only if none of the three
can be read; and when only the third can be read, the import goes on with its
content (and returns the buffer followed by its lines when it has no directive). -/
theorem pFile_first_readable_candidate (w : World) (m a c : Str) (depth : Nat)
    (buf : List Str) :
    (∀ path,
      (∃ rest, folderOf path ++ rest = path ∧ '/' ∉ rest ∧
        (folderOf path = [] ∨ ∃ front, folderOf path = front ++ ['/'])) ∧
      ('/' ∉ path → folderOf path = [])) ∧
    pFile w m (depth + 1) a buf c =
      Run.andThen (readTiers w m a c)
        (fun bytes => scanAndAppend (process w m depth) a buf bytes) ∧
    readTiers w m a c =
      (match w.readFile a, w.readFile (folderOf m ++ a), w.readFile (folderOf c ++ a) with
      | some bytes, _, _ => ⟨[Event.readFile a], .ok bytes⟩
      | none, some bytes, _ =>
        ⟨[Event.readFile a, Event.readFile (folderOf m ++ a)], .ok bytes⟩
      | none, none, some bytes =>
        ⟨[Event.readFile a, Event.readFile (folderOf m ++ a),
          Event.readFile (folderOf c ++ a)], .ok bytes⟩
      | none, none, none =>
        ⟨[Event.readFile a, Event.readFile (folderOf m ++ a),
          Event.readFile (folderOf c ++ a)], .error Err.fatal⟩) ∧
    ((∃ e, (readTiers w m a c).result = .error e) ↔
      (w.readFile a = none ∧ w.readFile (folderOf m ++ a) = none ∧
        w.readFile (folderOf c ++ a) = none)) ∧
    (∀ bytes, w.readFile a = none → w.readFile (folderOf m ++ a) = none →
      w.readFile (folderOf c ++ a) = some bytes →
      pFile w m (depth + 1) a buf c =
        Run.after [Event.readFile a, Event.readFile (folderOf m ++ a),
          Event.readFile (folderOf c ++ a)] (scanAndAppend (process w m depth) a buf bytes) ∧
      (directiveLines (splitLines bytes) = [] →
        pFile w m (depth + 1) a buf c =
          ⟨[Event.readFile a, Event.readFile (folderOf m ++ a),
            Event.readFile (folderOf c ++ a)], .ok (buf ++ splitLines bytes)⟩)) := by
  refine ⟨fun path => ⟨folderOf_spec path, folderOf_no_slash path⟩,
    pFile_succ w m depth a buf c, readTiers_eq w m a c, ?_, ?_⟩
  · rw [readTiers_eq]
    cases h1 : w.readFile a <;> cases h2 : w.readFile (folderOf m ++ a) <;>
      cases h3 : w.readFile (folderOf c ++ a) <;> simp
  · intro bytes h1 h2 h3
    have hp : pFile w m (depth + 1) a buf c =
        Run.after [Event.readFile a, Event.readFile (folderOf m ++ a),
          Event.readFile (folderOf c ++ a)] (scanAndAppend (process w m depth) a buf bytes) := by
      rw [pFile_succ, readTiers_eq, h1, h2, h3]
      exact Run.andThen_mk_ok _ _ _
    refine ⟨hp, fun hplain => ?_⟩
    rw [hp, scanAndAppend_plain _ _ _ _ hplain]
    simp [Run.after]

/-- C3, witness: `b.bas` is found by the third tier, next to the including
file `lib/util/a.bas`, after two failed reads. -/
theorem pFile_first_readable_candidate_witness :
    pFile wTier3 "proj/main.bas".toList 1 "b.bas".toList ["kept".toList] "lib/util/a.bas".toList
      = ⟨[Event.readFile "b.bas".toList, Event.readFile "proj/b.bas".toList,
          Event.readFile "lib/util/b.bas".toList],
        .ok ["kept".toList, "x".toList, "y".toList]⟩ :=
  ((pFile_first_readable_candidate wTier3 "proj/main.bas".toList "b.bas".toList
      "lib/util/a.bas".toList 0 ["kept".toList]).2.2.2.2 "x\ny".toList
      (by decide) (by decide) (by decide)).2 (by decide)

/-! ## Blocks -/

theorem mapResult_result_ok {α β : Type} (f : α → β) (x : Run α) (r : β)
    (h : (Run.mapResult f x).result = .ok r) : ∃ a, x.result = .ok a ∧ r = f a := by
  rcases x with ⟨t, res⟩
  cases res with
  | error e => simp [Run.mapResult] at h
  | ok a =>
    simp only [Run.mapResult, Except.ok.injEq] at h
    exact ⟨a, rfl, h.symm⟩

theorem andThen_result_ok {α β : Type} (x : Run α) (f : α → Run β) (r : β)
    (h : (Run.andThen x f).result = .ok r) :
    ∃ a, x.result = .ok a ∧ (f a).result = .ok r := by
  rcases x with ⟨t, res⟩
  cases res with
  | error e => simp [Run.andThen] at h
  | ok a => exact ⟨a, rfl, by simpa [Run.andThen] using h⟩

theorem blocksOf_ok (proc : Str → List Str → Str → Run (List Str)) (context : Str)
    (ds : List Str) (buf : List Str) (h : (blocksOf proc context ds).result = .ok buf) :
    ∃ blocks : List (List Str),
      List.Forall₂ (fun d block => (proc d [] context).result = .ok block) ds blocks ∧
      buf = blocks.flatten := by
  induction ds generalizing buf with
  | nil =>
    simp only [blocksOf, Run.pure_def, Run.ret, Except.ok.injEq] at h
    exact ⟨[], List.Forall₂.nil, by simp [← h]⟩
  | cons d ds ih =>
    simp only [blocksOf, Run.bind_def, Run.pure_def] at h
    obtain ⟨block, hb, h⟩ := andThen_result_ok _ _ _ h
    obtain ⟨rest, hr, h⟩ := andThen_result_ok _ _ _ h
    obtain ⟨blocks, hall, hrest⟩ := ih rest hr
    simp only [Run.ret, Except.ok.injEq] at h
    exact ⟨block :: blocks, List.Forall₂.cons hb hall, by simp [← h, hrest]⟩

theorem entry_buffer_eq_blocksOf (w : World) (m : Str) (depth : Nat) (filePath : Str)
    (data : List Str) :
    Run.mapResult Prod.snd (scanEntry (process w m depth) filePath data ([], [])) =
      blocksOf (process w m depth) filePath
        ((directiveLines data).map (fun oline => normalize oline ++ "\r\n".toList)) := by
  rw [scanEntry_eq, Run.mapResult_mapResult,
    dispatchAll_eq_blocksOf _ (fun d b c => process_frame w m depth d b c),
    Run.mapResult_mapResult]
  simpa using Run.mapResult_id _

/-- C6: `process d b c` is `process d [] c` with `b` put in front of the value
(same events, same failure), so on success `process(d, b, c) = b ++ process(d, [], c)`.
Hence the append buffer that the scan of an entry file builds is the blocks of its
directive lines, each resolved from an empty buffer, glued together in the order
of the lines: one contiguous block per directive. -/
theorem process_extends_buffer (w : World) (m : Str) (depth : Nat) (d : Str)
    (b : List Str) (c : Str) :
    process w m depth d b c =
      Run.mapResult (fun block => b ++ block) (process w m depth d [] c) ∧
    (∀ r, (process w m depth d b c).result = .ok r →
      ∃ block, (process w m depth d [] c).result = .ok block ∧ r = b ++ block) ∧
    (∀ data : List Str,
      Run.mapResult Prod.snd (scanEntry (process w m depth) c data ([], [])) =
        blocksOf (process w m depth) c
          ((directiveLines data).map (fun oline => normalize oline ++ "\r\n".toList))) ∧
    (∀ (ds : List Str) (buf : List Str),
      (blocksOf (process w m depth) c ds).result = .ok buf →
      ∃ blocks : List (List Str),
        List.Forall₂ (fun d block => (process w m depth d [] c).result = .ok block) ds blocks ∧
        buf = blocks.flatten) := by
  refine ⟨process_frame w m depth d b c, ?_, entry_buffer_eq_blocksOf w m depth c, ?_⟩
  · intro r hr
    rw [process_frame] at hr
    exact mapResult_result_ok _ _ _ hr
  · intro ds buf h
    exact blocksOf_ok _ _ _ _ h

/-- C6, witness: the import of `a.bas` (which imports `c.bas`) into a buffer that
holds `kept`. -/
theorem process_extends_buffer_witness :
    ∃ block,
      (process wSiblings "main.bas".toList 2 "'!rayonix import a.bas".toList []
        "main.bas".toList).result = .ok block ∧
      ["kept".toList, "a1".toList, "a2".toList, "c1".toList] = ["kept".toList] ++ block :=
  (process_extends_buffer wSiblings "main.bas".toList 2 "'!rayonix import a.bas".toList
    ["kept".toList] "main.bas".toList).2.1 _ (by decide)

/-! ## Failure and the output file -/

theorem andThen_trace_mem {α β : Type} (x : Run α) (f : α → Run β) (ev : Event)
    (h : ev ∈ (Run.andThen x f).trace) :
    ev ∈ x.trace ∨ ∃ a, x.result = .ok a ∧ ev ∈ (f a).trace := by
  rcases x with ⟨t, res⟩
  cases res with
  | error e => exact Or.inl (by simpa [Run.andThen] using h)
  | ok a =>
    simp only [Run.andThen, List.mem_append] at h
    rcases h with h | h
    · exact Or.inl h
    · exact Or.inr ⟨a, rfl, h⟩

theorem mapResult_trace {α β : Type} (f : α → β) (x : Run α) :
    (Run.mapResult f x).trace = x.trace := by
  rcases x with ⟨t, res⟩
  cases res <;> rfl

theorem andThen_result_error {α β : Type} (x : Run α) (f : α → Run β) (e : Err)
    (h : x.result = .error e) : Run.andThen x f = ⟨x.trace, .error e⟩ := by
  rcases x with ⟨t, res⟩
  simp only at h
  subst h
  rfl

theorem mapResult_result_error {α β : Type} (f : α → β) (x : Run α) (e : Err)
    (h : x.result = .error e) : (Run.mapResult f x).result = .error e := by
  rcases x with ⟨t, res⟩
  simp only at h
  subst h
  rfl

theorem readTiers_trace_input (w : World) (m a c : Str) :
    ∀ ev ∈ (readTiers w m a c).trace, isInput ev = true := by
  rw [readTiers_eq]
  cases w.readFile a <;> cases w.readFile (folderOf m ++ a) <;>
    cases w.readFile (folderOf c ++ a) <;> simp [isInput]

theorem pMeta_trace_input (w : World) (url : Str) (buf : List Str) :
    ∀ ev ∈ (pMeta w url buf).trace, isInput ev = true := by
  intro ev hev
  simp only [pMeta, Run.bind_def] at hev
  rcases andThen_trace_mem _ _ _ hev with h | ⟨u, _, h⟩
  · simp only [Run.emit, List.mem_singleton] at h
    subst h
    rfl
  · cases hg : w.httpGet url with
    | none => simp [hg, Run.fail] at h
    | some resp =>
      rcases resp with ⟨status, body⟩
      cases body <;> simp [hg, Run.fail, Run.pure_def, Run.ret] at h

theorem dispatchAll_trace_input (proc : Str → List Str → Str → Run (List Str))
    (hproc : ∀ d b c, ∀ ev ∈ (proc d b c).trace, isInput ev = true)
    (ctx : Str) (ds : List Str) (buf : List Str) :
    ∀ ev ∈ (dispatchAll proc ctx ds buf).trace, isInput ev = true := by
  induction ds generalizing buf with
  | nil => simp [dispatchAll, Run.pure_def, Run.ret]
  | cons d ds ih =>
    intro ev hev
    simp only [dispatchAll, Run.bind_def] at hev
    rcases andThen_trace_mem _ _ _ hev with h | ⟨b, _, h⟩
    · exact hproc _ _ _ ev h
    · exact ih b ev h

theorem processWith_trace_input (pFileRec : Str → List Str → Str → Run (List Str)) (w : World)
    (hrec : ∀ a b c, ∀ ev ∈ (pFileRec a b c).trace, isInput ev = true)
    (line : Str) (buf : List Str) (ctx : Str) :
    ∀ ev ∈ (processWith pFileRec w line buf ctx).trace, isInput ev = true := by
  unfold processWith
  simp only []
  split_ifs
  all_goals first
    | exact hrec _ _ _
    | exact pMeta_trace_input _ _ _
    | simp [Run.pure_def, Run.ret, Run.fail]

theorem pFile_trace_input (w : World) (m : Str) (depth : Nat) (a : Str) (buf : List Str)
    (c : Str) : ∀ ev ∈ (pFile w m depth a buf c).trace, isInput ev = true := by
  induction depth generalizing a buf c with
  | zero => simp [pFile, Run.fail]
  | succ n ih =>
    intro ev hev
    rw [pFile_succ] at hev
    rcases andThen_trace_mem _ _ _ hev with h | ⟨bytes, _, h⟩
    · exact readTiers_trace_input w m a c ev h
    · rw [scanAndAppend_eq, mapResult_trace] at h
      exact dispatchAll_trace_input _
        (fun d b c => processWith_trace_input _ w (fun a b c => ih a b c) d b c) _ _ _ ev h

theorem process_trace_input (w : World) (m : Str) (depth : Nat) (line : Str)
    (buf : List Str) (ctx : Str) :
    ∀ ev ∈ (process w m depth line buf ctx).trace, isInput ev = true :=
  processWith_trace_input _ w (fun a b c => pFile_trace_input w m depth a b c) line buf ctx

/-- What `assemble` does, spelled out: one read of the entry file, then the
dispatch of its directive lines; the value is the plain lines, each with CR LF,
followed by the append buffer. -/
theorem assemble_eq (w : World) (m : Str) (depth : Nat) (filePath : Str) :
    assemble w m depth filePath =
      match w.readFile filePath with
      | none => ⟨[Event.readFile filePath], .error Err.fatal⟩
      | some bytes =>
        Run.after [Event.readFile filePath]
          (Run.mapResult
            (fun buf =>
              (plainLines (splitLines bytes)).map (fun oline => oline ++ "\r\n".toList) ++ buf)
            (dispatchAll (process w m depth) filePath
              ((directiveLines (splitLines bytes)).map
                (fun oline => normalize oline ++ "\r\n".toList)) [])) := by
  unfold assemble
  simp only [Run.bind_def, ioReadFile]
  cases h : w.readFile filePath with
  | none => simp [Run.andThen, Run.fail]
  | some bytes =>
    rw [Run.andThen_mk_ok]
    simp only [scanEntry_eq, Run.andThen_mapResult, Run.pure_def, appendAll_eq,
      List.nil_append, Run.mapResult_eq_andThen, Run.andThen_assoc, Run.andThen_ret]

theorem assemble_trace_input (w : World) (m : Str) (depth : Nat) (filePath : Str) :
    ∀ ev ∈ (assemble w m depth filePath).trace, isInput ev = true := by
  rw [assemble_eq]
  cases w.readFile filePath with
  | none => simp [isInput]
  | some bytes =>
    intro ev hev
    simp only [Run.after, List.singleton_append, List.mem_cons, mapResult_trace] at hev
    rcases hev with h | h
    · subst h; rfl
    · exact dispatchAll_trace_input _ (fun d b c => process_trace_input w m depth d b c) _ _ _ ev h

theorem createsOutput_of_input (tr : List Event) (h : ∀ ev ∈ tr, isInput ev = true) :
    createsOutput tr = false ∧ outputText tr = [] := by
  induction tr with
  | nil => exact ⟨rfl, rfl⟩
  | cons ev rest ih =>
    have hev := h ev (by simp)
    have hrest := ih (fun e he => h e (List.mem_cons_of_mem _ he))
    cases ev <;> simp_all [isInput, createsOutput, outputText]

theorem dispatchAll_append (proc : Str → List Str → Str → Run (List Str)) (ctx : Str)
    (pre post : List Str) (buf : List Str) :
    dispatchAll proc ctx (pre ++ post) buf =
      Run.andThen (dispatchAll proc ctx pre buf) (fun b => dispatchAll proc ctx post b) := by
  induction pre generalizing buf with
  | nil => simp [dispatchAll, Run.pure_def]
  | cons d ds ih =>
    simp only [List.cons_append, dispatchAll, Run.bind_def, Run.andThen_assoc]
    congr 1
    funext b
    exact ih b

theorem dispatchAll_first_error (proc : Str → List Str → Str → Run (List Str)) (ctx : Str)
    (pre : List Str) (d : Str) (post : List Str) (buf b1 : List Str) (e : Err)
    (hpre : (dispatchAll proc ctx pre buf).result = .ok b1)
    (hd : (proc d b1 ctx).result = .error e) :
    (dispatchAll proc ctx (pre ++ d :: post) buf).result = .error e := by
  rw [dispatchAll_append]
  rcases hx : dispatchAll proc ctx pre buf with ⟨t, res⟩
  rw [hx] at hpre
  simp only at hpre
  subst hpre
  simp only [Run.andThen, dispatchAll, Run.bind_def, hd]

theorem writeLines_eq (finished : List Str) :
    writeLines finished =
      ⟨finished.map (fun line => Event.write (line ++ "\n".toList)), .ok ()⟩ := by
  induction finished with
  | nil => rfl
  | cons line rest ih =>
    simp only [writeLines, Run.bind_def, ih]
    rfl

theorem writeOutput_eq (w : World) (outPath : Str) (finished : List Str) :
    writeOutput w outPath finished =
      if w.createOk outPath = true then
        ⟨Event.create outPath ::
            (finished.map (fun line => Event.write (line ++ "\n".toList)) ++ [Event.close]),
          if w.closeOk outPath = true then .ok () else .error Err.fatal⟩
      else ⟨[Event.create outPath], .error Err.fatal⟩ := by
  unfold writeOutput
  simp only [Run.bind_def, writeLines_eq]
  by_cases hc : w.createOk outPath = true
  · by_cases hz : w.closeOk outPath = true
    · simp [hc, hz, Run.andThen, Run.emit, Run.pure_def, Run.ret]
    · simp [hc, hz, Run.andThen, Run.emit, Run.fail]
  · simp [hc, Run.andThen, Run.emit, Run.fail]

theorem buildProject_of_error (w : World) (m : Str) (depth : Nat) (filePath outPath : Str)
    (e : Err) (h : (assemble w m depth filePath).result = .error e) :
    buildProject w m depth filePath outPath = ⟨(assemble w m depth filePath).trace, .error e⟩ := by
  unfold buildProject
  rw [Run.bind_def]
  exact andThen_result_error _ _ e h

theorem buildProject_of_ok (w : World) (m : Str) (depth : Nat) (filePath outPath : Str)
    (finished : List Str) (h : (assemble w m depth filePath).result = .ok finished) :
    buildProject w m depth filePath outPath =
      Run.after (assemble w m depth filePath).trace (writeOutput w outPath finished) := by
  unfold buildProject
  rw [Run.bind_def]
  rcases hx : assemble w m depth filePath with ⟨t, res⟩
  rw [hx] at h
  simp only at h
  subst h
  exact Run.andThen_mk_ok _ _ _

/-- C8: a lookup with none of the three candidates readable is fatal, and so is
a failed fetch; an import line is dispatched to `pFile` and a meta line to `pMeta`,
whose outcome is the outcome of the dispatch; the first dispatch that fails ends
the scan it belongs to with the same failure, in an imported file (so `pFile`
fails, at every depth) and in the entry file (so `assemble` fails); and when
`assemble` fails, `buildProject` ends with that failure having performed only
reads and GETs: `os.Create` is not called and nothing is written. Conversely the
output file is created only after the resolution has returned. -/
theorem failed_resolution_leaves_no_output (w : World) (m : Str) (depth : Nat)
    (filePath outPath : Str) :
    (∀ n a buf c, w.readFile a = none → w.readFile (folderOf m ++ a) = none →
      w.readFile (folderOf c ++ a) = none →
      pFile w m (n + 1) a buf c =
        ⟨[Event.readFile a, Event.readFile (folderOf m ++ a), Event.readFile (folderOf c ++ a)],
          .error Err.fatal⟩) ∧
    (∀ url buf, (w.httpGet url = none ∨ ∃ status, w.httpGet url = some ⟨status, none⟩) →
      pMeta w url buf = ⟨[Event.httpGet url], .error Err.fatal⟩) ∧
    (∀ n line buf c, (Split line " ".toList).get? 1 = some "import".toList →
      3 ≤ (Split line " ".toList).length → 17 ≤ line.length →
      process w m n line buf c =
        pFile w m n
          (Replace (Replace (Replace (line.drop 17) "\\".toList "/".toList)
            "\r\n".toList []) "\n".toList []) buf c) ∧
    (∀ n line buf c, (Split line " ".toList).get? 1 = some "meta".toList →
      3 ≤ (Split line " ".toList).length → 15 ≤ line.length →
      process w m n line buf c =
        pMeta w (Replace (Replace (line.drop 15) "\r\n".toList []) "\n".toList []) buf) ∧
    (∀ n a buf c bytes pre d post b1 e,
      (readTiers w m a c).result = .ok bytes →
      (directiveLines (splitLines bytes)).map normalize = pre ++ d :: post →
      (dispatchAll (process w m n) a pre []).result = .ok b1 →
      (process w m n d b1 a).result = .error e →
      (pFile w m (n + 1) a buf c).result = .error e) ∧
    (∀ bytes pre d post b1 e,
      w.readFile filePath = some bytes →
      (directiveLines (splitLines bytes)).map (fun oline => normalize oline ++ "\r\n".toList)
        = pre ++ d :: post →
      (dispatchAll (process w m depth) filePath pre []).result = .ok b1 →
      (process w m depth d b1 filePath).result = .error e →
      (assemble w m depth filePath).result = .error e) ∧
    (∀ e, (assemble w m depth filePath).result = .error e →
      (buildProject w m depth filePath outPath).result = .error e ∧
      createsOutput (buildProject w m depth filePath outPath).trace = false ∧
      writes (buildProject w m depth filePath outPath).trace = []) ∧
    (createsOutput (buildProject w m depth filePath outPath).trace = true →
      ∃ finished, (assemble w m depth filePath).result = .ok finished) := by
  refine ⟨?_, fun url buf h => pMeta_failed w url buf h,
    fun n line buf c h1 h2 h3 => process_import w m n line buf c h1 h2 h3,
    fun n line buf c h1 h2 h3 => process_meta w m n line buf c h1 h2 h3, ?_, ?_, ?_, ?_⟩
  · intro n a buf c h1 h2 h3
    rw [pFile_succ, readTiers_eq, h1, h2, h3]
    rfl
  · intro n a buf c bytes pre d post b1 e hread hds hpre hd
    rw [pFile_succ]
    rcases hx : readTiers w m a c with ⟨t, res⟩
    rw [hx] at hread
    simp only at hread
    subst hread
    rw [Run.andThen_mk_ok, scanAndAppend_eq, hds]
    simp only [Run.after]
    exact mapResult_result_error _ _ e (dispatchAll_first_error _ _ _ _ _ _ _ _ hpre hd)
  · intro bytes pre d post b1 e hread hds hpre hd
    rw [assemble_eq, hread]
    simp only [hds, Run.after]
    exact mapResult_result_error _ _ e (dispatchAll_first_error _ _ _ _ _ _ _ _ hpre hd)
  · intro e he
    rw [buildProject_of_error w m depth filePath outPath e he]
    have hin := createsOutput_of_input _ (assemble_trace_input w m depth filePath)
    refine ⟨rfl, hin.1, ?_⟩
    have : ∀ tr : List Event, (∀ ev ∈ tr, isInput ev = true) → writes tr = [] := by
      intro tr
      induction tr with
      | nil => intro _; rfl
      | cons ev rest ih =>
        intro h
        have hev := h ev (by simp)
        have hrest := ih (fun e he => h e (List.mem_cons_of_mem _ he))
        cases ev <;> simp_all [isInput, writes]
    exact this _ (assemble_trace_input w m depth filePath)
  · intro hc
    cases hres : (assemble w m depth filePath).result with
    | ok finished => exact ⟨finished, rfl⟩
    | error e =>
      rw [buildProject_of_error w m depth filePath outPath e hres] at hc
      have hin := createsOutput_of_input _ (assemble_trace_input w m depth filePath)
      simp only at hc
      rw [hin.1] at hc
      exact absurd hc (by decide)

/-- C8, witness: the entry file imports `a.bas`, which imports a file that exists
nowhere: the build is fatal and the output file is not created. -/
theorem failed_resolution_leaves_no_output_witness :
    (buildProject wBroken "main.bas".toList 5 "main.bas".toList "out.bas".toList).result
      = .error Err.fatal ∧
    createsOutput
      (buildProject wBroken "main.bas".toList 5 "main.bas".toList "out.bas".toList).trace
      = false ∧
    writes (buildProject wBroken "main.bas".toList 5 "main.bas".toList "out.bas".toList).trace
      = [] :=
  (failed_resolution_leaves_no_output wBroken "main.bas".toList 5 "main.bas".toList
    "out.bas".toList).2.2.2.2.2.2.1 Err.fatal (by decide)

/-! ## Import lines -/

theorem importLine_facts (p : Str) :
    (Split ("'!rayonix import ".toList ++ p) " ".toList).get? 1 = some "import".toList ∧
    3 ≤ (Split ("'!rayonix import ".toList ++ p) " ".toList).length ∧
    17 ≤ ("'!rayonix import ".toList ++ p).length ∧
    ("'!rayonix import ".toList ++ p).drop 17 = p := by
  have hne : Split p " ".toList ≠ [] := Split_ne_nil p _ (by decide)
  have hpos : 0 < (Split p " ".toList).length := List.length_pos.2 hne
  refine ⟨?_, ?_, ?_, ?_⟩
  · rw [importLine_tokens]; rfl
  · rw [importLine_tokens]
    simp only [List.length_cons]
    omega
  · rw [List.length_append]
    have : "'!rayonix import ".toList.length = 17 := rfl
    omega
  · have : "'!rayonix import ".toList.length = 17 := rfl
    exact List.drop_left' this

/-- The line `'!rayonix import a`, with or without CR LF behind it, is dispatched
to `pFile` with the argument `a`, when `a` holds neither a line feed nor a
backslash. -/
theorem process_importLine (w : World) (m : Str) (depth : Nat) (a : Str) (buf : List Str)
    (ctx : Str) (hlf : '\n' ∉ a) (hbs : '\\' ∉ a) :
    process w m depth ("'!rayonix import ".toList ++ a) buf ctx = pFile w m depth a buf ctx ∧
    process w m depth ("'!rayonix import ".toList ++ a ++ "\r\n".toList) buf ctx
      = pFile w m depth a buf ctx := by
  have hb1 : Replace a "\\".toList "/".toList = a :=
    Replace_of_Index_none a _ _ (by decide) (Index_none_of_not_mem _ '\\' (by decide) a hbs)
  have hb2 : Replace (a ++ "\r\n".toList) "\\".toList "/".toList = a ++ "\r\n".toList := by
    apply Replace_of_Index_none _ _ _ (by decide)
    apply Index_none_of_not_mem _ '\\' (by decide)
    intro h
    rcases List.mem_append.1 h with h | h
    · exact hbs h
    · exact absurd h (by decide)
  constructor
  · obtain ⟨h1, h2, h3, h4⟩ := importLine_facts a
    rw [process_import w m depth _ buf ctx h1 h2 h3, h4, hb1, (strip_newlines a hlf).1]
  · rw [List.append_assoc]
    obtain ⟨h1, h2, h3, h4⟩ := importLine_facts (a ++ "\r\n".toList)
    rw [process_import w m depth _ buf ctx h1 h2 h3, h4, hb2, (strip_newlines a hlf).2]

/-! ## What is written -/

theorem writes_append (t1 t2 : List Event) : writes (t1 ++ t2) = writes t1 ++ writes t2 := by
  induction t1 with
  | nil => rfl
  | cons ev rest ih => cases ev <;> simp [writes, ih]

theorem writes_of_input (tr : List Event) (h : ∀ ev ∈ tr, isInput ev = true) : writes tr = [] := by
  induction tr with
  | nil => rfl
  | cons ev rest ih =>
    have hev := h ev (by simp)
    have hrest := ih (fun e he => h e (List.mem_cons_of_mem _ he))
    cases ev <;> simp_all [isInput, writes]

theorem writes_map_write (items : List Str) :
    writes (items.map (fun line => Event.write (line ++ "\n".toList)))
      = items.map (fun line => line ++ "\n".toList) := by
  induction items with
  | nil => rfl
  | cons x xs ih => simp only [List.map_cons, writes, ih]

theorem forall₂_prefix_map (suffix : Str) (ls : List Str) :
    List.Forall₂ (fun oline item => oline <+: item) ls (ls.map (fun oline => oline ++ suffix)) := by
  induction ls with
  | nil => exact List.Forall₂.nil
  | cons x xs ih => exact List.Forall₂.cons (List.prefix_append _ _) ih

theorem mem_plainLines (data : List Str) (oline : Str) (h : oline ∈ plainLines data) :
    isDirective oline = false := by
  unfold plainLines at h
  have := (List.mem_filter.1 h).2
  simpa using this

/-- The writes of a build that completes: the value of `assemble`, one
`Fprintln` per item. -/
theorem buildProject_writes (w : World) (m : Str) (depth : Nat) (filePath outPath : Str)
    (h : (buildProject w m depth filePath outPath).result = .ok ()) :
    ∃ finished, (assemble w m depth filePath).result = .ok finished ∧
      writes (buildProject w m depth filePath outPath).trace
        = finished.map (fun line => line ++ "\n".toList) := by
  cases hres : (assemble w m depth filePath).result with
  | error e =>
    rw [buildProject_of_error w m depth filePath outPath e hres] at h
    simp at h
  | ok finished =>
    refine ⟨finished, rfl, ?_⟩
    rw [buildProject_of_ok w m depth filePath outPath finished hres] at h ⊢
    rw [writeOutput_eq] at h ⊢
    by_cases hc : w.createOk outPath = true
    · simp only [hc, if_true, Run.after] at h ⊢
      rw [writes_append, writes_of_input _ (assemble_trace_input w m depth filePath)]
      simp only [List.nil_append, writes]
      rw [writes_append, writes_map_write]
      simp [writes]
    · simp [hc, Run.after] at h

theorem assemble_ok (w : World) (m : Str) (depth : Nat) (filePath : Str) (finished : List Str)
    (h : (assemble w m depth filePath).result = .ok finished) :
    ∃ bytes buf, w.readFile filePath = some bytes ∧
      (blocksOf (process w m depth) filePath
        ((directiveLines (splitLines bytes)).map
          (fun oline => normalize oline ++ "\r\n".toList))).result = .ok buf ∧
      finished =
        (plainLines (splitLines bytes)).map (fun oline => oline ++ "\r\n".toList) ++ buf := by
  rw [assemble_eq] at h
  cases hread : w.readFile filePath with
  | none => simp [hread] at h
  | some bytes =>
    simp only [hread, Run.after] at h
    obtain ⟨buf, hbuf, hfin⟩ := mapResult_result_ok _ _ _ h
    rw [dispatchAll_eq_blocksOf _ (fun d b c => process_frame w m depth d b c)] at hbuf
    obtain ⟨buf', hbuf', hb⟩ := mapResult_result_ok _ _ _ hbuf
    refine ⟨bytes, buf', rfl, hbuf', ?_⟩
    rw [hfin, hb]
    simp

/-- C1, counterexample: the entry file holds the plain line `a` and a `meta`
directive whose URL answers with the one line `'!rayonix import b.bas`. The build
completes; its plain line is `a` and its append buffer is that one fetched line;
the items written are `a` with CR LF attached and the fetched line, not `a` and
the fetched line; and the fetched line, which is written, has the form of a
directive. -/
theorem written_items_differ_from_lines :
    (buildProject wMetaEcho "main.bas".toList 0 "main.bas".toList "out.bas".toList).result
      = .ok () ∧
    plainLines (splitLines "a\n'!rayonix meta http://h/x".toList) = ["a".toList] ∧
    (process wMetaEcho "main.bas".toList 0 "'!rayonix meta http://h/x\r\n".toList []
      "main.bas".toList).result = .ok ["'!rayonix import b.bas".toList] ∧
    (assemble wMetaEcho "main.bas".toList 0 "main.bas".toList).result
      = .ok ["a\r\n".toList, "'!rayonix import b.bas".toList] ∧
    (assemble wMetaEcho "main.bas".toList 0 "main.bas".toList).result
      ≠ .ok (["a".toList] ++ ["'!rayonix import b.bas".toList]) ∧
    writes (buildProject wMetaEcho "main.bas".toList 0 "main.bas".toList "out.bas".toList).trace
      = ["a\r\n\n".toList, "'!rayonix import b.bas\n".toList] ∧
    isDirective "'!rayonix import b.bas".toList = true := by
  decide

/-- C1, amended: when `buildProject` completes, what it has written is, in this
order, one item for each plain (non-directive) line of the entry document, in the
original order and each beginning with its line, and then the whole top-level
append buffer, which is the blocks of the entry's directive lines in the order of
the lines; each item is written with one LF behind it. So every plain entry line
comes before every imported or fetched line, and no item of the first part comes
from a directive line of the entry document. (Lines of directive form can still
reach the output inside fetched content, which is appended as it is.) -/
theorem written_is_plain_then_buffer (w : World) (m : Str) (depth : Nat)
    (filePath outPath : Str)
    (h : (buildProject w m depth filePath outPath).result = .ok ()) :
    ∃ bytes items buf,
      w.readFile filePath = some bytes ∧
      List.Forall₂ (fun oline item => oline <+: item) (plainLines (splitLines bytes)) items ∧
      (∀ oline ∈ plainLines (splitLines bytes), isDirective oline = false) ∧
      (blocksOf (process w m depth) filePath
        ((directiveLines (splitLines bytes)).map
          (fun oline => normalize oline ++ "\r\n".toList))).result = .ok buf ∧
      writes (buildProject w m depth filePath outPath).trace
        = (items ++ buf).map (fun line => line ++ "\n".toList) := by
  obtain ⟨finished, hfin, hw⟩ := buildProject_writes w m depth filePath outPath h
  obtain ⟨bytes, buf, hread, hbuf, hshape⟩ := assemble_ok w m depth filePath finished hfin
  refine ⟨bytes, _, buf, hread, forall₂_prefix_map "\r\n".toList _,
    fun oline ho => mem_plainLines _ oline ho, hbuf, ?_⟩
  rw [hw, hshape]

/-- C1, witness: the build of an entry file with two imports around a plain line. -/
theorem written_is_plain_then_buffer_witness :
    ∃ bytes items buf,
      wSiblings.readFile "main.bas".toList = some bytes ∧
      List.Forall₂ (fun oline item => oline <+: item) (plainLines (splitLines bytes)) items ∧
      (∀ oline ∈ plainLines (splitLines bytes), isDirective oline = false) ∧
      (blocksOf (process wSiblings "main.bas".toList 5) "main.bas".toList
        ((directiveLines (splitLines bytes)).map
          (fun oline => normalize oline ++ "\r\n".toList))).result = .ok buf ∧
      writes (buildProject wSiblings "main.bas".toList 5 "main.bas".toList
          "out.bas".toList).trace
        = (items ++ buf).map (fun line => line ++ "\n".toList) :=
  written_is_plain_then_buffer wSiblings "main.bas".toList 5 "main.bas".toList
    "out.bas".toList (by decide)

/-- What a completed build of an entry document without directive lines writes:
every line of the document with CR LF and LF behind it. -/
theorem plain_entry_writes (w : World) (m : Str) (depth : Nat) (filePath outPath : Str)
    (bytes : Str) (hread : w.readFile filePath = some bytes)
    (hno : directiveLines (splitLines bytes) = [])
    (h : (buildProject w m depth filePath outPath).result = .ok ()) :
    writes (buildProject w m depth filePath outPath).trace
      = (splitLines bytes).map (fun oline => oline ++ "\r\n".toList ++ "\n".toList) := by
  obtain ⟨finished, hfin, hw⟩ := buildProject_writes w m depth filePath outPath h
  obtain ⟨bytes', buf, hread', hbuf, hshape⟩ := assemble_ok w m depth filePath finished hfin
  rw [hread] at hread'
  cases hread'
  rw [hno] at hbuf
  simp only [List.map_nil, blocksOf, Run.pure_def, Run.ret, Except.ok.injEq] at hbuf
  rw [hw, hshape, ← hbuf, plainLines_of_no_directive _ hno]
  simp

/-- C2, at the failing input: the entry file `main.bas` holds the two lines `a`
and `b` and no directive. The build completes and the output file holds
`a CR LF LF b CR LF LF`: each line is followed by the CR LF that the scan attaches
and by the LF of the writer, not by the single LF of the writer alone. -/
theorem plain_entry_line_gets_crlf_and_lf :
    directiveLines (splitLines "a\nb".toList) = [] ∧
    (buildProject wPlain "main.bas".toList 0 "main.bas".toList "out.bas".toList).result
      = .ok () ∧
    outputText
      (buildProject wPlain "main.bas".toList 0 "main.bas".toList "out.bas".toList).trace
      = "a\r\n\nb\r\n\n".toList ∧
    outputText
      (buildProject wPlain "main.bas".toList 0 "main.bas".toList "out.bas".toList).trace
      ≠ "a\nb\n".toList := by
  decide

/-- C4, at the failing input: the project lives in `proj`; `proj/main.bas` imports
`folder/file.bas`, found at `proj/folder/file.bas` by the second tier, and that
file imports `f2.bas`, which lies next to it. The nested directive is dispatched
with the import argument `folder/file.bas` as context, not with the path
`proj/folder/file.bas` at which the file was opened: the third candidate is
`folder/f2.bas`, no candidate can be read and the build is fatal. With the opened
path as context the same lookup finds `proj/folder/f2.bas`. -/
theorem nested_context_is_import_argument :
    buildProject wProject "proj/main.bas".toList 5 "proj/main.bas".toList "out.bas".toList
      = ⟨[Event.readFile "proj/main.bas".toList,
          Event.readFile "folder/file.bas".toList, Event.readFile "proj/folder/file.bas".toList,
          Event.readFile "f2.bas".toList, Event.readFile "proj/f2.bas".toList,
          Event.readFile "folder/f2.bas".toList], .error Err.fatal⟩ ∧
    pFile wProject "proj/main.bas".toList 1 "f2.bas".toList [] "proj/folder/file.bas".toList
      = ⟨[Event.readFile "f2.bas".toList, Event.readFile "proj/f2.bas".toList,
          Event.readFile "proj/folder/f2.bas".toList], .ok ["x".toList]⟩ := by
  decide

/-! ## The content of an import -/

theorem andThen_result_of_ok {α β : Type} (x : Run α) (f : α → Run β) (a : α)
    (h : x.result = .ok a) : (Run.andThen x f).result = (f a).result := by
  rcases x with ⟨t, res⟩
  simp only at h
  subst h
  rfl

theorem mapResult_result_of_ok {α β : Type} (f : α → β) (x : Run α) (a : α)
    (h : x.result = .ok a) : (Run.mapResult f x).result = .ok (f a) := by
  rcases x with ⟨t, res⟩
  simp only at h
  subst h
  rfl

theorem pFile_result (w : World) (m : Str) (depth : Nat) (a : Str) (b : List Str) (c : Str)
    (bytes : Str) (hread : (readTiers w m a c).result = .ok bytes) :
    (pFile w m (depth + 1) a b c).result =
      (Run.mapResult (fun blocks => b ++ plainLines (splitLines bytes) ++ blocks)
        (blocksOf (process w m depth) a
          ((directiveLines (splitLines bytes)).map normalize))).result := by
  rw [pFile_succ, andThen_result_of_ok _ _ bytes hread, scanAndAppend_eq,
    dispatchAll_eq_blocksOf _ (fun d b c => process_frame w m depth d b c),
    Run.mapResult_mapResult]
  simp

/-- C7, counterexample: `a.bas` is readable but imports a file that exists
nowhere, so `pFile` on it ends fatally and returns nothing; and the build of an
entry file with the plain line `x` and one import of the directive-free file
`lib.bas` (lines `l1`, `l2`) yields the items `x CR LF`, `l1`, `l2`, not `x`,
`l1`, `l2`. -/
theorem import_may_fail_and_entry_items_differ :
    wBroken.readFile "a.bas".toList = some "a1\n'!rayonix import gone.bas".toList ∧
    (pFile wBroken "main.bas".toList 5 "a.bas".toList [] "main.bas".toList).result
      = .error Err.fatal ∧
    directiveLines (splitLines "l1\nl2".toList) = [] ∧
    plainLines (splitLines "'!rayonix import lib.bas\nx".toList) = ["x".toList] ∧
    (assemble wOneImport "main.bas".toList 1 "main.bas".toList).result
      = .ok ["x\r\n".toList, "l1".toList, "l2".toList] ∧
    (assemble wOneImport "main.bas".toList 1 "main.bas".toList).result
      ≠ .ok (["x".toList] ++ splitLines "l1\nl2".toList) := by
  decide

/-- C7, amended: let the lookup of the import `a` give the bytes of `F`. When the
directive lines of `F` resolve (to `blocks`, glued in the order of the lines, each
dispatched in the normalised form and with `a` as context), `pFile` returns the
buffer, then the plain lines of `F` unchanged and in order, then `blocks`; it
returns in no other case, and the directive lines of `F` are not copied. When `F`
has no directive line `pFile` returns the buffer followed by all lines of `F`, and
an entry document whose only directive is the import of such a file yields one
item per plain entry line, in order and each beginning with its line, followed by
all lines of `F`. -/
theorem pFile_plain_then_blocks (w : World) (m : Str) (depth : Nat) (a : Str)
    (b : List Str) (c : Str) (bytes : Str)
    (hread : (readTiers w m a c).result = .ok bytes) :
    (∀ blocks,
      (blocksOf (process w m depth) a
        ((directiveLines (splitLines bytes)).map normalize)).result = .ok blocks →
      (pFile w m (depth + 1) a b c).result
        = .ok (b ++ plainLines (splitLines bytes) ++ blocks)) ∧
    (∀ r, (pFile w m (depth + 1) a b c).result = .ok r →
      ∃ blocks,
        (blocksOf (process w m depth) a
          ((directiveLines (splitLines bytes)).map normalize)).result = .ok blocks ∧
        r = b ++ plainLines (splitLines bytes) ++ blocks) ∧
    (∀ oline ∈ plainLines (splitLines bytes), isDirective oline = false) ∧
    (directiveLines (splitLines bytes) = [] →
      (pFile w m (depth + 1) a b c).result = .ok (b ++ splitLines bytes)) ∧
    (∀ entryBytes, w.readFile c = some entryBytes →
      (directiveLines (splitLines entryBytes)).map normalize
        = ["'!rayonix import ".toList ++ a] →
      '\n' ∉ a → '\\' ∉ a →
      directiveLines (splitLines bytes) = [] →
      ∃ items,
        List.Forall₂ (fun oline item => oline <+: item)
          (plainLines (splitLines entryBytes)) items ∧
        (assemble w m (depth + 1) c).result = .ok (items ++ splitLines bytes)) := by
  have hres := pFile_result w m depth a b c bytes hread
  have hplain : directiveLines (splitLines bytes) = [] →
      ∀ b', (pFile w m (depth + 1) a b' c).result = .ok (b' ++ splitLines bytes) := by
    intro hno b'
    rw [pFile_result w m depth a b' c bytes hread, hno, plainLines_of_no_directive _ hno]
    simp [blocksOf, Run.pure_def, Run.mapResult, Run.ret]
  refine ⟨?_, ?_, fun oline ho => mem_plainLines _ oline ho, fun hno => hplain hno b, ?_⟩
  · intro blocks hb
    rw [hres]
    exact mapResult_result_of_ok _ _ blocks hb
  · intro r hr
    rw [hres] at hr
    exact mapResult_result_ok _ _ _ hr
  · intro entryBytes hentry hds hlf hbs hno
    refine ⟨_, forall₂_prefix_map "\r\n".toList _, ?_⟩
    have hds' : (directiveLines (splitLines entryBytes)).map
        (fun oline => normalize oline ++ "\r\n".toList)
        = ["'!rayonix import ".toList ++ a ++ "\r\n".toList] := by
      have : (directiveLines (splitLines entryBytes)).map
          (fun oline => normalize oline ++ "\r\n".toList)
          = ((directiveLines (splitLines entryBytes)).map normalize).map
            (fun line => line ++ "\r\n".toList) := by
        rw [List.map_map]; rfl
      rw [this, hds]
      rfl
    rw [assemble_eq, hentry]
    simp only [Run.after, hds', dispatchAll, Run.bind_def, Run.pure_def, Run.andThen_ret_right]
    rw [(process_importLine w m (depth + 1) a [] c hlf hbs).2]
    have := hplain hno []
    rw [List.nil_append] at this
    exact mapResult_result_of_ok _ _ _ this

/-- C7, witness: `a.bas` holds the plain lines `a1`, `a2` around an import of
`c.bas`. -/
theorem pFile_plain_then_blocks_witness :
    (pFile wSiblings "main.bas".toList 2 "a.bas".toList ["kept".toList] "main.bas".toList).result
      = .ok (["kept".toList] ++
          plainLines (splitLines "a1\n'!rayonix import c.bas\na2".toList) ++ ["c1".toList]) :=
  (pFile_plain_then_blocks wSiblings "main.bas".toList 1 "a.bas".toList ["kept".toList]
    "main.bas".toList "a1\n'!rayonix import c.bas\na2".toList (by decide)).1
    ["c1".toList] (by decide)

/-! ## The line splitter -/

/-- The piece before the first occurrence holds no occurrence. -/
theorem Index_take_none (sep : Str) (hsep : sep ≠ []) (s : Str) (m : Nat)
    (h : Index s sep = some m) : Index (s.take m) sep = none := by
  induction s generalizing m with
  | nil => simp [Index, hsep]
  | cons c cs ih =>
    rw [Index_cons] at h
    by_cases hp : HasPrefix (c :: cs) sep = true
    · simp only [hp, if_true, Option.some.injEq] at h
      subst h
      simp [Index, hsep]
    · simp only [hp, Bool.false_eq_true, if_false] at h
      cases hi : Index cs sep with
      | none => simp [hi] at h
      | some i =>
        simp only [hi, Option.map_some', Option.some.injEq] at h
        subst h
        have hle := Index_some_le sep cs i hi
        rw [List.take_succ_cons, Index_cons]
        have hp' : ¬ HasPrefix (c :: cs.take i) sep = true := by
          intro hq
          apply hp
          obtain ⟨rest, hrest⟩ := (HasPrefix_iff _ _).1 hq
          rw [HasPrefix_iff]
          refine ⟨rest ++ cs.drop i, ?_⟩
          rw [← List.append_assoc, ← hrest]
          simp
        simp only [hp', Bool.false_eq_true, if_false, ih i hi, Option.map_none']

theorem Join_cons (x : Str) (xs : List Str) (hxs : xs ≠ []) (sep : Str) :
    Join (x :: xs) sep = x ++ sep ++ Join xs sep := by
  cases xs with
  | nil => exact absurd rfl hxs
  | cons y ys => rfl

/-- `Split` loses nothing and leaves no separator in a piece. -/
theorem Split_lossless (sep : Str) (hsep : sep ≠ []) (n : Nat) (s : Str) (hn : s.length ≤ n) :
    Join (Split s sep) sep = s ∧ ∀ piece ∈ Split s sep, Contains piece sep = false := by
  induction n generalizing s with
  | zero =>
    have hs : s = [] := List.length_eq_zero.1 (by omega)
    subst hs
    have hi : Index [] sep = none := by simp [Index, hsep]
    rw [Split_of_Index_none [] sep hsep hi]
    simp [Join, Contains, hi]
  | succ n ih =>
    cases hi : Index s sep with
    | none =>
      rw [Split_of_Index_none s sep hsep hi]
      simp [Join, Contains, hi]
    | some m =>
      have hle := Index_some_le sep s m hi
      have hcut := Index_some_split sep s m hi
      have hpos : 0 < sep.length := List.length_pos.2 hsep
      have hshort : (s.drop (m + sep.length)).length ≤ n := by
        rw [List.length_drop]; omega
      have hunf : Split s sep = s.take m :: Split (s.drop (m + sep.length)) sep := by
        rw [Split_unfold s sep hsep, hi]
      obtain ⟨h1, h2⟩ := ih _ hshort
      rw [hunf]
      constructor
      · rw [Join_cons _ _ (Split_ne_nil _ _ hsep), h1]
        exact hcut.symm
      · intro piece hp
        rcases List.mem_cons.1 hp with h | h
        · rw [h]
          simp [Contains, Index_take_none sep hsep s m hi]
        · exact h2 piece h

theorem Contains_iff (s sep : Str) :
    Contains s sep = true ↔ ∃ pre post, s = pre ++ sep ++ post := by
  constructor
  · intro h
    unfold Contains at h
    cases hi : Index s sep with
    | none => simp [hi] at h
    | some m => exact ⟨s.take m, s.drop (m + sep.length), Index_some_split sep s m hi⟩
  · rintro ⟨pre, post, rfl⟩
    unfold Contains
    induction pre with
    | nil =>
      cases sep with
      | nil => cases post <;> simp [Index, HasPrefix]
      | cons x xs =>
        have hp : HasPrefix (x :: (xs ++ post)) (x :: xs) = true :=
          (HasPrefix_iff _ _).2 ⟨post, rfl⟩
        rw [List.nil_append, List.cons_append, Index_cons, if_pos hp]
        rfl
    | cons c cs ih =>
      rw [List.cons_append, List.cons_append, Index_cons]
      by_cases hp : HasPrefix (c :: (cs ++ sep ++ post)) sep = true
      · rw [if_pos hp]
        rfl
      · rw [if_neg hp]
        cases hi : Index (cs ++ sep ++ post) sep with
        | none =>
          rw [hi] at ih
          exact absurd ih (by decide)
        | some i => rfl

/-- C14: the line splitter cuts on CR LF when CR LF occurs anywhere in the content
and on LF otherwise; joining the lines with the separator used gives the content
back, and no line holds that separator. The entry file (`assemble`), an imported
file (`scanAndAppend`, the part of `pFile` after the lookup) and a fetched body
(`pMeta`) all go through this one splitter. -/
theorem splitLines_lossless (s : Str) :
    (Contains s "\r\n".toList = true ↔ ∃ pre post, s = pre ++ "\r\n".toList ++ post) ∧
    (Contains s "\r\n".toList = true →
      splitLines s = Split s "\r\n".toList ∧ Join (splitLines s) "\r\n".toList = s ∧
      ∀ line ∈ splitLines s, Contains line "\r\n".toList = false) ∧
    (Contains s "\r\n".toList = false →
      splitLines s = Split s "\n".toList ∧ Join (splitLines s) "\n".toList = s ∧
      ∀ line ∈ splitLines s, Contains line "\n".toList = false) ∧
    (∀ (w : World) (m : Str) (depth : Nat) (filePath : Str),
      w.readFile filePath = some s →
      assemble w m depth filePath =
        Run.after [Event.readFile filePath]
          (Run.mapResult
            (fun buf =>
              (plainLines (splitLines s)).map (fun oline => oline ++ "\r\n".toList) ++ buf)
            (dispatchAll (process w m depth) filePath
              ((directiveLines (splitLines s)).map
                (fun oline => normalize oline ++ "\r\n".toList)) []))) ∧
    (∀ (proc : Str → List Str → Str → Run (List Str)) (filePath : Str) (toAppend : List Str),
      scanAndAppend proc filePath toAppend s =
        Run.mapResult (fun sub => toAppend ++ (plainLines (splitLines s) ++ sub))
          (dispatchAll proc filePath ((directiveLines (splitLines s)).map normalize) [])) ∧
    (∀ (w : World) (url : Str) (buf : List Str) (status : Nat),
      w.httpGet url = some ⟨status, some s⟩ →
      pMeta w url buf = ⟨[Event.httpGet url], .ok (buf ++ splitLines s)⟩) := by
  refine ⟨Contains_iff s _, ?_, ?_, ?_, fun proc filePath toAppend =>
    scanAndAppend_eq proc filePath toAppend s,
    fun w url buf status h => pMeta_ok w url buf status s h⟩
  · intro h
    have e : splitLines s = Split s "\r\n".toList := by
      unfold splitLines
      rw [if_pos h]
    rw [e]
    exact ⟨rfl, Split_lossless _ (by decide) s.length s (le_refl _)⟩
  · intro h
    have e : splitLines s = Split s "\n".toList := by
      unfold splitLines
      rw [if_neg (by rw [h]; decide)]
    rw [e]
    exact ⟨rfl, Split_lossless _ (by decide) s.length s (le_refl _)⟩
  · intro w m depth filePath hread
    rw [assemble_eq, hread]

/-- C14, witness: a content with one CR LF and one lone LF is cut at the CR LF
only. -/
theorem splitLines_lossless_witness :
    splitLines "a\r\nb\nc".toList = Split "a\r\nb\nc".toList "\r\n".toList ∧
    Join (splitLines "a\r\nb\nc".toList) "\r\n".toList = "a\r\nb\nc".toList ∧
    ∀ line ∈ splitLines "a\r\nb\nc".toList, Contains line "\r\n".toList = false :=
  (splitLines_lossless "a\r\nb\nc".toList).2.1 (by decide)

/-! ## Replacing and removing bytes -/

/-- The recursion that Go's `Replace` performs: replace the first occurrence and
go on with the rest. -/
theorem Replace_unfold (s old new : Str) (hold : old ≠ []) (hne : old ≠ new) :
    Replace s old new =
      match Index s old with
      | none => s
      | some j => s.take j ++ new ++ Replace (s.drop (j + old.length)) old new := by
  unfold Replace Count
  simp only [hold, hne, if_false]
  cases hlen : s.length with
  | zero =>
    have hs : s = [] := List.length_eq_zero.1 hlen
    subst hs
    simp [countLoop, replaceLoop, Index, hold]
  | succ n =>
    simp only [countLoop]
    cases hi : Index s old with
    | none => simp [replaceLoop]
    | some i =>
      simp only [replaceLoop, hi]
      have hle := Index_some_le old s i hi
      have hpos : 0 < old.length := List.length_pos.2 hold
      have hd : (s.drop (i + old.length)).length ≤ n := by
        rw [List.length_drop]; omega
      rw [countLoop_stable old hold n _ hd]

/-- Replacing one byte by another is a byte-wise map. -/
theorem Replace_single_map (a b : Char) (hab : a ≠ b) (n : Nat) (s : Str) (hn : s.length ≤ n) :
    Replace s [a] [b] = s.map (fun c => if c = a then b else c) := by
  induction n generalizing s with
  | zero =>
    have hs : s = [] := List.length_eq_zero.1 (by omega)
    subst hs
    rw [Replace_of_Index_none [] _ _ (by simp) (by simp [Index])]
    rfl
  | succ n ih =>
    have hne : [a] ≠ [b] := by simpa using hab
    rw [Replace_unfold s [a] [b] (by simp) hne]
    cases hi : Index s [a] with
    | none =>
      have hmem := (Index_single_none_iff a s).1 hi
      simp only
      symm
      calc s.map (fun c => if c = a then b else c) = s.map id := by
            apply List.map_congr_left
            intro c hc
            have : c ≠ a := fun h => hmem (h ▸ hc)
            simp [this]
        _ = s := List.map_id _
    | some j =>
      have hle := Index_some_le [a] s j hi
      have hcut := Index_some_split [a] s j hi
      have hfront : a ∉ s.take j :=
        (Index_single_none_iff a _).1 (Index_take_none [a] (by simp) s j hi)
      have hshort : (s.drop (j + [a].length)).length ≤ n := by
        rw [List.length_drop]
        simp only [List.length_singleton] at hle ⊢
        omega
      simp only
      rw [ih _ hshort]
      conv_rhs => rw [hcut]
      rw [List.map_append, List.map_append]
      have hf : (s.take j).map (fun c => if c = a then b else c) = s.take j := by
        calc (s.take j).map (fun c => if c = a then b else c) = (s.take j).map id := by
              apply List.map_congr_left
              intro c hc
              have : c ≠ a := fun h => hfront (h ▸ hc)
              simp [this]
          _ = s.take j := List.map_id _
      rw [hf]
      simp

/-- Removing one byte is a filter. -/
theorem Replace_single_remove (a : Char) (n : Nat) (s : Str) (hn : s.length ≤ n) :
    Replace s [a] [] = s.filter (fun c => decide (c ≠ a)) := by
  induction n generalizing s with
  | zero =>
    have hs : s = [] := List.length_eq_zero.1 (by omega)
    subst hs
    rw [Replace_of_Index_none [] _ _ (by simp) (by simp [Index])]
    rfl
  | succ n ih =>
    rw [Replace_unfold s [a] [] (by simp) (by simp)]
    cases hi : Index s [a] with
    | none =>
      have hmem := (Index_single_none_iff a s).1 hi
      simp only
      symm
      rw [List.filter_eq_self]
      intro c hc
      have : c ≠ a := fun h => hmem (h ▸ hc)
      simpa using this
    | some j =>
      have hle := Index_some_le [a] s j hi
      have hcut := Index_some_split [a] s j hi
      have hfront : a ∉ s.take j :=
        (Index_single_none_iff a _).1 (Index_take_none [a] (by simp) s j hi)
      have hshort : (s.drop (j + [a].length)).length ≤ n := by
        rw [List.length_drop]
        simp only [List.length_singleton] at hle ⊢
        omega
      simp only
      rw [ih _ hshort]
      conv_rhs => rw [hcut]
      rw [List.filter_append, List.filter_append]
      have hf : (s.take j).filter (fun c => decide (c ≠ a)) = s.take j := by
        rw [List.filter_eq_self]
        intro c hc
        have : c ≠ a := fun h => hfront (h ▸ hc)
        simpa using this
      rw [hf]
      simp

theorem tabs_to_spaces (s : Str) :
    Replace s "\t".toList " ".toList = s.map (fun c => if c = '\t' then ' ' else c) :=
  Replace_single_map '\t' ' ' (by decide) s.length s (le_refl _)

theorem backslashes_to_slashes (s : Str) :
    Replace s "\\".toList "/".toList = s.map (fun c => if c = '\\' then '/' else c) :=
  Replace_single_map '\\' '/' (by decide) s.length s (le_refl _)

theorem remove_linefeeds (s : Str) :
    Replace s "\n".toList [] = s.filter (fun c => decide (c ≠ '\n')) :=
  Replace_single_remove '\n' s.length s (le_refl _)

/-! ## Classification of lines -/

theorem normalize_eq (oline : Str) :
    normalize oline = trimLeadingSpaces (oline.map (fun c => if c = '\t' then ' ' else c)) := by
  unfold normalize
  rw [tabs_to_spaces]

theorem trigger_not_blank : ∀ y ∈ trigger, y ≠ ' ' ∧ y ≠ '\t' := by decide

theorem HasPrefix_map_tabs (t : Str) (ht : ∀ y ∈ t, y ≠ ' ' ∧ y ≠ '\t') (l : Str) :
    HasPrefix (l.map (fun c => if c = '\t' then ' ' else c)) t = HasPrefix l t := by
  unfold HasPrefix
  induction t generalizing l with
  | nil => simp [List.isPrefixOf]
  | cons y ys ih =>
    cases l with
    | nil => simp [List.isPrefixOf]
    | cons x xs =>
      have hy := ht y (by simp)
      have hys : ∀ z ∈ ys, z ≠ ' ' ∧ z ≠ '\t' := fun z hz => ht z (List.mem_cons_of_mem _ hz)
      simp only [List.map_cons, List.isPrefixOf, ih hys xs]
      congr 1
      by_cases hx : x = '\t'
      · subst hx
        simp [hy.1, hy.2]
      · simp [hx]

/-- A line is taken for a directive exactly when it is a run of spaces and tabs
followed by text that starts with the trigger. -/
theorem isDirective_iff (oline : Str) :
    isDirective oline = true ↔
      ∃ ws rest, oline = ws ++ trigger ++ rest ∧ ∀ c ∈ ws, c = ' ' ∨ c = '\t' := by
  unfold isDirective
  rw [normalize_eq]
  induction oline with
  | nil =>
    constructor
    · intro h
      exact absurd h (by decide)
    · rintro ⟨ws, rest, h, _⟩
      have hlen := congrArg List.length h
      rw [List.length_append, List.length_append] at hlen
      have : trigger.length = 9 := rfl
      simp only [List.length_nil] at hlen
      omega
  | cons c cs ih =>
    by_cases hb : c = ' ' ∨ c = '\t'
    · have hstep : trimLeadingSpaces ((c :: cs).map (fun c => if c = '\t' then ' ' else c))
          = trimLeadingSpaces (cs.map (fun c => if c = '\t' then ' ' else c)) := by
        rcases hb with hb | hb <;> subst hb <;> simp [trimLeadingSpaces]
      rw [hstep, ih]
      constructor
      · rintro ⟨ws, rest, h, hws⟩
        refine ⟨c :: ws, rest, by rw [h]; rfl, ?_⟩
        intro x hx
        rcases List.mem_cons.1 hx with hx | hx
        · rw [hx]; exact hb
        · exact hws x hx
      · rintro ⟨ws, rest, h, hws⟩
        cases ws with
        | nil =>
          exfalso
          have hc : c = Char.ofNat 39 := by
            have h0 := congrArg List.head? h
            simpa [trigger] using h0
          rcases hb with hb | hb <;> rw [hb] at hc <;> exact absurd hc (by decide)
        | cons x xs =>
          simp only [List.cons_append, List.cons.injEq] at h
          exact ⟨xs, rest, h.2, fun y hy => hws y (List.mem_cons_of_mem _ hy)⟩
    · have hc1 : c ≠ ' ' := fun h => hb (Or.inl h)
      have hc2 : c ≠ '\t' := fun h => hb (Or.inr h)
      have hstep : trimLeadingSpaces ((c :: cs).map (fun c => if c = '\t' then ' ' else c))
          = (c :: cs).map (fun c => if c = '\t' then ' ' else c) := by
        simp [trimLeadingSpaces, hc1, hc2]
      rw [hstep, HasPrefix_map_tabs trigger trigger_not_blank, HasPrefix_iff]
      constructor
      · rintro ⟨rest, h⟩
        exact ⟨[], rest, by simpa using h, by simp⟩
      · rintro ⟨ws, rest, h, hws⟩
        cases ws with
        | nil => exact ⟨rest, by simpa using h⟩
        | cons x xs =>
          exfalso
          simp only [List.cons_append, List.cons.injEq] at h
          exact hb (h.1 ▸ hws x (by simp))

theorem trimLeadingSpaces_eq (s : Str) :
    trimLeadingSpaces s = s.dropWhile (fun c => decide (c = ' ')) := by
  induction s with
  | nil => rfl
  | cons c cs ih =>
    by_cases h : c = ' '
    · simp [trimLeadingSpaces, List.dropWhile, h, ih]
    · simp [trimLeadingSpaces, List.dropWhile, h]

theorem not_directive_iff (oline : Str) :
    isDirective oline = false ↔
      ∀ ws rest, oline = ws ++ trigger ++ rest → ∃ c ∈ ws, c ≠ ' ' ∧ c ≠ '\t' := by
  constructor
  · intro h ws rest heq
    by_contra hc
    have hall : ∀ c ∈ ws, c = ' ' ∨ c = '\t' := by
      intro c hcw
      by_contra hn
      exact hc ⟨c, hcw, fun h1 => hn (Or.inl h1), fun h2 => hn (Or.inr h2)⟩
    have := (isDirective_iff oline).2 ⟨ws, rest, heq, hall⟩
    rw [h] at this
    exact absurd this (by decide)
  · intro h
    cases hd : isDirective oline with
    | false => rfl
    | true =>
      obtain ⟨ws, rest, heq, hall⟩ := (isDirective_iff oline).1 hd
      obtain ⟨c, hc, h1, h2⟩ := h ws rest heq
      rcases hall c hc with h3 | h3
      · exact absurd h3 h1
      · exact absurd h3 h2

/-- C12: the test of the scanners is: tabs turned into spaces, leading spaces
dropped, then `'!rayonix` at the start; it holds exactly for the lines that are a
run of spaces and tabs followed by text starting with `'!rayonix`. The scan of the
entry file and the scan of an imported file both split their lines by this one
test: the lines it accepts are dispatched and the others are kept. -/
theorem directive_classification (oline : Str) :
    (isDirective oline =
      HasPrefix
        ((oline.map (fun c => if c = '\t' then ' ' else c)).dropWhile
          (fun c => decide (c = ' '))) trigger) ∧
    (isDirective oline = true ↔
      ∃ ws rest, oline = ws ++ trigger ++ rest ∧ ∀ c ∈ ws, c = ' ' ∨ c = '\t') ∧
    (∀ (proc : Str → List Str → Str → Run (List Str)) (filePath : Str) (data : List Str)
        (finished toAppend : List Str),
      scanEntry proc filePath data (finished, toAppend) =
        Run.mapResult
          (fun buf =>
            (finished ++ (data.filter (fun l => !isDirective l)).map
              (fun l => l ++ "\r\n".toList), buf))
          (dispatchAll proc filePath
            ((data.filter isDirective).map (fun l => normalize l ++ "\r\n".toList)) toAppend)) ∧
    (∀ (proc : Str → List Str → Str → Run (List Str)) (filePath : Str) (data : List Str)
        (toAppend subAppend : List Str),
      scanImported proc filePath data (toAppend, subAppend) =
        Run.mapResult (fun sub => (toAppend ++ data.filter (fun l => !isDirective l), sub))
          (dispatchAll proc filePath ((data.filter isDirective).map normalize) subAppend)) := by
  refine ⟨?_, isDirective_iff oline, ?_, ?_⟩
  · unfold isDirective
    rw [normalize_eq, trimLeadingSpaces_eq]
  · intro proc filePath data finished toAppend
    exact scanEntry_eq proc filePath data finished toAppend
  · intro proc filePath data toAppend subAppend
    exact scanImported_eq proc filePath data toAppend subAppend

/-- C12, witness: a line indented by a tab and two spaces is a directive. -/
theorem directive_classification_witness :
    isDirective "\t  '!rayonix import a.bas".toList = true :=
  (directive_classification "\t  '!rayonix import a.bas".toList).2.1.2
    ⟨"\t  ".toList, " import a.bas".toList, rfl, by decide⟩

/-- C13, counterexample: the line `print "'!rayonix import x.bas"` holds the
trigger inside a string literal. It is not taken for a directive: the build of a
file made of this line reads nothing but the entry file and writes the line. -/
theorem quoted_trigger_is_not_a_directive :
    Contains quotedLine trigger = true ∧
    isDirective quotedLine = false ∧
    buildProject wQuoted "main.bas".toList 3 "main.bas".toList "out.bas".toList
      = ⟨[Event.readFile "main.bas".toList, Event.create "out.bas".toList,
          Event.write (quotedLine ++ "\r\n\n".toList), Event.close], .ok ()⟩ := by
  decide

/-- C13, amended: a line in which the trigger stands only behind other text
(wherever `'!rayonix` occurs in it, something else than spaces and tabs comes
before) is not a directive: both scanners keep it among the plain lines and
dispatch nothing for it. -/
theorem trigger_after_text_is_plain (oline : Str)
    (h : ∀ ws rest, oline = ws ++ trigger ++ rest → ∃ c ∈ ws, c ≠ ' ' ∧ c ≠ '\t') :
    isDirective oline = false ∧
    (∀ (proc : Str → List Str → Str → Run (List Str)) (filePath : Str) (rest : List Str)
        (finished toAppend : List Str),
      scanEntry proc filePath (oline :: rest) (finished, toAppend) =
        scanEntry proc filePath rest (finished ++ [oline ++ "\r\n".toList], toAppend)) ∧
    (∀ (proc : Str → List Str → Str → Run (List Str)) (filePath : Str) (rest : List Str)
        (toAppend subAppend : List Str),
      scanImported proc filePath (oline :: rest) (toAppend, subAppend) =
        scanImported proc filePath rest (toAppend ++ [oline], subAppend)) := by
  have hd : isDirective oline = false := (not_directive_iff oline).2 h
  have hp : ¬ HasPrefix (normalize oline) trigger = true := by
    intro hp
    have : isDirective oline = true := hp
    rw [hd] at this
    exact absurd this (by decide)
  refine ⟨hd, ?_, ?_⟩
  · intro proc filePath rest finished toAppend
    simp only [scanEntry, hp, Bool.false_eq_true, if_false]
  · intro proc filePath rest toAppend subAppend
    simp only [scanImported, hp, Bool.false_eq_true, if_false]

/-- C13, witness: the line `print "'!rayonix import x.bas"`. -/
theorem trigger_after_text_is_plain_witness :
    isDirective quotedLine = false :=
  (trigger_after_text_is_plain quotedLine ((not_directive_iff quotedLine).1 (by decide))).1

/-! ## The slices stay in range -/

theorem Index_ge_of_front (c : Char) (pre rest : Str) (i : Nat) (hpre : c ∉ pre)
    (h : Index (pre ++ rest) [c] = some i) : pre.length ≤ i := by
  induction pre generalizing i with
  | nil => simp
  | cons x xs ih =>
    have hx : x ≠ c := fun h => hpre (by simp [h])
    have hxs : c ∉ xs := fun h => hpre (List.mem_cons_of_mem _ h)
    have hp : ¬ HasPrefix (x :: (xs ++ rest)) [c] = true := by
      intro hp
      obtain ⟨t, ht⟩ := (HasPrefix_iff _ _).1 hp
      simp only [List.singleton_append, List.cons.injEq] at ht
      exact hx ht.1
    rw [List.cons_append, Index_cons, if_neg hp] at h
    cases hi : Index (xs ++ rest) [c] with
    | none => simp [hi] at h
    | some j =>
      simp only [hi, Option.map_some', Option.some.injEq] at h
      have := ih j hxs hi
      simp only [List.length_cons]
      omega

/-- A line that starts with the trigger and has at least 3 tokens is at least as
long as the trigger, the second token and the two spaces around it. -/
theorem directive_line_length (line t1 : Str) (hdir : HasPrefix line trigger = true)
    (htok : (Split line " ".toList).get? 1 = some t1)
    (hlen : 3 ≤ (Split line " ".toList).length) :
    9 + 1 + t1.length + 1 ≤ line.length := by
  have e1 : " ".toList = [' '] := rfl
  rw [e1] at htok hlen
  obtain ⟨rest, hrest⟩ := (HasPrefix_iff _ _).1 hdir
  cases hi : Index line [' '] with
  | none =>
    rw [Split_of_Index_none line _ (by simp) hi] at hlen
    simp at hlen
  | some i =>
    have hunf : Split line [' '] = line.take i :: Split (line.drop (i + 1)) [' '] := by
      rw [Split_unfold line _ (by simp), hi]
      rfl
    have hi9 : 9 ≤ i := by
      have := Index_ge_of_front ' ' trigger rest i (by decide) (by rw [← hrest]; exact hi)
      simpa [trigger] using this
    have hle : i + 1 ≤ line.length := Index_some_le _ line i hi
    have hdrop : (line.drop (i + 1)).length = line.length - (i + 1) := List.length_drop _ _
    rw [hunf] at htok hlen
    generalize line.drop (i + 1) = tail at htok hlen hdrop
    rw [List.get?_cons_succ] at htok
    rw [List.length_cons] at hlen
    cases hj : Index tail [' '] with
    | none =>
      rw [Split_of_Index_none _ _ (by simp) hj] at hlen
      simp at hlen
    | some j =>
      have hunf2 : Split tail [' '] = tail.take j :: Split (tail.drop (j + 1)) [' '] := by
        rw [Split_unfold _ _ (by simp), hj]
        rfl
      have hle2 : j + 1 ≤ tail.length := Index_some_le _ _ j hj
      rw [hunf2, List.get?_cons_zero, Option.some.injEq] at htok
      rw [← htok, List.length_take]
      omega

theorem HasPrefix_append (s pre suffix : Str) (h : HasPrefix s pre = true) :
    HasPrefix (s ++ suffix) pre = true := by
  obtain ⟨rest, hrest⟩ := (HasPrefix_iff _ _).1 h
  rw [HasPrefix_iff]
  exact ⟨rest ++ suffix, by rw [hrest, List.append_assoc]⟩

theorem dispatchAll_result_ne (proc : Str → List Str → Str → Run (List Str)) (ctx : Str)
    (e : Err) (ds : List Str)
    (h : ∀ d ∈ ds, ∀ buf, (proc d buf ctx).result ≠ .error e) (buf : List Str) :
    (dispatchAll proc ctx ds buf).result ≠ .error e := by
  induction ds generalizing buf with
  | nil => simp [dispatchAll, Run.pure_def, Run.ret]
  | cons d ds ih =>
    simp only [dispatchAll, Run.bind_def]
    have hd := h d (by simp) buf
    rcases hx : proc d buf ctx with ⟨t, res⟩
    rw [hx] at hd
    cases res with
    | error e' =>
      simp only [Run.andThen]
      exact hd
    | ok b =>
      simp only [Run.andThen]
      exact ih (fun d' hd' => h d' (List.mem_cons_of_mem _ hd')) b

theorem mapResult_result_ne {α β : Type} (f : α → β) (x : Run α) (e : Err)
    (h : x.result ≠ .error e) : (Run.mapResult f x).result ≠ .error e := by
  rcases x with ⟨t, res⟩
  cases res with
  | error e' => simpa [Run.mapResult] using h
  | ok a => simp [Run.mapResult]

theorem pMeta_result_ne (w : World) (url : Str) (buf : List Str) (e : Err)
    (he : e ≠ Err.fatal) : (pMeta w url buf).result ≠ .error e := by
  cases hg : w.httpGet url with
  | none =>
    rw [pMeta_failed w url buf (Or.inl hg)]
    simpa using he.symm
  | some resp =>
    rcases resp with ⟨status, body⟩
    cases body with
    | none =>
      rw [pMeta_failed w url buf (Or.inr ⟨status, hg⟩)]
      simpa using he.symm
    | some bytes =>
      rw [pMeta_ok w url buf status bytes hg]
      simp

theorem readTiers_error_fatal (w : World) (m a c : Str) (e : Err)
    (h : (readTiers w m a c).result = .error e) : e = Err.fatal := by
  rw [readTiers_eq] at h
  cases h1 : w.readFile a with
  | some b1 => simp [h1] at h
  | none =>
    cases h2 : w.readFile (folderOf m ++ a) with
    | some b2 => simp [h1, h2] at h
    | none =>
      cases h3 : w.readFile (folderOf c ++ a) with
      | some b3 => simp [h1, h2, h3] at h
      | none =>
        simp only [h1, h2, h3, Except.error.injEq] at h
        exact h.symm

theorem normalized_directive_has_trigger (data : List Str) :
    ∀ d ∈ (directiveLines data).map normalize, HasPrefix d trigger = true := by
  intro d hd
  obtain ⟨o, ho, rfl⟩ := List.mem_map.1 hd
  exact (List.mem_filter.1 ho).2

/-- On a line that starts with the trigger, `process` ends out of range only if
the call of `pFile` does. -/
theorem processWith_in_range (pFileRec : Str → List Str → Str → Run (List Str)) (w : World)
    (hrec : ∀ a b c, (pFileRec a b c).result ≠ .error Err.outOfRange)
    (line : Str) (hdir : HasPrefix line trigger = true) (buf : List Str) (ctx : Str) :
    (processWith pFileRec w line buf ctx).result ≠ .error Err.outOfRange := by
  unfold processWith
  simp only []
  split_ifs with h2 himp h3 h17 hmeta h3' h15
  · simp [Run.pure_def, Run.ret]
  · simp [Run.pure_def, Run.ret]
  · exfalso
    have := directive_line_length line _ hdir himp (by omega)
    have e : "import".toList.length = 6 := rfl
    omega
  · exact hrec _ _ _
  · simp [Run.pure_def, Run.ret]
  · exfalso
    have := directive_line_length line _ hdir hmeta (by omega)
    have e : "meta".toList.length = 4 := rfl
    omega
  · exact pMeta_result_ne w _ _ _ (by decide)
  · simp [Run.pure_def, Run.ret]

theorem pFile_in_range (w : World) (m : Str) (depth : Nat) (a : Str) (buf : List Str)
    (c : Str) : (pFile w m depth a buf c).result ≠ .error Err.outOfRange := by
  induction depth generalizing a buf c with
  | zero => simp [pFile, Run.fail]
  | succ n ih =>
    rw [pFile_succ]
    rcases hx : readTiers w m a c with ⟨t, res⟩
    cases res with
    | error e =>
      have hres : (readTiers w m a c).result = .error e := by rw [hx]
      have hfatal : e = Err.fatal := readTiers_error_fatal w m a c e hres
      subst hfatal
      simp [Run.andThen]
    | ok bytes =>
      rw [Run.andThen_mk_ok, scanAndAppend_eq]
      simp only [Run.after]
      apply mapResult_result_ne
      apply dispatchAll_result_ne
      intro d hd b
      exact processWith_in_range _ w (fun a b c => ih a b c) d
        (normalized_directive_has_trigger _ d hd) b a

/-- C17: on a line that starts with `'!rayonix`, as the scanners hand it to
`process`, and on that line with CR LF added, the slices are in range: with second
token `import` and at least 3 tokens the line has at least 17 bytes, with second
token `meta` and at least 3 tokens at least 15, and `process` never ends with a
slice out of range, whatever the files and the depth (the lines dispatched inside
imported files start with the trigger as well). Without the trigger in front the
slice can be out of range, as on the line `a import b`. -/
theorem directive_slices_in_range (line : Str) (hdir : HasPrefix line trigger = true) :
    ((Split line " ".toList).get? 1 = some "import".toList →
      3 ≤ (Split line " ".toList).length → 17 ≤ line.length) ∧
    ((Split line " ".toList).get? 1 = some "meta".toList →
      3 ≤ (Split line " ".toList).length → 15 ≤ line.length) ∧
    ((Split (line ++ "\r\n".toList) " ".toList).get? 1 = some "import".toList →
      3 ≤ (Split (line ++ "\r\n".toList) " ".toList).length →
      17 ≤ (line ++ "\r\n".toList).length) ∧
    ((Split (line ++ "\r\n".toList) " ".toList).get? 1 = some "meta".toList →
      3 ≤ (Split (line ++ "\r\n".toList) " ".toList).length →
      15 ≤ (line ++ "\r\n".toList).length) ∧
    (∀ (w : World) (m : Str) (depth : Nat) (buf : List Str) (ctx : Str),
      (process w m depth line buf ctx).result ≠ .error Err.outOfRange ∧
      (process w m depth (line ++ "\r\n".toList) buf ctx).result ≠ .error Err.outOfRange) ∧
    (process wEmpty [] 0 "a import b".toList [] []).result = .error Err.outOfRange := by
  have hdir' := HasPrefix_append line trigger "\r\n".toList hdir
  have e6 : "import".toList.length = 6 := rfl
  have e4 : "meta".toList.length = 4 := rfl
  refine ⟨?_, ?_, ?_, ?_, ?_, by decide⟩
  · intro htok hlen
    have := directive_line_length line _ hdir htok hlen
    omega
  · intro htok hlen
    have := directive_line_length line _ hdir htok hlen
    omega
  · intro htok hlen
    have := directive_line_length _ _ hdir' htok hlen
    omega
  · intro htok hlen
    have := directive_line_length _ _ hdir' htok hlen
    omega
  · intro w m depth buf ctx
    exact ⟨processWith_in_range _ w (fun a b c => pFile_in_range w m depth a b c) line hdir
        buf ctx,
      processWith_in_range _ w (fun a b c => pFile_in_range w m depth a b c) _ hdir'
        buf ctx⟩

/-- C17, witness: the shortest import line with 3 tokens has 17 bytes. -/
theorem directive_slices_in_range_witness :
    17 ≤ "'!rayonix import ".toList.length :=
  (directive_slices_in_range "'!rayonix import ".toList (by decide)).1 (by decide) (by decide)

/-! ## The argument of a directive -/

theorem mem_of_mem_Replace_remove (old : Str) (hold : old ≠ []) (x : Char) (n : Nat) (s : Str)
    (hn : s.length ≤ n) (h : x ∈ Replace s old []) : x ∈ s := by
  induction n generalizing s with
  | zero =>
    have hs : s = [] := List.length_eq_zero.1 (by omega)
    subst hs
    rw [Replace_of_Index_none [] _ _ hold (by simp [Index, hold])] at h
    exact h
  | succ n ih =>
    rw [Replace_unfold s old [] hold hold] at h
    cases hi : Index s old with
    | none =>
      rw [hi] at h
      exact h
    | some j =>
      rw [hi] at h
      simp only [List.append_nil, List.mem_append] at h
      have hle := Index_some_le old s j hi
      have hpos : 0 < old.length := List.length_pos.2 hold
      have hshort : (s.drop (j + old.length)).length ≤ n := by
        rw [List.length_drop]; omega
      rcases h with h | h
      · exact List.mem_of_mem_take h
      · exact List.mem_of_mem_drop (ih _ hshort h)

theorem importArg_eq (line : Str) :
    importArg line =
      (Replace ((line.drop 17).map (fun c => if c = '\\' then '/' else c)) "\r\n".toList
        []).filter (fun c => decide (c ≠ '\n')) := by
  unfold importArg
  rw [backslashes_to_slashes, remove_linefeeds]

theorem metaArg_eq (line : Str) :
    metaArg line =
      (Replace (line.drop 15) "\r\n".toList []).filter (fun c => decide (c ≠ '\n')) := by
  unfold metaArg
  rw [remove_linefeeds]

theorem importArg_clean (line : Str) : '\\' ∉ importArg line ∧ '\n' ∉ importArg line := by
  rw [importArg_eq]
  constructor
  · intro h
    have h1 := (List.mem_filter.1 h).1
    have h2 := mem_of_mem_Replace_remove _ (by decide) _ _ _ (le_refl _) h1
    obtain ⟨c, _, hc⟩ := List.mem_map.1 h2
    by_cases hb : c = '\\'
    · rw [if_pos hb] at hc
      exact absurd hc (by decide)
    · rw [if_neg hb] at hc
      exact hb hc
  · intro h
    have := (List.mem_filter.1 h).2
    simp at this

theorem metaArg_clean (line : Str) : '\n' ∉ metaArg line := by
  rw [metaArg_eq]
  intro h
  have := (List.mem_filter.1 h).2
  simp at this

theorem importArg_of_no_linefeed (line : Str) (h : '\n' ∉ line) :
    importArg line = (line.drop 17).map (fun c => if c = '\\' then '/' else c) := by
  have hm : '\n' ∉ (line.drop 17).map (fun c => if c = '\\' then '/' else c) := by
    intro hmem
    obtain ⟨c, hc, hcv⟩ := List.mem_map.1 hmem
    by_cases hb : c = '\\'
    · rw [if_pos hb] at hcv
      exact absurd hcv (by decide)
    · rw [if_neg hb] at hcv
      exact h (hcv ▸ List.mem_of_mem_drop hc)
  unfold importArg
  rw [backslashes_to_slashes]
  exact (strip_newlines _ hm).1

theorem metaArg_of_no_linefeed (line : Str) (h : '\n' ∉ line) :
    metaArg line = line.drop 15 := by
  have hm : '\n' ∉ line.drop 15 := fun hmem => h (List.mem_of_mem_drop hmem)
  unfold metaArg
  exact (strip_newlines _ hm).1

/-- C11, counterexample: the last line of an LF file can end in a lone CR, and a
line of a CR LF file can hold a lone LF. On `'!rayonix import a.bas` followed by CR
the path handed to `pFile` is `a.bas` followed by CR (it is what the three reads
ask for): it ends in CR, where stripping trailing CR and LF gives `a.bas`. On
`'!rayonix import a LF b.bas` the path is `ab.bas`: the LF in the middle is taken
out, where stripping trailing bytes leaves it. The same holds for `meta`. -/
theorem argument_keeps_cr_and_loses_inner_lf :
    splitLines "x\n'!rayonix import a.bas\r".toList
      = ["x".toList, "'!rayonix import a.bas\r".toList] ∧
    importArg "'!rayonix import a.bas\r".toList = "a.bas\r".toList ∧
    statedImportArg "'!rayonix import a.bas\r".toList = "a.bas".toList ∧
    process wEmpty [] 1 "'!rayonix import a.bas\r".toList [] []
      = ⟨[Event.readFile "a.bas\r".toList, Event.readFile "a.bas\r".toList,
          Event.readFile "a.bas\r".toList], .error Err.fatal⟩ ∧
    splitLines "x\r\n'!rayonix import a\nb.bas".toList
      = ["x".toList, "'!rayonix import a\nb.bas".toList] ∧
    importArg "'!rayonix import a\nb.bas".toList = "ab.bas".toList ∧
    statedImportArg "'!rayonix import a\nb.bas".toList = "a\nb.bas".toList ∧
    metaArg "'!rayonix meta http://h/x\r".toList = "http://h/x\r".toList ∧
    statedMetaArg "'!rayonix meta http://h/x\r".toList = "http://h/x".toList := by
  decide

/-- C11, amended: for a line that starts with the trigger and has at least 3
tokens, with second token `import` the path handed to `pFile` is the line from
offset 17 (not the third token), every backslash turned into `/`, then every CR LF
taken out, then every LF taken out, wherever they stand; it holds no backslash and
no LF, and it is the line from offset 17 with the backslashes turned when the line
holds no LF. With second token `meta` the URL handed to `pMeta` is the line from
offset 15 with every CR LF and then every LF taken out. A CR that no LF follows
stays. -/
theorem argument_extraction (line : Str) (hdir : HasPrefix line trigger = true)
    (hlen : 3 ≤ (Split line " ".toList).length) :
    ((Split line " ".toList).get? 1 = some "import".toList →
      ∀ (w : World) (m : Str) (depth : Nat) (buf : List Str) (ctx : Str),
        process w m depth line buf ctx = pFile w m depth (importArg line) buf ctx) ∧
    importArg line =
      (Replace ((line.drop 17).map (fun c => if c = '\\' then '/' else c)) "\r\n".toList
        []).filter (fun c => decide (c ≠ '\n')) ∧
    '\\' ∉ importArg line ∧ '\n' ∉ importArg line ∧
    ('\n' ∉ line →
      importArg line = (line.drop 17).map (fun c => if c = '\\' then '/' else c)) ∧
    ((Split line " ".toList).get? 1 = some "meta".toList →
      ∀ (w : World) (m : Str) (depth : Nat) (buf : List Str) (ctx : Str),
        process w m depth line buf ctx = pMeta w (metaArg line) buf) ∧
    metaArg line =
      (Replace (line.drop 15) "\r\n".toList []).filter (fun c => decide (c ≠ '\n')) ∧
    '\n' ∉ metaArg line ∧
    ('\n' ∉ line → metaArg line = line.drop 15) := by
  have e6 : "import".toList.length = 6 := rfl
  have e4 : "meta".toList.length = 4 := rfl
  refine ⟨?_, importArg_eq line, (importArg_clean line).1, (importArg_clean line).2,
    importArg_of_no_linefeed line, ?_, metaArg_eq line, metaArg_clean line,
    metaArg_of_no_linefeed line⟩
  · intro htok w m depth buf ctx
    have := directive_line_length line _ hdir htok hlen
    exact process_import w m depth line buf ctx htok hlen (by omega)
  · intro htok w m depth buf ctx
    have := directive_line_length line _ hdir htok hlen
    exact process_meta w m depth line buf ctx htok hlen (by omega)

/-- C11, witness: the path is what follows offset 17, spaces included, with the
backslash turned. -/
theorem argument_extraction_witness :
    importArg "'!rayonix import my lib\\a.bas".toList = "my lib/a.bas".toList :=
  (argument_extraction "'!rayonix import my lib\\a.bas".toList (by decide)
    (by decide)).2.2.2.2.1 (by decide)

/-! ## Indentation and the added line end -/

theorem normalize_blank_run (ws line : Str) (hws : ∀ c ∈ ws, c = ' ' ∨ c = '\t') :
    normalize (ws ++ line) = normalize line := by
  rw [normalize_eq, normalize_eq]
  induction ws with
  | nil => rfl
  | cons x xs ih =>
    have hx := hws x (by simp)
    have hxs : ∀ c ∈ xs, c = ' ' ∨ c = '\t' := fun c hc => hws c (List.mem_cons_of_mem _ hc)
    have step : trimLeadingSpaces ((x :: xs ++ line).map (fun c => if c = '\t' then ' ' else c))
        = trimLeadingSpaces ((xs ++ line).map (fun c => if c = '\t' then ' ' else c)) := by
      rcases hx with hx | hx <;> subst hx <;> simp [trimLeadingSpaces]
    rw [step]
    exact ih hxs

theorem Index_append_no_sep (c : Char) (s t : Str) (ht : c ∉ t) :
    Index (s ++ t) [c] = Index s [c] := by
  induction s with
  | nil =>
    rw [List.nil_append, (Index_single_none_iff c t).2 ht]
    rfl
  | cons x xs ih =>
    rw [List.cons_append, Index_cons, Index_cons, ih]
    have : HasPrefix (x :: (xs ++ t)) [c] = HasPrefix (x :: xs) [c] := by
      simp [HasPrefix, List.isPrefixOf]
    rw [this]

theorem appendToLast_cons (x : Str) (xs : List Str) (hxs : xs ≠ []) (t : Str) :
    appendToLast (x :: xs) t = x :: appendToLast xs t := by
  cases xs with
  | nil => exact absurd rfl hxs
  | cons y ys => rfl

theorem appendToLast_length (xs : List Str) (t : Str) :
    (appendToLast xs t).length = xs.length := by
  induction xs with
  | nil => rfl
  | cons x xs ih =>
    cases xs with
    | nil => rfl
    | cons y ys =>
      rw [appendToLast_cons x _ (by simp), List.length_cons, ih]
      rfl

theorem appendToLast_get?_one (xs : List Str) (t : Str) (h : 3 ≤ xs.length) :
    (appendToLast xs t).get? 1 = xs.get? 1 := by
  match xs, h with
  | x :: y :: z :: rest, _ => rfl

/-- A suffix without the separator only lengthens the last piece. -/
theorem Split_append_suffix (c : Char) (t : Str) (ht : c ∉ t) (n : Nat) (s : Str)
    (hn : s.length ≤ n) : Split (s ++ t) [c] = appendToLast (Split s [c]) t := by
  induction n generalizing s with
  | zero =>
    have hs : s = [] := List.length_eq_zero.1 (by omega)
    subst hs
    have h1 : Index ([] ++ t) [c] = none := by
      rw [List.nil_append]; exact (Index_single_none_iff c t).2 ht
    have h2 : Index [] [c] = none := by simp [Index]
    rw [Split_of_Index_none _ _ (by simp) h1, Split_of_Index_none _ _ (by simp) h2]
    rfl
  | succ n ih =>
    cases hi : Index s [c] with
    | none =>
      have h1 : Index (s ++ t) [c] = none := by rw [Index_append_no_sep c s t ht, hi]
      rw [Split_of_Index_none _ _ (by simp) h1, Split_of_Index_none _ _ (by simp) hi]
      rfl
    | some i =>
      have h1 : Index (s ++ t) [c] = some i := by rw [Index_append_no_sep c s t ht, hi]
      have hle : i + 1 ≤ s.length := Index_some_le [c] s i hi
      have hshort : (s.drop (i + 1)).length ≤ n := by
        rw [List.length_drop]; omega
      have hu1 : Split (s ++ t) [c]
          = (s ++ t).take i :: Split ((s ++ t).drop (i + 1)) [c] := by
        rw [Split_unfold _ _ (by simp), h1]
        rfl
      have hu2 : Split s [c] = s.take i :: Split (s.drop (i + 1)) [c] := by
        rw [Split_unfold _ _ (by simp), hi]
        rfl
      rw [hu1, hu2, appendToLast_cons _ _ (Split_ne_nil _ _ (by simp)),
        List.take_append_of_le_length (by omega), List.drop_append_of_le_length (by omega),
        ih _ hshort]

theorem Index_append_of_some (sep : Str) (s t : Str) (j : Nat) (h : Index s sep = some j) :
    Index (s ++ t) sep = some j := by
  induction s generalizing j with
  | nil =>
    by_cases hs : sep = []
    · subst hs
      simp only [Index, if_true, Option.some.injEq] at h
      subst h
      cases t <;> simp [Index, HasPrefix]
    · simp [Index, hs] at h
  | cons c cs ih =>
    rw [Index_cons] at h
    rw [List.cons_append, Index_cons]
    by_cases hp : HasPrefix (c :: cs) sep = true
    · have hp' : HasPrefix (c :: (cs ++ t)) sep = true := HasPrefix_append (c :: cs) sep t hp
      rw [if_pos hp] at h
      rw [if_pos hp']
      exact h
    · rw [if_neg hp] at h
      cases hi : Index cs sep with
      | none => simp [hi] at h
      | some i =>
        have hle := Index_some_le sep cs i hi
        have hp' : ¬ HasPrefix (c :: (cs ++ t)) sep = true := by
          intro hq
          apply hp
          unfold HasPrefix at hq ⊢
          rw [List.isPrefixOf_iff_prefix] at hq ⊢
          have hpre : (c :: cs) <+: (c :: (cs ++ t)) := ⟨t, rfl⟩
          exact List.prefix_of_prefix_length_le hq hpre (by simp only [List.length_cons]; omega)
        rw [if_neg hp', ih i hi]
        rw [hi] at h
        exact h

theorem Index_crlf_append_of_none (y : Str) (h : Index y "\r\n".toList = none) :
    Index (y ++ "\r\n".toList) "\r\n".toList = some y.length := by
  have e : "\r\n".toList = ['\r', '\n'] := rfl
  rw [e] at h ⊢
  induction y with
  | nil =>
    have : HasPrefix ['\r', '\n'] ['\r', '\n'] = true := by decide
    simp [Index, this]
  | cons x xs ih =>
    rw [Index_cons] at h
    by_cases hp : HasPrefix (x :: xs) ['\r', '\n'] = true
    · rw [if_pos hp] at h
      exact absurd h (by simp)
    · rw [if_neg hp] at h
      have hxs : Index xs ['\r', '\n'] = none := by
        cases hi : Index xs ['\r', '\n'] with
        | none => rfl
        | some i => simp [hi] at h
      have hp' : ¬ HasPrefix (x :: (xs ++ ['\r', '\n'])) ['\r', '\n'] = true := by
        intro hq
        obtain ⟨t, ht⟩ := (HasPrefix_iff _ _).1 hq
        simp only [List.cons_append, List.nil_append, List.cons.injEq] at ht
        cases xs with
        | nil =>
          simp only [List.nil_append, List.cons.injEq] at ht
          exact absurd ht.2.1 (by decide)
        | cons z zs =>
          simp only [List.cons_append, List.cons.injEq] at ht
          apply hp
          rw [HasPrefix_iff]
          exact ⟨zs, by simp [ht.1, ht.2.1]⟩
      rw [List.cons_append, Index_cons, if_neg hp', ih hxs]
      simp

/-- An added CR LF is taken out together with the others. -/
theorem Replace_crlf_append (n : Nat) (y : Str) (hn : y.length ≤ n) :
    Replace (y ++ "\r\n".toList) "\r\n".toList [] = Replace y "\r\n".toList [] := by
  have hsep : "\r\n".toList ≠ [] := by decide
  have hl2 : "\r\n".toList.length = 2 := rfl
  induction n generalizing y with
  | zero =>
    have hs : y = [] := List.length_eq_zero.1 (by omega)
    subst hs
    decide
  | succ n ih =>
    rw [Replace_unfold (y ++ "\r\n".toList) _ [] hsep hsep, Replace_unfold y _ [] hsep hsep]
    cases hi : Index y "\r\n".toList with
    | none =>
      rw [Index_crlf_append_of_none y hi]
      simp only [List.append_nil]
      rw [List.take_left', List.drop_eq_nil_of_le (by rw [List.length_append])]
      · rw [Replace_of_Index_none [] _ _ hsep (by decide)]
        simp
      · rfl
    | some j =>
      rw [Index_append_of_some _ y _ j hi]
      have hle := Index_some_le _ y j hi
      have hshort : (y.drop (j + "\r\n".toList.length)).length ≤ n := by
        rw [List.length_drop]; omega
      simp only [List.append_nil]
      rw [List.take_append_of_le_length (by omega), List.drop_append_of_le_length hle,
        ih _ hshort]

theorem importArg_append_crlf (line : Str) (h : 17 ≤ line.length) :
    importArg (line ++ "\r\n".toList) = importArg line := by
  unfold importArg
  rw [List.drop_append_of_le_length h, backslashes_to_slashes, backslashes_to_slashes,
    List.map_append]
  have e : ("\r\n".toList).map (fun c => if c = '\\' then '/' else c) = "\r\n".toList := by
    decide
  rw [e, Replace_crlf_append _ _ (le_refl _)]

theorem metaArg_append_crlf (line : Str) (h : 15 ≤ line.length) :
    metaArg (line ++ "\r\n".toList) = metaArg line := by
  unfold metaArg
  rw [List.drop_append_of_le_length h, Replace_crlf_append _ _ (le_refl _)]

theorem process_few_tokens (w : World) (m : Str) (depth : Nat) (line : Str) (buf : List Str)
    (ctx : Str) (h : (Split line " ".toList).length < 3) :
    process w m depth line buf ctx = ⟨[], .ok buf⟩ := by
  unfold process processWith
  simp only []
  split_ifs <;> rfl

theorem process_other_keyword (w : World) (m : Str) (depth : Nat) (line : Str)
    (buf : List Str) (ctx : Str)
    (h1 : (Split line " ".toList).get? 1 ≠ some "import".toList)
    (h2 : (Split line " ".toList).get? 1 ≠ some "meta".toList) :
    process w m depth line buf ctx = ⟨[], .ok buf⟩ := by
  unfold process processWith
  simp only [h1, h2, if_false]
  split_ifs <;> rfl

/-- A line that starts with the trigger is dispatched in the same way with CR LF
behind it. -/
theorem process_append_crlf (w : World) (m : Str) (depth : Nat) (line : Str)
    (hdir : HasPrefix line trigger = true) (buf : List Str) (ctx : Str) :
    process w m depth (line ++ "\r\n".toList) buf ctx = process w m depth line buf ctx := by
  have e1 : " ".toList = [' '] := rfl
  have hsplit : Split (line ++ "\r\n".toList) " ".toList
      = appendToLast (Split line " ".toList) "\r\n".toList := by
    rw [e1]
    exact Split_append_suffix ' ' _ (by decide) _ line (le_refl _)
  have hlen : (Split (line ++ "\r\n".toList) " ".toList).length
      = (Split line " ".toList).length := by
    rw [hsplit, appendToLast_length]
  have hdir' := HasPrefix_append line trigger "\r\n".toList hdir
  have e6 : "import".toList.length = 6 := rfl
  have e4 : "meta".toList.length = 4 := rfl
  by_cases h3 : 3 ≤ (Split line " ".toList).length
  · have htok : (Split (line ++ "\r\n".toList) " ".toList).get? 1
        = (Split line " ".toList).get? 1 := by
      rw [hsplit, appendToLast_get?_one _ _ h3]
    by_cases himp : (Split line " ".toList).get? 1 = some "import".toList
    · have hr := directive_line_length line _ hdir himp h3
      have hr' := directive_line_length _ _ hdir' (htok.trans himp) (hlen ▸ h3)
      rw [process_import w m depth _ buf ctx (htok.trans himp) (hlen ▸ h3) (by omega),
        process_import w m depth line buf ctx himp h3 (by omega)]
      have := importArg_append_crlf line (by omega)
      unfold importArg at this
      rw [this]
    · by_cases hmeta : (Split line " ".toList).get? 1 = some "meta".toList
      · have hr := directive_line_length line _ hdir hmeta h3
        have hr' := directive_line_length _ _ hdir' (htok.trans hmeta) (hlen ▸ h3)
        rw [process_meta w m depth _ buf ctx (htok.trans hmeta) (hlen ▸ h3) (by omega),
          process_meta w m depth line buf ctx hmeta h3 (by omega)]
        have := metaArg_append_crlf line (by omega)
        unfold metaArg at this
        rw [this]
      · rw [process_other_keyword w m depth line buf ctx himp hmeta,
          process_other_keyword w m depth _ buf ctx (by rw [htok]; exact himp)
            (by rw [htok]; exact hmeta)]
  · rw [process_few_tokens w m depth line buf ctx (by omega),
      process_few_tokens w m depth _ buf ctx (by omega)]

theorem normalize_importLine (p : Str) (hp : '\t' ∉ p) :
    normalize ("'!rayonix import ".toList ++ p) = "'!rayonix import ".toList ++ p := by
  rw [normalize_eq, List.map_append]
  have e1 : ("'!rayonix import ".toList).map (fun c => if c = '\t' then ' ' else c)
      = "'!rayonix import ".toList := by decide
  have e2 : p.map (fun c => if c = '\t' then ' ' else c) = p := by
    calc p.map (fun c => if c = '\t' then ' ' else c) = p.map id := by
          apply List.map_congr_left
          intro c hc
          have : c ≠ '\t' := fun h => hp (h ▸ hc)
          simp [this]
      _ = p := List.map_id _
  rw [e1, e2]
  rfl

/-- C19: a run of spaces and tabs in front of a line changes neither the
normalised line nor, therefore, its classification, the text that is dispatched
and the argument taken from it at offset 17 or 15. The CR LF that the entry scan
adds changes neither the argument nor anything else in the dispatch of a line that
starts with the trigger. So `'!rayonix import p`, indented or not, in the entry
file or in an imported file, is an import of the path `p` (for a `p` without tab,
line feed and backslash, which the extraction would change). -/
theorem indentation_and_line_end_are_immaterial (ws line : Str)
    (hws : ∀ c ∈ ws, c = ' ' ∨ c = '\t') :
    normalize (ws ++ line) = normalize line ∧
    isDirective (ws ++ line) = isDirective line ∧
    importArg (normalize (ws ++ line)) = importArg (normalize line) ∧
    metaArg (normalize (ws ++ line)) = metaArg (normalize line) ∧
    (isDirective line = true →
      (∀ (w : World) (m : Str) (depth : Nat) (buf : List Str) (ctx : Str),
        process w m depth (normalize (ws ++ line) ++ "\r\n".toList) buf ctx
          = process w m depth (normalize line) buf ctx) ∧
      (17 ≤ (normalize line).length →
        importArg (normalize (ws ++ line) ++ "\r\n".toList) = importArg (normalize line)) ∧
      (15 ≤ (normalize line).length →
        metaArg (normalize (ws ++ line) ++ "\r\n".toList) = metaArg (normalize line))) ∧
    (∀ p, '\t' ∉ p → '\n' ∉ p → '\\' ∉ p →
      importArg (normalize (ws ++ ("'!rayonix import ".toList ++ p))) = p ∧
      importArg (normalize (ws ++ ("'!rayonix import ".toList ++ p)) ++ "\r\n".toList) = p ∧
      ∀ (w : World) (m : Str) (depth : Nat) (buf : List Str) (ctx : Str),
        process w m depth (normalize (ws ++ ("'!rayonix import ".toList ++ p))) buf ctx
          = pFile w m depth p buf ctx ∧
        process w m depth
            (normalize (ws ++ ("'!rayonix import ".toList ++ p)) ++ "\r\n".toList) buf ctx
          = pFile w m depth p buf ctx) := by
  have hn := normalize_blank_run ws line hws
  refine ⟨hn, ?_, by rw [hn], by rw [hn], ?_, ?_⟩
  · unfold isDirective
    rw [hn]
  · intro hdir
    have hd : HasPrefix (normalize line) trigger = true := hdir
    rw [hn]
    exact ⟨fun w m depth buf ctx => process_append_crlf w m depth _ hd buf ctx,
      fun h => importArg_append_crlf _ h, fun h => metaArg_append_crlf _ h⟩
  · intro p ht hlf hbs
    rw [normalize_blank_run ws _ hws, normalize_importLine p ht]
    have hfacts := importLine_facts p
    have harg : importArg ("'!rayonix import ".toList ++ p) = p := by
      rw [importArg_of_no_linefeed]
      · rw [hfacts.2.2.2]
        calc p.map (fun c => if c = '\\' then '/' else c) = p.map id := by
              apply List.map_congr_left
              intro c hc
              have : c ≠ '\\' := fun h => hbs (h ▸ hc)
              simp [this]
          _ = p := List.map_id _
      · intro h
        rcases List.mem_append.1 h with h | h
        · exact absurd h (by decide)
        · exact hlf h
    refine ⟨harg, ?_, fun w m depth buf ctx => process_importLine w m depth p buf ctx hlf hbs⟩
    rw [importArg_append_crlf _ hfacts.2.2.1, harg]

/-- C19, witness: `'!rayonix import lib/a.bas` behind a tab and two spaces, as the
entry scan dispatches it, is the import of `lib/a.bas`. -/
theorem indentation_and_line_end_are_immaterial_witness :
    importArg (normalize ("\t  ".toList ++ ("'!rayonix import ".toList ++ "lib/a.bas".toList))
      ++ "\r\n".toList) = "lib/a.bas".toList :=
  ((indentation_and_line_end_are_immaterial "\t  ".toList [] (by decide)).2.2.2.2.2
    "lib/a.bas".toList (by decide) (by decide) (by decide)).2.1

/-! ## Imports of the entry file -/

theorem readTiers_same_context (w : World) (m a : Str) :
    readTiers w m a m =
      match w.readFile a, w.readFile (folderOf m ++ a) with
      | some bytes, _ => ⟨[Event.readFile a], .ok bytes⟩
      | none, some bytes =>
        ⟨[Event.readFile a, Event.readFile (folderOf m ++ a)], .ok bytes⟩
      | none, none =>
        ⟨[Event.readFile a, Event.readFile (folderOf m ++ a),
          Event.readFile (folderOf m ++ a)], .error Err.fatal⟩ := by
  rw [readTiers_eq]
  cases h1 : w.readFile a with
  | some b1 => cases h2 : w.readFile (folderOf m ++ a) <;> simp [h1, h2]
  | none => cases h2 : w.readFile (folderOf m ++ a) <;> simp [h1, h2]

/-- C18: in a build the global `mainFile` is the entry path, and the entry scan
dispatches its directives with the entry path as context; so an import of `a` that
stands in the entry file is looked up with context and entry file equal: the third
candidate is the second path once more, and the lookup succeeds if and only if `a`
or `folderOf entry ++ a` can be read. -/
theorem entry_import_has_two_candidates (w : World) (depth : Nat) (filePath outPath : Str)
    (a : Str) :
    mainBuild w depth filePath outPath = buildProject w filePath depth filePath outPath ∧
    assemble w filePath depth filePath =
      (match w.readFile filePath with
      | none => ⟨[Event.readFile filePath], .error Err.fatal⟩
      | some bytes =>
        Run.after [Event.readFile filePath]
          (Run.mapResult
            (fun buf =>
              (plainLines (splitLines bytes)).map (fun oline => oline ++ "\r\n".toList) ++ buf)
            (dispatchAll (process w filePath depth) filePath
              ((directiveLines (splitLines bytes)).map
                (fun oline => normalize oline ++ "\r\n".toList)) []))) ∧
    (∀ line buf, HasPrefix line trigger = true →
      (Split line " ".toList).get? 1 = some "import".toList →
      3 ≤ (Split line " ".toList).length →
      process w filePath depth line buf filePath
        = pFile w filePath depth (importArg line) buf filePath) ∧
    (∀ n buf, pFile w filePath (n + 1) a buf filePath =
      Run.andThen (readTiers w filePath a filePath)
        (fun bytes => scanAndAppend (process w filePath n) a buf bytes)) ∧
    readTiers w filePath a filePath =
      (match w.readFile a, w.readFile (folderOf filePath ++ a) with
      | some bytes, _ => ⟨[Event.readFile a], .ok bytes⟩
      | none, some bytes =>
        ⟨[Event.readFile a, Event.readFile (folderOf filePath ++ a)], .ok bytes⟩
      | none, none =>
        ⟨[Event.readFile a, Event.readFile (folderOf filePath ++ a),
          Event.readFile (folderOf filePath ++ a)], .error Err.fatal⟩) ∧
    ((∃ bytes, (readTiers w filePath a filePath).result = .ok bytes) ↔
      ((w.readFile a).isSome = true ∨ (w.readFile (folderOf filePath ++ a)).isSome = true)) := by
  have e6 : "import".toList.length = 6 := rfl
  refine ⟨rfl, assemble_eq w filePath depth filePath, ?_,
    fun n buf => pFile_succ w filePath n a buf filePath,
    readTiers_same_context w filePath a, ?_⟩
  · intro line buf hdir htok hlen
    have := directive_line_length line _ hdir htok hlen
    exact process_import w filePath depth line buf filePath htok hlen (by omega)
  · rw [readTiers_same_context]
    cases h1 : w.readFile a <;> cases h2 : w.readFile (folderOf filePath ++ a) <;> simp

/-- C18, witness: the entry file `proj/main.bas` imports `folder/file.bas`, which
is found below the folder of the entry file. -/
theorem entry_import_has_two_candidates_witness :
    ∃ bytes, (readTiers wProject "proj/main.bas".toList "folder/file.bas".toList
      "proj/main.bas".toList).result = .ok bytes :=
  (entry_import_has_two_candidates wProject 5 "proj/main.bas".toList "out.bas".toList
    "folder/file.bas".toList).2.2.2.2.2.2 (Or.inr (by decide))

/-! ## Cyclic imports -/

theorem dispatchAll_hits_failing (proc : Str → List Str → Str → Run (List Str)) (ctx : Str)
    (pre : List Str) (d : Str) (post : List Str) (buf : List Str)
    (hd : ∀ b1, ∃ e, (proc d b1 ctx).result = .error e) :
    ∃ e, (dispatchAll proc ctx (pre ++ d :: post) buf).result = .error e := by
  cases hpre : (dispatchAll proc ctx pre buf).result with
  | error e =>
    refine ⟨e, ?_⟩
    rw [dispatchAll_append, andThen_result_error _ _ e hpre]
  | ok b1 =>
    obtain ⟨e, he⟩ := hd b1
    exact ⟨e, dispatchAll_first_error proc ctx pre d post buf b1 e hpre he⟩

theorem dispatchAll_hits_depth (proc : Str → List Str → Str → Run (List Str)) (ctx : Str)
    (pre : List Str) (d : Str) (post : List Str) (buf : List Str)
    (hpre1 : (dispatchAll proc ctx pre buf).result ≠ .error Err.fatal)
    (hpre2 : (dispatchAll proc ctx pre buf).result ≠ .error Err.outOfRange)
    (hd : ∀ b1, (proc d b1 ctx).result = .error Err.depthExceeded) :
    (dispatchAll proc ctx (pre ++ d :: post) buf).result = .error Err.depthExceeded := by
  cases hpre : (dispatchAll proc ctx pre buf).result with
  | error e =>
    rw [dispatchAll_append, andThen_result_error _ _ e hpre]
    cases e with
    | fatal => exact absurd hpre hpre1
    | outOfRange => exact absurd hpre hpre2
    | depthExceeded => rfl
  | ok b1 => exact dispatchAll_first_error proc ctx pre d post buf b1 _ hpre (hd b1)

theorem pFile_fails_of_failing_directive (w : World) (m : Str) (n : Nat) (a : Str)
    (buf : List Str) (c : Str) (bytes : Str) (pre : List Str) (d : Str) (post : List Str)
    (hread : (readTiers w m a c).result = .ok bytes)
    (hds : (directiveLines (splitLines bytes)).map normalize = pre ++ d :: post)
    (hd : ∀ b1, ∃ e, (process w m n d b1 a).result = .error e) :
    ∃ e, (pFile w m (n + 1) a buf c).result = .error e := by
  obtain ⟨e, he⟩ := dispatchAll_hits_failing (process w m n) a pre d post [] hd
  refine ⟨e, ?_⟩
  rw [pFile_succ, andThen_result_of_ok _ _ bytes hread, scanAndAppend_eq, hds]
  exact mapResult_result_error _ _ e he

theorem pFile_exceeds_of_exceeding_directive (w : World) (m : Str) (n : Nat) (a : Str)
    (buf : List Str) (c : Str) (bytes : Str) (pre : List Str) (d : Str) (post : List Str)
    (hread : (readTiers w m a c).result = .ok bytes)
    (hds : (directiveLines (splitLines bytes)).map normalize = pre ++ d :: post)
    (hpre : (dispatchAll (process w m n) a pre []).result ≠ .error Err.fatal)
    (hd : ∀ b1, (process w m n d b1 a).result = .error Err.depthExceeded) :
    (pFile w m (n + 1) a buf c).result = .error Err.depthExceeded := by
  have hrange : (dispatchAll (process w m n) a pre []).result ≠ .error Err.outOfRange := by
    apply dispatchAll_result_ne
    intro d' hd' b'
    have hmem : d' ∈ (directiveLines (splitLines bytes)).map normalize := by
      rw [hds]
      exact List.mem_append_left _ hd'
    exact processWith_in_range _ w (fun a b c => pFile_in_range w m n a b c) d'
      (normalized_directive_has_trigger _ d' hmem) b' a
  rw [pFile_succ, andThen_result_of_ok _ _ bytes hread, scanAndAppend_eq, hds]
  exact mapResult_result_error _ _ _
    (dispatchAll_hits_depth (process w m n) a pre d post [] hpre hrange hd)

/-- C15, amended: let the import of `b` found in `A` (the file that `a` resolves
to) resolve to `B`, and the import of `a` found in `B` resolve to `A` again
(`a = b` is a file that imports itself). Then the import of `a` returns at no
recursion depth: for every bound on the depth the call ends without a value. When
the directives that stand before the two cyclic imports do not end fatally, the
call exceeds every bound: the recursion goes on for ever, and nothing detects the
cycle or reports it. -/
theorem cyclic_import_never_returns (w : World) (m a b bytesA bytesB : Str)
    (preA postA preB postB : List Str)
    (ha : '\n' ∉ a ∧ '\\' ∉ a) (hb : '\n' ∉ b ∧ '\\' ∉ b)
    (hAB : (readTiers w m b a).result = .ok bytesB)
    (hBA : (readTiers w m a b).result = .ok bytesA)
    (hdsA : (directiveLines (splitLines bytesA)).map normalize
      = preA ++ ("'!rayonix import ".toList ++ b) :: postA)
    (hdsB : (directiveLines (splitLines bytesB)).map normalize
      = preB ++ ("'!rayonix import ".toList ++ a) :: postB) :
    (∀ n buf c, (readTiers w m a c).result = .ok bytesA →
      ∃ e, (pFile w m n a buf c).result = .error e) ∧
    ((∀ k, (dispatchAll (process w m k) a preA []).result ≠ .error Err.fatal) →
      (∀ k, (dispatchAll (process w m k) b preB []).result ≠ .error Err.fatal) →
      ∀ n buf c, (readTiers w m a c).result = .ok bytesA →
        (pFile w m n a buf c).result = .error Err.depthExceeded) := by
  constructor
  · have key : ∀ n,
        (∀ buf c, (readTiers w m a c).result = .ok bytesA →
          ∃ e, (pFile w m n a buf c).result = .error e) ∧
        (∀ buf c, (readTiers w m b c).result = .ok bytesB →
          ∃ e, (pFile w m n b buf c).result = .error e) := by
      intro n
      induction n with
      | zero => exact ⟨fun _ _ _ => ⟨_, rfl⟩, fun _ _ _ => ⟨_, rfl⟩⟩
      | succ n ih =>
        constructor
        · intro buf c hread
          apply pFile_fails_of_failing_directive w m n a buf c bytesA preA _ postA hread hdsA
          intro b1
          rw [(process_importLine w m n b b1 a hb.1 hb.2).1]
          exact ih.2 b1 a hAB
        · intro buf c hread
          apply pFile_fails_of_failing_directive w m n b buf c bytesB preB _ postB hread hdsB
          intro b1
          rw [(process_importLine w m n a b1 b ha.1 ha.2).1]
          exact ih.1 b1 b hBA
    exact fun n => (key n).1
  · intro hpreA hpreB
    have key : ∀ n,
        (∀ buf c, (readTiers w m a c).result = .ok bytesA →
          (pFile w m n a buf c).result = .error Err.depthExceeded) ∧
        (∀ buf c, (readTiers w m b c).result = .ok bytesB →
          (pFile w m n b buf c).result = .error Err.depthExceeded) := by
      intro n
      induction n with
      | zero => exact ⟨fun _ _ _ => rfl, fun _ _ _ => rfl⟩
      | succ n ih =>
        constructor
        · intro buf c hread
          apply pFile_exceeds_of_exceeding_directive w m n a buf c bytesA preA _ postA hread
            hdsA (hpreA n)
          intro b1
          rw [(process_importLine w m n b b1 a hb.1 hb.2).1]
          exact ih.2 b1 a hAB
        · intro buf c hread
          apply pFile_exceeds_of_exceeding_directive w m n b buf c bytesB preB _ postB hread
            hdsB (hpreB n)
          intro b1
          rw [(process_importLine w m n a b1 b ha.1 ha.2).1]
          exact ih.1 b1 b hBA
    exact fun n => (key n).1

/-- C15, witness: with `a.bas` and `b.bas` importing each other, the import of
`a.bas` from `main.bas` exceeds the depth 7 (as it does every other depth). -/
theorem cyclic_import_never_returns_witness :
    (pFile wCycle "main.bas".toList 7 "a.bas".toList [] "main.bas".toList).result
      = .error Err.depthExceeded :=
  (cyclic_import_never_returns wCycle "main.bas".toList "a.bas".toList "b.bas".toList
    "a1\n'!rayonix import b.bas".toList "'!rayonix import a.bas\nb2".toList [] [] [] []
    (by decide) (by decide) (by decide) (by decide) (by decide) (by decide)).2
    (fun _ h => by cases h) (fun _ h => by cases h) 7 [] "main.bas".toList (by decide)

/-! ## Acyclic imports -/

theorem process_of_importTarget_some (w : World) (m : Str) (n : Nat) (line b : Str)
    (buf : List Str) (ctx : Str) (h : importTarget line = some b) :
    process w m n line buf ctx = pFile w m n b buf ctx := by
  unfold importTarget at h
  split_ifs at h with hc
  simp only [Option.some.injEq] at h
  rw [process_import w m n line buf ctx hc.1 hc.2.1 hc.2.2, ← h]
  rfl

theorem process_of_importTarget_none (w : World) (m : Str) (n : Nat) (line : Str)
    (buf : List Str) (ctx : Str) (h : importTarget line = none) :
    process w m n line buf ctx = process w m 0 line buf ctx ∧
    (process w m 0 line buf ctx).result ≠ .error Err.depthExceeded := by
  unfold importTarget at h
  split_ifs at h with hc
  unfold process processWith
  simp only []
  split_ifs with h2 himp h3 h17 hmeta h3' h15
  · exact ⟨rfl, by simp [Run.pure_def, Run.ret]⟩
  · exact ⟨rfl, by simp [Run.pure_def, Run.ret]⟩
  · exact ⟨rfl, by simp [Run.fail]⟩
  · exact absurd ⟨himp, by omega, by omega⟩ hc
  · exact ⟨rfl, by simp [Run.pure_def, Run.ret]⟩
  · exact ⟨rfl, by simp [Run.fail]⟩
  · exact ⟨rfl, pMeta_result_ne w _ _ _ (by decide)⟩
  · exact ⟨rfl, by simp [Run.pure_def, Run.ret]⟩

theorem process_stable (w : World) (m : Str) (d ctx : Str) (n1 n2 : Nat)
    (h : ∀ b, importTarget d = some b → ∀ buf, pFile w m n1 b buf ctx = pFile w m n2 b buf ctx)
    (buf : List Str) : process w m n1 d buf ctx = process w m n2 d buf ctx := by
  cases ht : importTarget d with
  | none =>
    rw [(process_of_importTarget_none w m n1 d buf ctx ht).1,
      (process_of_importTarget_none w m n2 d buf ctx ht).1]
  | some b =>
    rw [process_of_importTarget_some w m n1 d b buf ctx ht,
      process_of_importTarget_some w m n2 d b buf ctx ht]
    exact h b ht buf

theorem process_within_depth (w : World) (m : Str) (d ctx : Str) (n : Nat)
    (h : ∀ b, importTarget d = some b →
      ∀ buf, (pFile w m n b buf ctx).result ≠ .error Err.depthExceeded)
    (buf : List Str) : (process w m n d buf ctx).result ≠ .error Err.depthExceeded := by
  cases ht : importTarget d with
  | none =>
    rw [(process_of_importTarget_none w m n d buf ctx ht).1]
    exact (process_of_importTarget_none w m n d buf ctx ht).2
  | some b =>
    rw [process_of_importTarget_some w m n d b buf ctx ht]
    exact h b ht buf

theorem dispatchAll_congr (proc1 proc2 : Str → List Str → Str → Run (List Str)) (ctx : Str)
    (ds : List Str) (h : ∀ d ∈ ds, ∀ buf, proc1 d buf ctx = proc2 d buf ctx) (buf : List Str) :
    dispatchAll proc1 ctx ds buf = dispatchAll proc2 ctx ds buf := by
  induction ds generalizing buf with
  | nil => rfl
  | cons d ds ih =>
    simp only [dispatchAll, Run.bind_def]
    rw [h d (by simp) buf]
    congr 1
    funext b
    exact ih (fun d' hd' => h d' (List.mem_cons_of_mem _ hd')) b

/-- With a bound on the import chains of a file, its import is the same run for
every depth above the bound, and that run does not hit the bound. -/
theorem pFile_stable (w : World) (m : Str) (k : Nat) (a c : Str)
    (h : chainBound w m k a c = true) (n : Nat) (hn : k + 1 ≤ n) (buf : List Str) :
    pFile w m n a buf c = pFile w m (k + 1) a buf c ∧
    (pFile w m (k + 1) a buf c).result ≠ .error Err.depthExceeded := by
  induction k generalizing a c n buf with
  | zero =>
    obtain ⟨n', rfl⟩ : ∃ n', n = n' + 1 := ⟨n - 1, by omega⟩
    rw [pFile_succ, pFile_succ]
    unfold chainBound at h
    rcases hx : readTiers w m a c with ⟨t, res⟩
    rw [hx] at h
    cases res with
    | error e =>
      have hres : (readTiers w m a c).result = .error e := by rw [hx]
      have := readTiers_error_fatal w m a c e hres
      subst this
      exact ⟨rfl, by simp [Run.andThen]⟩
    | ok bytes =>
      simp only [List.all_eq_true] at h
      have hnone : ∀ d ∈ (directiveLines (splitLines bytes)).map normalize,
          importTarget d = none := by
        intro d hd
        have := h d hd
        cases ht : importTarget d with
        | none => rfl
        | some b => simp [ht] at this
      rw [Run.andThen_mk_ok, Run.andThen_mk_ok, scanAndAppend_eq, scanAndAppend_eq]
      constructor
      · rw [dispatchAll_congr (process w m n') (process w m 0) a _
          (fun d hd b => process_stable w m d a n' 0
            (fun b' hb' => by rw [hnone d hd] at hb'; cases hb') b)]
      · simp only [Run.after]
        apply mapResult_result_ne
        apply dispatchAll_result_ne
        intro d hd b
        exact process_within_depth w m d a 0
          (fun b' hb' => by rw [hnone d hd] at hb'; cases hb') b
  | succ k ih =>
    obtain ⟨n', rfl⟩ : ∃ n', n = n' + 1 := ⟨n - 1, by omega⟩
    rw [pFile_succ, pFile_succ]
    unfold chainBound at h
    rcases hx : readTiers w m a c with ⟨t, res⟩
    rw [hx] at h
    cases res with
    | error e =>
      have hres : (readTiers w m a c).result = .error e := by rw [hx]
      have := readTiers_error_fatal w m a c e hres
      subst this
      exact ⟨rfl, by simp [Run.andThen]⟩
    | ok bytes =>
      simp only [List.all_eq_true] at h
      have hsome : ∀ d ∈ (directiveLines (splitLines bytes)).map normalize,
          ∀ b, importTarget d = some b → chainBound w m k b a = true := by
        intro d hd b ht
        have := h d hd
        simpa [ht] using this
      rw [Run.andThen_mk_ok, Run.andThen_mk_ok, scanAndAppend_eq, scanAndAppend_eq]
      constructor
      · rw [dispatchAll_congr (process w m n') (process w m (k + 1)) a _
          (fun d hd b => process_stable w m d a n' (k + 1)
            (fun b' hb' buf' => (ih b' a (hsome d hd b' hb') n' (by omega) buf').1) b)]
      · simp only [Run.after]
        apply mapResult_result_ne
        apply dispatchAll_result_ne
        intro d hd b
        exact process_within_depth w m d a (k + 1)
          (fun b' hb' buf' => (ih b' a (hsome d hd b' hb') (k + 1) (le_refl _) buf').2) b

theorem assemble_stable (w : World) (m : Str) (bound : Nat) (filePath : Str)
    (h : entryChainBound w m bound filePath = true) (n : Nat) (hn : bound ≤ n) :
    assemble w m n filePath = assemble w m bound filePath ∧
    (assemble w m bound filePath).result ≠ .error Err.depthExceeded := by
  rw [assemble_eq, assemble_eq]
  unfold entryChainBound at h
  cases hread : w.readFile filePath with
  | none => exact ⟨rfl, by simp⟩
  | some bytes =>
    rw [hread] at h
    simp only [List.all_eq_true] at h
    have hstable : ∀ d ∈ (directiveLines (splitLines bytes)).map
        (fun oline => normalize oline ++ "\r\n".toList),
        ∀ b, importTarget d = some b →
          ∀ buf, pFile w m n b buf filePath = pFile w m bound b buf filePath ∧
            (pFile w m bound b buf filePath).result ≠ .error Err.depthExceeded := by
      intro d hd b ht buf
      have hb := h d hd
      rw [ht] at hb
      cases bound with
      | zero => simp at hb
      | succ k => exact pFile_stable w m k b filePath hb n hn buf
    simp only []
    constructor
    · rw [dispatchAll_congr (process w m n) (process w m bound) filePath _
        (fun d hd b => process_stable w m d filePath n bound
          (fun b' hb' buf' => (hstable d hd b' hb' buf').1) b)]
    · simp only [Run.after]
      apply mapResult_result_ne
      apply dispatchAll_result_ne
      intro d hd b
      exact process_within_depth w m d filePath bound
        (fun b' hb' buf' => (hstable d hd b' hb' buf').2) b

/-- A bound in the sense of `entryChainBound` is a bound for the whole build. -/
theorem buildProject_stable (w : World) (m : Str) (bound : Nat) (filePath : Str)
    (h : entryChainBound w m bound filePath = true) (outPath : Str) :
    (∀ n, bound ≤ n →
      buildProject w m n filePath outPath = buildProject w m bound filePath outPath) ∧
    (buildProject w m bound filePath outPath).result ≠ .error Err.depthExceeded := by
  have hs := fun n hn => assemble_stable w m bound filePath h n hn
  constructor
  · intro n hn
    unfold buildProject
    rw [(hs n hn).1]
  · have hne := (hs bound (le_refl _)).2
    cases hres : (assemble w m bound filePath).result with
    | error e =>
      rw [buildProject_of_error w m bound filePath outPath e hres]
      intro hc
      simp only [Except.error.injEq] at hc
      rw [hc] at hres
      exact hne hres
    | ok finished =>
      rw [buildProject_of_ok w m bound filePath outPath finished hres, writeOutput_eq]
      by_cases hc : w.createOk outPath = true
      · by_cases hz : w.closeOk outPath = true <;> simp [hc, hz, Run.after]
      · simp [hc, Run.after]

/-- C15, counterexample: `a.bas` holds an import that resolves to `b.bas`, and
`b.bas` an import that resolves to `a.bas`, but `a.bas` first imports a file that
exists nowhere. The import of `a.bas` does not recurse without bound: with room
for 2 nested calls as with room for 50 the run is the same four reads and ends
fatally there. -/
theorem cycle_behind_failing_import_is_not_entered :
    (directiveLines (splitLines "'!rayonix import gone.bas\n'!rayonix import b.bas".toList)).map
        normalize
      = ["'!rayonix import gone.bas".toList, "'!rayonix import b.bas".toList] ∧
    (readTiers wCycleBroken "main.bas".toList "b.bas".toList "a.bas".toList).result
      = .ok "'!rayonix import a.bas".toList ∧
    (readTiers wCycleBroken "main.bas".toList "a.bas".toList "b.bas".toList).result
      = .ok "'!rayonix import gone.bas\n'!rayonix import b.bas".toList ∧
    pFile wCycleBroken "main.bas".toList 2 "a.bas".toList [] "main.bas".toList
      = ⟨[Event.readFile "a.bas".toList, Event.readFile "gone.bas".toList,
          Event.readFile "gone.bas".toList, Event.readFile "gone.bas".toList],
        .error Err.fatal⟩ ∧
    pFile wCycleBroken "main.bas".toList 50 "a.bas".toList [] "main.bas".toList
      = pFile wCycleBroken "main.bas".toList 2 "a.bas".toList [] "main.bas".toList := by
  decide

/-! ## Chains of imports -/

theorem openedPath_of_readTiers_ok (w : World) (m a c bytes : Str)
    (h : (readTiers w m a c).result = .ok bytes) : ∃ p, openedPath w m a c = some p := by
  rw [readTiers_eq] at h
  unfold openedPath
  cases h1 : w.readFile a with
  | some b1 => exact ⟨a, by simp⟩
  | none =>
    cases h2 : w.readFile (folderOf m ++ a) with
    | some b2 => exact ⟨folderOf m ++ a, by simp⟩
    | none =>
      cases h3 : w.readFile (folderOf c ++ a) with
      | some b3 => exact ⟨folderOf c ++ a, by simp⟩
      | none => simp [h1, h2, h3] at h

theorem openedPath_readable (w : World) (m a c p : Str) (h : openedPath w m a c = some p) :
    (w.readFile p).isSome = true := by
  unfold openedPath at h
  split_ifs at h with h1 h2 h3
  · cases h; exact h1
  · cases h; exact h2
  · cases h; exact h3

theorem openedPath_of_mem_importsOf (w : World) (m a c b : Str) (h : b ∈ importsOf w m a c) :
    ∃ p, openedPath w m a c = some p := by
  unfold importsOf at h
  cases hx : (readTiers w m a c).result with
  | error e => simp [hx] at h
  | ok bytes => exact openedPath_of_readTiers_ok w m a c bytes hx

theorem mem_importsOf (w : World) (m a c bytes d b : Str)
    (hread : (readTiers w m a c).result = .ok bytes)
    (hd : d ∈ (directiveLines (splitLines bytes)).map normalize)
    (ht : importTarget d = some b) : b ∈ importsOf w m a c := by
  unfold importsOf
  rw [hread]
  exact List.mem_filterMap.2 ⟨d, hd, ht⟩

/-- Along a chain every import but the last has found its file. -/
theorem chainFilesFrom_length (w : World) (m : Str) (a c : Str) (bs : List Str)
    (h : isChainFrom w m a c bs = true) : bs.length ≤ (chainFilesFrom w m a c bs).length := by
  induction bs generalizing a c with
  | nil => simp
  | cons b rest ih =>
    simp only [isChainFrom, Bool.and_eq_true, List.contains_iff_exists_mem_beq] at h
    obtain ⟨⟨b', hb', hbeq⟩, hrest⟩ := h
    obtain ⟨p, hp⟩ := openedPath_of_mem_importsOf w m a c b' hb'
    have := ih b a hrest
    simp only [chainFilesFrom, hp, Option.toList, List.length_append, List.length_cons,
      List.length_nil]
    omega

theorem chainFilesFrom_readable (w : World) (m : Str) (a c : Str) (bs : List Str) :
    ∀ p ∈ chainFilesFrom w m a c bs, (w.readFile p).isSome = true := by
  induction bs generalizing a c with
  | nil =>
    intro p hp
    simp only [chainFilesFrom, Option.mem_toList, Option.mem_def] at hp
    exact openedPath_readable w m a c p hp
  | cons b rest ih =>
    intro p hp
    simp only [chainFilesFrom, List.mem_append, Option.mem_toList, Option.mem_def] at hp
    rcases hp with hp | hp
    · exact openedPath_readable w m a c p hp
    · exact ih b a p hp

/-- A chain from the entry document opens at least as many files as it has
imports but one. -/
theorem entryChain_length (w : World) (m filePath : Str) (bs : List Str)
    (h : isEntryChain w m filePath bs = true) :
    bs.length ≤ (entryChainFiles w m filePath bs).length + 1 := by
  cases bs with
  | nil => simp
  | cons b rest =>
    simp only [isEntryChain, Bool.and_eq_true] at h
    have := chainFilesFrom_length w m b filePath rest h.2
    simp only [entryChainFiles, List.length_cons]
    omega

/-- Chains that open no file twice, among finitely many files, are bounded. -/
theorem entryChain_bounded (w : World) (m filePath : Str) (files : List Str)
    (hfin : ∀ bs, isEntryChain w m filePath bs = true →
      ∀ p ∈ entryChainFiles w m filePath bs, p ∈ files)
    (hacyc : ∀ bs, isEntryChain w m filePath bs = true →
      (entryChainFiles w m filePath bs).Nodup)
    (bs : List Str) (h : isEntryChain w m filePath bs = true) :
    bs.length ≤ files.length + 1 := by
  have h1 := entryChain_length w m filePath bs h
  have h2 : (entryChainFiles w m filePath bs).length ≤ files.length :=
    (List.subperm_of_subset (hacyc bs h) (fun p hp => hfin bs h p hp)).length_le
  omega

/-- A bound on the chains below a file is a bound in the sense of `chainBound`. -/
theorem chainBound_of_chains (w : World) (m : Str) (k : Nat) (a c : Str)
    (h : ∀ bs, isChainFrom w m a c bs = true → bs.length ≤ k) :
    chainBound w m k a c = true := by
  induction k generalizing a c with
  | zero =>
    unfold chainBound
    cases hx : (readTiers w m a c).result with
    | error e => rfl
    | ok bytes =>
      simp only [List.all_eq_true]
      intro d hd
      cases ht : importTarget d with
      | none => rfl
      | some b =>
        exfalso
        have hb := mem_importsOf w m a c bytes d b hx hd ht
        have := h [b] (by
          simp only [isChainFrom, Bool.and_true, List.contains_iff_exists_mem_beq]
          exact ⟨b, hb, by simp⟩)
        simp at this
  | succ k ih =>
    unfold chainBound
    cases hx : (readTiers w m a c).result with
    | error e => rfl
    | ok bytes =>
      simp only [List.all_eq_true]
      intro d hd
      cases ht : importTarget d with
      | none => rfl
      | some b =>
        have hb := mem_importsOf w m a c bytes d b hx hd ht
        simp only
        apply ih
        intro bs hbs
        have := h (b :: bs) (by
          simp only [isChainFrom, Bool.and_eq_true, List.contains_iff_exists_mem_beq]
          exact ⟨⟨b, hb, by simp⟩, hbs⟩)
        simp only [List.length_cons] at this
        omega

theorem entryChainBound_of_chains (w : World) (m : Str) (bound : Nat) (filePath : Str)
    (h : ∀ bs, isEntryChain w m filePath bs = true → bs.length ≤ bound) :
    entryChainBound w m bound filePath = true := by
  unfold entryChainBound
  cases hread : w.readFile filePath with
  | none => rfl
  | some bytes =>
    simp only [List.all_eq_true]
    intro d hd
    cases ht : importTarget d with
    | none => rfl
    | some b =>
      have hb : b ∈ entryImportsOf w filePath := by
        unfold entryImportsOf
        rw [hread]
        exact List.mem_filterMap.2 ⟨d, hd, ht⟩
      have hmem : (entryImportsOf w filePath).contains b = true := by
        rw [List.contains_iff_exists_mem_beq]
        exact ⟨b, hb, by simp⟩
      cases bound with
      | zero =>
        exfalso
        have := h [b] (by simp only [isEntryChain, isChainFrom, hmem, Bool.and_true])
        simp at this
      | succ k =>
        simp only
        apply chainBound_of_chains
        intro bs hbs
        have := h (b :: bs) (by simp only [isEntryChain, hmem, hbs, Bool.and_true])
        simp only [List.length_cons] at this
        omega

/-- Among bounded lengths, one of which is 0, there is a greatest. -/
theorem exists_greatest_length (P : Nat → Prop) (bound : Nat) (h0 : P 0)
    (hb : ∀ k, P k → k ≤ bound) : ∃ longest, P longest ∧ ∀ k, P k → k ≤ longest := by
  induction bound with
  | zero => exact ⟨0, h0, hb⟩
  | succ n ih =>
    by_cases hp : P (n + 1)
    · exact ⟨n + 1, hp, hb⟩
    · apply ih
      intro k hk
      have := hb k hk
      have hne : k ≠ n + 1 := fun e => hp (e ▸ hk)
      omega

set_option maxRecDepth 100000 in
theorem wSiblings_entryImports :
    entryImportsOf wSiblings "main.bas".toList = ["a.bas".toList, "b.bas".toList] := by decide

set_option maxRecDepth 100000 in
theorem wSiblings_imports_a :
    importsOf wSiblings "main.bas".toList "a.bas".toList "main.bas".toList
      = ["c.bas".toList] := by
  decide

set_option maxRecDepth 100000 in
theorem wSiblings_imports_b :
    importsOf wSiblings "main.bas".toList "b.bas".toList "main.bas".toList = [] := by
  decide

set_option maxRecDepth 100000 in
theorem wSiblings_imports_c :
    importsOf wSiblings "main.bas".toList "c.bas".toList "a.bas".toList = [] := by
  decide

/-- The chains of imports from `main.bas` in `wSiblings`. -/
theorem wSiblings_chains (bs : List Str)
    (h : isEntryChain wSiblings "main.bas".toList "main.bas".toList bs = true) :
    bs = [] ∨ bs = ["a.bas".toList] ∨ bs = ["b.bas".toList] ∨
      bs = ["a.bas".toList, "c.bas".toList] := by
  cases bs with
  | nil => exact Or.inl rfl
  | cons b rest =>
    simp only [isEntryChain, Bool.and_eq_true, wSiblings_entryImports,
      List.contains_iff_exists_mem_beq, List.mem_cons, List.mem_singleton, beq_iff_eq] at h
    obtain ⟨⟨b', hb', rfl⟩, hrest⟩ := h
    simp only [List.not_mem_nil, or_false] at hb'
    rcases hb' with rfl | rfl
    · cases rest with
      | nil => exact Or.inr (Or.inl rfl)
      | cons b2 rest2 =>
        simp only [isChainFrom, Bool.and_eq_true, wSiblings_imports_a,
          List.contains_iff_exists_mem_beq, List.mem_cons, List.mem_singleton, beq_iff_eq,
          List.not_mem_nil, or_false] at hrest
        obtain ⟨⟨c', rfl, rfl⟩, hrest2⟩ := hrest
        cases rest2 with
        | nil => exact Or.inr (Or.inr (Or.inr rfl))
        | cons b3 rest3 =>
          simp only [isChainFrom, Bool.and_eq_true, wSiblings_imports_c,
            List.contains_iff_exists_mem_beq, List.not_mem_nil, false_and, exists_false,
            and_false] at hrest2
    · cases rest with
      | nil => exact Or.inr (Or.inr (Or.inl rfl))
      | cons b2 rest2 =>
        simp only [isChainFrom, Bool.and_eq_true, wSiblings_imports_b,
          List.contains_iff_exists_mem_beq, List.not_mem_nil, false_and, exists_false,
          and_false] at hrest

/-- C16: take any entry document and any files such that the files opened along
the chains of imports that start in the entry document are finitely many, as
the files of a file system are (they all occur in the list `files`), and the
relation of importing among them is acyclic (no chain of imports from the entry
document opens the same file twice). Then the
chains of imports from the entry document have a greatest length `longest`, and
the resolution comes to an end within the recursion depth `longest`: with room
for `longest` nested calls of `pFile` the resolution, and the whole build, ends
with the document or with a failure of its own, never for want of depth, and
with room for any more nested calls the run is the very same. Likewise the import
of a file below which no chain has more than `k` imports ends within `k + 1`
nested calls of `pFile`. -/
theorem acyclic_imports_terminate (w : World) (m filePath : Str) (files : List Str)
    (hfin : ∀ bs, isEntryChain w m filePath bs = true →
      ∀ p ∈ entryChainFiles w m filePath bs, p ∈ files)
    (hacyc : ∀ bs, isEntryChain w m filePath bs = true →
      (entryChainFiles w m filePath bs).Nodup) :
    ∃ longest,
      (∃ bs, isEntryChain w m filePath bs = true ∧ bs.length = longest) ∧
      (∀ bs, isEntryChain w m filePath bs = true → bs.length ≤ longest) ∧
      longest ≤ files.length + 1 ∧
      (assemble w m longest filePath).result ≠ .error Err.depthExceeded ∧
      (∀ n, longest ≤ n → assemble w m n filePath = assemble w m longest filePath) ∧
      (∀ outPath,
        (buildProject w m longest filePath outPath).result ≠ .error Err.depthExceeded) ∧
      (∀ n outPath, longest ≤ n →
        buildProject w m n filePath outPath = buildProject w m longest filePath outPath) ∧
      (∀ k a c, (∀ bs, isChainFrom w m a c bs = true → bs.length ≤ k) →
        ∀ n buf, k + 1 ≤ n →
          pFile w m n a buf c = pFile w m (k + 1) a buf c ∧
          (pFile w m (k + 1) a buf c).result ≠ .error Err.depthExceeded) := by
  obtain ⟨longest, ⟨bs, hbs, hlen⟩, hmax⟩ :=
    exists_greatest_length
      (fun k => ∃ bs, isEntryChain w m filePath bs = true ∧ bs.length = k)
      (files.length + 1) ⟨[], rfl, rfl⟩
      (fun k ⟨bs, hbs, hlen⟩ => hlen ▸ entryChain_bounded w m filePath files hfin hacyc bs hbs)
  have hall : ∀ bs, isEntryChain w m filePath bs = true → bs.length ≤ longest :=
    fun bs hbs => hmax bs.length ⟨bs, hbs, rfl⟩
  have hbound := entryChainBound_of_chains w m longest filePath hall
  have hs := fun n hn => assemble_stable w m longest filePath hbound n hn
  refine ⟨longest, ⟨bs, hbs, hlen⟩, hall, ?_, (hs longest (le_refl _)).2,
    fun n hn => (hs n hn).1,
    fun outPath => (buildProject_stable w m longest filePath hbound outPath).2,
    fun n outPath hn => (buildProject_stable w m longest filePath hbound outPath).1 n hn,
    fun k a c hk n buf hn =>
      pFile_stable w m k a c (chainBound_of_chains w m k a c hk) n hn buf⟩
  rw [← hlen]
  exact entryChain_bounded w m filePath files hfin hacyc bs hbs

set_option maxRecDepth 100000 in
/-- C16, witness: in `wSiblings` the chains of imports from `main.bas` open the
files `a.bas`, `b.bas` and `c.bas`, none of them twice, and the longest of them,
`a.bas` then `c.bas`, has 2 imports; room for 1 nested call is not enough. -/
theorem acyclic_imports_terminate_witness :
    (∀ bs, isEntryChain wSiblings "main.bas".toList "main.bas".toList bs = true →
      ∀ p ∈ entryChainFiles wSiblings "main.bas".toList "main.bas".toList bs,
        p ∈ ["a.bas".toList, "b.bas".toList, "c.bas".toList]) ∧
    (∀ bs, isEntryChain wSiblings "main.bas".toList "main.bas".toList bs = true →
      (entryChainFiles wSiblings "main.bas".toList "main.bas".toList bs).Nodup) ∧
    isEntryChain wSiblings "main.bas".toList "main.bas".toList
      ["a.bas".toList, "c.bas".toList] = true ∧
    entryChainFiles wSiblings "main.bas".toList "main.bas".toList
      ["a.bas".toList, "c.bas".toList] = ["a.bas".toList, "c.bas".toList] ∧
    (assemble wSiblings "main.bas".toList 1 "main.bas".toList).result
      = .error Err.depthExceeded ∧
    ∃ longest,
      (∃ bs, isEntryChain wSiblings "main.bas".toList "main.bas".toList bs = true ∧
        bs.length = longest) ∧
      (∀ bs, isEntryChain wSiblings "main.bas".toList "main.bas".toList bs = true →
        bs.length ≤ longest) ∧
      longest ≤ ["a.bas".toList, "b.bas".toList, "c.bas".toList].length + 1 ∧
      (assemble wSiblings "main.bas".toList longest "main.bas".toList).result
        ≠ .error Err.depthExceeded ∧
      (∀ n, longest ≤ n → assemble wSiblings "main.bas".toList n "main.bas".toList
        = assemble wSiblings "main.bas".toList longest "main.bas".toList) ∧
      (∀ outPath, (buildProject wSiblings "main.bas".toList longest "main.bas".toList
        outPath).result ≠ .error Err.depthExceeded) ∧
      (∀ n outPath, longest ≤ n →
        buildProject wSiblings "main.bas".toList n "main.bas".toList outPath
          = buildProject wSiblings "main.bas".toList longest "main.bas".toList outPath) ∧
      (∀ k a c, (∀ bs, isChainFrom wSiblings "main.bas".toList a c bs = true → bs.length ≤ k) →
        ∀ n buf, k + 1 ≤ n →
          pFile wSiblings "main.bas".toList n a buf c
            = pFile wSiblings "main.bas".toList (k + 1) a buf c ∧
          (pFile wSiblings "main.bas".toList (k + 1) a buf c).result
            ≠ .error Err.depthExceeded) :=
  have hfin : ∀ bs, isEntryChain wSiblings "main.bas".toList "main.bas".toList bs = true →
      ∀ p ∈ entryChainFiles wSiblings "main.bas".toList "main.bas".toList bs,
        p ∈ ["a.bas".toList, "b.bas".toList, "c.bas".toList] := by
    intro bs h
    rcases wSiblings_chains bs h with rfl | rfl | rfl | rfl <;> decide
  have hacyc : ∀ bs, isEntryChain wSiblings "main.bas".toList "main.bas".toList bs = true →
      (entryChainFiles wSiblings "main.bas".toList "main.bas".toList bs).Nodup := by
    intro bs h
    rcases wSiblings_chains bs h with rfl | rfl | rfl | rfl <;> decide
  ⟨hfin, hacyc, by decide, by decide, by decide,
    acyclic_imports_terminate wSiblings "main.bas".toList "main.bas".toList
      ["a.bas".toList, "b.bas".toList, "c.bas".toList] hfin hacyc⟩

set_option maxRecDepth 100000 in
/-- A cyclic import relation is not acyclic in the sense above: in `wCycle` the
chain `a.bas`, `b.bas`, `a.bas` from `main.bas` opens `a.bas` twice. -/
theorem cyclic_chain_opens_a_file_twice :
    isEntryChain wCycle "main.bas".toList "main.bas".toList
      ["a.bas".toList, "b.bas".toList, "a.bas".toList] = true ∧
    entryChainFiles wCycle "main.bas".toList "main.bas".toList
      ["a.bas".toList, "b.bas".toList, "a.bas".toList]
      = ["a.bas".toList, "b.bas".toList, "a.bas".toList] ∧
    ¬ (entryChainFiles wCycle "main.bas".toList "main.bas".toList
      ["a.bas".toList, "b.bas".toList, "a.bas".toList]).Nodup := by
  decide

end Rayonix
